import Mathlib

/-!
Shallow embedding of the jam-nodes workflow execution engine core:
the execution context (variable store, interpolation), the single-node
executor (retry and cache), the topological planner, and the workflow
executor with skip propagation.  Definitions mirror the TypeScript
source; external collaborators (the zod schema parser, the jsonpath-plus
library, the per-attempt executor outcome) are function parameters.
-/

set_option maxHeartbeats 1000000

/-- Dynamic JavaScript-style value: the untyped values held in the
execution context's variable store.  Plain objects are ordered key/value
lists (JS object insertion order); `undefined` is modeled as `none` at
use sites. -/
inductive JSValue where
  | null : JSValue
  | bool : Bool → JSValue
  | num : Int → JSValue
  | str : String → JSValue
  | arr : List JSValue → JSValue
  | obj : List (String × JSValue) → JSValue

/-- Ordered association list with JavaScript object / Map semantics. -/
abbrev JMap (α : Type) := List (String × α)

/-- JS property / Map.set write: update the (unique) existing slot in
place, or append at the end when the key is new. -/
def aset {α : Type} : JMap α → String → α → JMap α
  | [], k, v => [(k, v)]
  | p :: rest, k, v => if p.1 = k then (k, v) :: rest else p :: aset rest k v

/-- JS property / Map.get read (`undefined` modeled as `none`). -/
def aget {α : Type} (m : JMap α) (k : String) : Option α :=
  (m.find? (fun p => p.1 = k)).map (fun p => p.2)

/-- The execution context's variable map (`this.variables`). -/
abbrev Vars := JMap JSValue

/-- ExecutionContext.setVariable. -/
def setVariable (vars : Vars) (name : String) (value : JSValue) : Vars :=
  aset vars name value

/-- ExecutionContext.getVariable. -/
def getVariable (vars : Vars) (name : String) : Option JSValue :=
  aget vars name

/-- ExecutionContext.storeNodeOutput: store under the node id, then, when
the output is a plain object (not null, not an array), merge each of its
entries into the top-level variable map. -/
def storeNodeOutput (vars : Vars) (nodeId : String) (output : JSValue) : Vars :=
  let vars' := setVariable vars nodeId output
  match output with
  | JSValue.obj kvs => kvs.foldl (fun vs kv => setVariable vs kv.1 kv.2) vars'
  | _ => vars'

/-- States that `k` is not among the keys of `v` whenever `v` is a plain
object; vacuously true for non-object values. -/
def objKeysAvoid (v : JSValue) (k : String) : Prop :=
  ∀ kvs, v = JSValue.obj kvs → k ∉ kvs.map Prod.fst

/- ## Template interpolation (ExecutionContext.interpolate and helpers) -/

/-- Left curly bracket. -/
def lcub : Char := '\x7b'

/-- Right curly bracket. -/
def rcub : Char := '\x7d'

/-- Minimal JSON string escaping (quote and backslash), as performed by
JSON.stringify on the strings appearing in this development. -/
def jsonEscape (s : String) : String :=
  String.mk (s.data.foldr
    (fun c acc => if c = '"' ∨ c = '\\' then '\\' :: c :: acc else c :: acc) [])

mutual

/-- JSON.stringify on the dynamic value type (used by formatValue for
plain objects and by the default cache key function). -/
def jsonStringify : JSValue → String
  | JSValue.null => "null"
  | JSValue.bool b => toString b
  | JSValue.num n => toString n
  | JSValue.str s => "\"" ++ jsonEscape s ++ "\""
  | JSValue.arr vs => "[" ++ String.intercalate "," (jsonStringifyList vs) ++ "]"
  | JSValue.obj kvs =>
      String.mk [lcub] ++ String.intercalate "," (jsonStringifyEntries kvs) ++ String.mk [rcub]

/-- JSON.stringify over array elements. -/
def jsonStringifyList : List JSValue → List String
  | [] => []
  | v :: vs => jsonStringify v :: jsonStringifyList vs

/-- JSON.stringify over object entries. -/
def jsonStringifyEntries : List (String × JSValue) → List String
  | [] => []
  | (k, v) :: kvs =>
      ("\"" ++ jsonEscape k ++ "\":" ++ jsonStringify v) :: jsonStringifyEntries kvs

end

mutual

/-- ExecutionContext.formatValue: coerce a value to a string for
interpolation into a larger template. -/
def formatValue : JSValue → String
  | JSValue.null => ""
  | JSValue.str s => s
  | JSValue.num n => toString n
  | JSValue.bool b => toString b
  | JSValue.arr vs => String.intercalate ", " (formatValueList vs)
  | JSValue.obj kvs => jsonStringify (JSValue.obj kvs)

/-- formatValue mapped over array elements. -/
def formatValueList : List JSValue → List String
  | [] => []
  | v :: vs => formatValue v :: formatValueList vs

end

/-- formatValue extended to the absent value (`undefined` maps to ""). -/
def formatValueOpt : Option JSValue → String
  | none => ""
  | some v => formatValue v

/-- JS String.prototype.trim on the character list model. -/
def jsTrim (s : String) : String :=
  String.mk (((s.data.dropWhile Char.isWhitespace).reverse.dropWhile
    Char.isWhitespace).reverse)

/-- Whether the expression starts with the JSONPath dollar marker. -/
def startsWithDollar (s : String) : Bool :=
  match s.data with
  | [] => false
  | c :: _ => c = '$'

/-- JS String.prototype.split on a single separator character. -/
def splitOnChar (sep : Char) : List Char → List (List Char)
  | [] => [[]]
  | c :: cs =>
    match splitOnChar sep cs with
    | [] => [[]]
    | g :: gs => if c = sep then [] :: g :: gs else (c :: g) :: gs

/-- JS word character, as in the regex character class backslash-w. -/
def isWordChar (c : Char) : Bool :=
  c.isAlpha || c.isDigit || c = '_'

/-- Decimal digits to a natural number (parseInt on an all-digit string). -/
def digitsToNat (ds : List Char) : Nat :=
  ds.foldl (fun n c => 10 * n + (c.toNat - '0'.toNat)) 0

/-- Match of the keyed-array-access part pattern: a nonempty word-char key
followed by a bracketed nonempty digit index, nothing else. -/
def parseKeyedIndex (cs : List Char) : Option (String × Nat) :=
  let key := cs.takeWhile isWordChar
  let rest := cs.dropWhile isWordChar
  if key.isEmpty then none
  else
    match rest with
    | '[' :: rest' =>
      let ds := rest'.takeWhile Char.isDigit
      if ds.isEmpty then none
      else
        match rest'.dropWhile Char.isDigit with
        | [']'] => some (String.mk key, digitsToNat ds)
        | _ => none
    | _ => none

/-- Match of the standalone-index part pattern: a bracketed nonempty digit
index, nothing else. -/
def parseBareIndex (cs : List Char) : Option Nat :=
  match cs with
  | '[' :: rest =>
    let ds := rest.takeWhile Char.isDigit
    if ds.isEmpty then none
    else
      match rest.dropWhile Char.isDigit with
      | [']'] => some (digitsToNat ds)
      | _ => none
  | _ => none

/-- JS property read `value[key]` for the cases the path resolver
exercises: object key lookup, and numeric-string indexing into arrays. -/
def jsGetProp (v : JSValue) (key : String) : Option JSValue :=
  match v with
  | JSValue.obj kvs => aget kvs key
  | JSValue.arr vs =>
      if key ≠ "" ∧ key.data.all Char.isDigit then vs.get? (digitsToNat key.data)
      else none
  | _ => none

/-- One step of ExecutionContext.resolveNestedPath over a single
dot-separated part. -/
def resolveStep (current : Option JSValue) (part : String) : Option JSValue :=
  match current with
  | none => none
  | some JSValue.null => none
  | some cur =>
    match parseKeyedIndex part.data with
    | some (key, idx) =>
      match jsGetProp cur key with
      | some (JSValue.arr vs) => vs.get? idx
      | _ => none
    | none =>
      match parseBareIndex part.data with
      | some idx =>
        match cur with
        | JSValue.arr vs => vs.get? idx
        | _ => none
      | none => jsGetProp cur part

/-- ExecutionContext.resolveNestedPath: traverse a dot/bracket path over
the variable map; the empty path returns the whole map. -/
def resolveNestedPath (vars : Vars) (path : String) : Option JSValue :=
  if path = "" then some (JSValue.obj vars)
  else ((splitOnChar '.' path.data).map String.mk).foldl resolveStep
    (some (JSValue.obj vars))

/-- ExecutionContext.evaluateJsonPath: call the external jsonpath-plus
library (a parameter `jp`; `none` models a thrown error, caught and
turned into the absent value), unwrapping singleton result arrays. -/
def evaluateJsonPath (jp : String → Option JSValue) (path : String) : Option JSValue :=
  match jp path with
  | none => none
  | some (JSValue.arr [v]) => some v
  | some r => some r

/-- Resolution of one interpolation expression: JSONPath when it starts
with a dollar sign, nested-path resolution otherwise. -/
def resolveExpr (jp : String → Option JSValue) (vars : Vars) (e : String) : Option JSValue :=
  if startsWithDollar e then evaluateJsonPath jp e else resolveNestedPath vars e

/-- The anchored single-template regex of interpolate: the whole string is
one pair of doubled curly brackets around a nonempty run of
non-right-bracket characters.  Returns the inner expression. -/
def singleVarMatch (t : String) : Option String :=
  match t.data with
  | c1 :: c2 :: rest =>
    if c1 = lcub ∧ c2 = lcub then
      let inner := rest.takeWhile (fun c => c ≠ rcub)
      if 0 < inner.length ∧ rest.dropWhile (fun c => c ≠ rcub) = [rcub, rcub]
      then some (String.mk inner) else none
    else none
  | _ => none

/-- The unanchored doubled-bracket template regex, matched at the start
of `cs`: two left brackets, a nonempty run of non-right-bracket
characters (the captured expression), two right brackets.  Returns the
captured expression and the remainder after the match (whose strictly
smaller length is carried for termination of the scan). -/
def matchTemplate : (cs : List Char) → Option (List Char × {rest : List Char // rest.length < cs.length})
  | c1 :: c2 :: rest =>
    if c1 = lcub ∧ c2 = lcub then
      if 1 ≤ (rest.takeWhile (fun x => x ≠ rcub)).length ∧
          (rest.dropWhile (fun x => x ≠ rcub)).take 2 = [rcub, rcub] then
        some (rest.takeWhile (fun x => x ≠ rcub),
          ⟨(rest.dropWhile (fun x => x ≠ rcub)).drop 2, by
            have hle : (rest.dropWhile (fun x => x ≠ rcub)).length ≤ rest.length :=
              (List.dropWhile_sublist _).length_le
            simp only [List.length_cons, List.length_drop]
            omega⟩)
      else none
    else none
  | _ => none

/-- The global template-replacement scan of interpolate: find each
leftmost doubled-bracket template, substitute its resolved value coerced
to string, and continue after it; characters not part of a template are
copied through (a failed match advances the scan by one character, as the
regex engine does). -/
def replaceCore (jp : String → Option JSValue) (vars : Vars) : List Char → List Char
  | [] => []
  | c :: cs =>
    match matchTemplate (c :: cs) with
    | some (inner, rest) =>
      (formatValueOpt (resolveExpr jp vars (jsTrim (String.mk inner)))).data
        ++ replaceCore jp vars rest.1
    | none => c :: replaceCore jp vars cs
termination_by cs => cs.length
decreasing_by
  · exact rest.2
  · simp

/-- replaceCore on whole strings. -/
def replaceTemplates (jp : String → Option JSValue) (vars : Vars) (t : String) : String :=
  String.mk (replaceCore jp vars t.data)

/-- ExecutionContext.interpolate: a template that is exactly one
doubled-bracket expression resolves to the raw value; otherwise every
embedded template is substituted as a string. -/
def interpolate (jp : String → Option JSValue) (vars : Vars) (template : String) :
    Option JSValue :=
  match singleVarMatch template with
  | some inner => resolveExpr jp vars (jsTrim inner)
  | none => some (JSValue.str (replaceTemplates jp vars template))

/- ## Single-node executor (executeNode / executeWithRetry) -/

/-- NodeExecutionResult: outcome record produced by a node executor. -/
structure NodeResult where
  success : Bool
  output : Option JSValue := none
  error : Option String := none
  nextNodeId : Option String := none

/-- JS truthiness of an optional string (absent and empty are falsy). -/
def strTruthy : Option String → Bool
  | none => false
  | some s => !s.isEmpty

/-- RetryConfig: maxAttempts plus the optional retryOn predicate (the
predicate receives the error message). -/
structure RetryCfg where
  maxAttempts : Nat
  retryOn : Option (String → Bool) := none

/-- CacheConfig: enabled flag, ttl, optional custom key function. -/
structure CacheCfg where
  enabled : Bool
  ttlMs : Nat
  keyFn : Option (JSValue → String) := none

/-- ExecutionConfig for a single node: optional retry and cache settings
and the state of the abort signal (`cfg.signal?.aborted`). -/
structure ExecutionCfg where
  retry : Option RetryCfg := none
  cache : Option CacheCfg := none
  aborted : Bool := false

/-- Whether a configured retryOn predicate admits this error message
(absence of retryOn means retry any error). -/
def retryOnPass (retryOn : Option (String → Bool)) (msg : String) : Bool :=
  match retryOn with
  | none => true
  | some p => p msg

/-- Observable outcome of the retry loop: the returned result, the
onRetry callback firings (attempt number and error message, in order),
and the attempts on which the executor was invoked. -/
structure RetryOutcome where
  result : NodeResult
  retries : List (Nat × String)
  invoked : List Nat

/-- The retry loop of executeWithRetry.  `exec i` is the outcome of the
executor (under timeout) on attempt `i`: `Except.error` models a thrown
exception.  The fuel counts the remaining loop iterations
(`maxAttempts - attempt + 1`); the fuel-zero case is exactly the
post-loop fallthrough returning the last error. -/
def retryLoop (exec : Nat → Except String NodeResult) (maxAttempts : Nat)
    (retryOn : Option (String → Bool)) (aborted : Bool) :
    Nat → Nat → Option String → RetryOutcome
  | _, 0, lastError =>
    ⟨⟨false, none, some (lastError.getD "Execution failed"), none⟩, [], []⟩
  | attempt, fuel + 1, _ =>
    if aborted then ⟨⟨false, none, some "Execution aborted", none⟩, [], []⟩
    else
      match exec attempt with
      | Except.ok r =>
        if !r.success && strTruthy r.error && decide (attempt < maxAttempts)
            && retryOnPass retryOn (r.error.getD "") then
          let rest := retryLoop exec maxAttempts retryOn aborted (attempt + 1) fuel r.error
          ⟨rest.result, (attempt, r.error.getD "") :: rest.retries, attempt :: rest.invoked⟩
        else ⟨r, [], [attempt]⟩
      | Except.error e =>
        if decide (attempt < maxAttempts) && retryOnPass retryOn e then
          let rest := retryLoop exec maxAttempts retryOn aborted (attempt + 1) fuel (some e)
          ⟨rest.result, (attempt, e) :: rest.retries, attempt :: rest.invoked⟩
        else ⟨⟨false, none, some e, none⟩, [], [attempt]⟩

/-- executeWithRetry: run the loop from attempt 1. -/
def executeWithRetry (exec : Nat → Except String NodeResult) (cfg : ExecutionCfg) :
    RetryOutcome :=
  let maxAttempts := (cfg.retry.map RetryCfg.maxAttempts).getD 1
  let retryOn := cfg.retry.bind RetryCfg.retryOn
  retryLoop exec maxAttempts retryOn cfg.aborted 1 maxAttempts none

/-- A cache store mapping keys to stored results with their ttl
(expiry is wall-clock time, outside the model). -/
abbrev CacheMap := JMap (NodeResult × Nat)

/-- CacheStore.get (ignoring expiry, which depends on wall-clock time). -/
def storeGet (store : CacheMap) (k : String) : Option NodeResult :=
  (aget store k).map Prod.fst

/-- CacheStore.set. -/
def storeSet (store : CacheMap) (k : String) (r : NodeResult) (ttlMs : Nat) : CacheMap :=
  aset store k (r, ttlMs)

/-- executeNode: validate the input (`parse` models
node.inputSchema.parse; `Except.error` is a thrown validation error),
consult the cache when enabled, run the retry loop on a miss, and persist
only successful results.  Returns the result, the updated store, and the
attempts on which the executor was invoked. -/
def executeNode (parse : JSValue → Except String JSValue)
    (exec : Nat → Except String NodeResult) (input : JSValue)
    (cfg : ExecutionCfg) (store : CacheMap) :
    Except String (NodeResult × CacheMap × List Nat) :=
  match parse input with
  | Except.error e => Except.error e
  | Except.ok validatedInput =>
    match cfg.cache with
    | some cache =>
      if cache.enabled then
        let cacheKey := (cache.keyFn.getD jsonStringify) validatedInput
        match storeGet store cacheKey with
        | some cached => Except.ok (cached, store, [])
        | none =>
          let out := executeWithRetry exec cfg
          if out.result.success then
            Except.ok (out.result, storeSet store cacheKey out.result cache.ttlMs, out.invoked)
          else Except.ok (out.result, store, out.invoked)
      else
        let out := executeWithRetry exec cfg
        Except.ok (out.result, store, out.invoked)
    | none =>
      let out := executeWithRetry exec cfg
      Except.ok (out.result, store, out.invoked)

/- ## Topological planner (topologicalSort) -/

/-- A node instance within a workflow. -/
structure WorkflowNode where
  id : String
  type : String

/-- A directed edge; `condition` gates conditional branching. -/
structure WorkflowEdge where
  fromId : String
  toId : String
  condition : Option String := none

/-- A workflow DAG. -/
structure Workflow where
  nodes : List WorkflowNode
  edges : List WorkflowEdge
  entryNodeId : String

/-- The set of declared node ids, in first-occurrence order
(`new Set(workflow.nodes.map(n => n.id))`). -/
def nodeIdsOf (wf : Workflow) : List String :=
  wf.nodes.foldl (fun acc n => if n.id ∈ acc then acc else acc ++ [n.id]) []

/-- The cycle error thrown by the planner. -/
def cycleErrorMsg : String := "Workflow graph contains a cycle"

/-- The TypeError raised when an edge source is not a declared node:
`adjacency.get(edge.from)` is undefined and `.push` is read from it. -/
def pushTypeErrorMsg : String :=
  "TypeError: Cannot read properties of undefined (reading push)"

/-- The TypeError raised when a queued id has no adjacency entry (an
undeclared edge target that reached in-degree zero): iterating
`adjacency.get(id)` over undefined. -/
def iterTypeErrorMsg : String := "TypeError: undefined is not iterable"

/-- Internal-model fuel exhaustion marker.  The fuel passed by
topologicalSort is proven sufficient, so this message never escapes. -/
def fuelErrorMsg : String := "fuel exhausted"

/-- Fold one edge into the adjacency and in-degree maps:
`adjacency.get(edge.from)!.push(edge.to)` (TypeError when the source has
no adjacency entry), then `inDegree.set(edge.to, (get ?? 0) + 1)`. -/
def addEdge (st : JMap (List String) × JMap Int) (e : WorkflowEdge) :
    Except String (JMap (List String) × JMap Int) :=
  match aget st.1 e.fromId with
  | none => Except.error pushTypeErrorMsg
  | some lst =>
    Except.ok (aset st.1 e.fromId (lst ++ [e.toId]),
      aset st.2 e.toId ((aget st.2 e.toId).getD 0 + 1))

/-- Build the adjacency and in-degree maps from the edge list.  An edge
with an undeclared source throws a TypeError; an edge with an undeclared
target inserts a fresh in-degree entry (starting from zero, then
incremented). -/
def buildGraph (wf : Workflow) : Except String (JMap (List String) × JMap Int) :=
  let ids := nodeIdsOf wf
  let adj0 : JMap (List String) := ids.foldl (fun m id => aset m id []) []
  let deg0 : JMap Int := ids.foldl (fun m id => aset m id 0) []
  wf.edges.foldlM addEdge (adj0, deg0)

/-- One in-degree decrement: lower the neighbor by one and enqueue it
when the new degree is exactly zero. -/
def decStep (st : JMap Int × List String) (nb : String) : JMap Int × List String :=
  let nd := (aget st.1 nb).getD 0 - 1
  (aset st.1 nb nd, if nd = 0 then st.2 ++ [nb] else st.2)

/-- Process one queued id during a wave: decrement the in-degree of each
neighbor, enqueueing those that reach exactly zero. -/
def processId (adj : JMap (List String)) (st : JMap Int × List String) (id : String) :
    Except String (JMap Int × List String) :=
  match aget adj id with
  | none => Except.error iterTypeErrorMsg
  | some nbrs => Except.ok (nbrs.foldl decStep st)

/-- Process a whole wave, producing the updated in-degree map and the
next queue. -/
def processWave (adj : JMap (List String)) (deg : JMap Int) (queue : List String) :
    Except String (JMap Int × List String) :=
  queue.foldlM (processId adj) (deg, [])

/-- The wave loop of Kahn's algorithm. -/
def kahnLoop (adj : JMap (List String)) :
    Nat → JMap Int → List String → Except String (List (List String))
  | 0, _, _ => Except.error fuelErrorMsg
  | fuel + 1, deg, queue =>
    if queue.isEmpty then Except.ok []
    else
      match processWave adj deg queue with
      | Except.error e => Except.error e
      | Except.ok (deg', nextQueue) =>
        match kahnLoop adj fuel deg' nextQueue with
        | Except.error e => Except.error e
        | Except.ok waves => Except.ok (queue :: waves)

/-- Fuel sufficient for the wave loop (proven in kahnLoop lemmas). -/
def kahnFuel (wf : Workflow) : Nat :=
  wf.nodes.length + 2 * wf.edges.length + 2

/-- topologicalSort: Kahn's algorithm returning execution waves, failing
with the cycle error when not every tracked id was emitted. -/
def topologicalSort (wf : Workflow) : Except String (List (List String)) :=
  match buildGraph wf with
  | Except.error e => Except.error e
  | Except.ok (adj, deg) =>
    let queue0 := (deg.filter (fun p => p.2 = 0)).map Prod.fst
    match kahnLoop adj (kahnFuel wf) deg queue0 with
    | Except.error e => Except.error e
    | Except.ok waves =>
      if (waves.map List.length).sum = (nodeIdsOf wf).length then Except.ok waves
      else Except.error cycleErrorMsg

/- ## Workflow executor (executeWorkflow) -/

/-- Lifecycle state of a node during workflow execution. -/
inductive NodeStatus where
  | idle
  | running
  | success
  | error
  | skipped
deriving DecidableEq, Repr

/-- The downstream map built from the edge list for skip propagation. -/
def buildDownstream (edges : List WorkflowEdge) : JMap (List String) :=
  edges.foldl (fun m e => aset m e.fromId ((aget m e.fromId).getD [] ++ [e.toId])) []

/-- The per-source edge lookup built for conditional branching. -/
def buildEdgesFrom (edges : List WorkflowEdge) : JMap (List WorkflowEdge) :=
  edges.foldl (fun m e => aset m e.fromId ((aget m e.fromId).getD [] ++ [e])) []

/-- The id-to-node map (`new Map`, last declaration wins). -/
def buildNodeMap (nodes : List WorkflowNode) : JMap WorkflowNode :=
  nodes.foldl (fun m n => aset m n.id n) []

/-- The loop over the downstream ids of one node: each id not yet in the
skipped set is inserted and recursively expanded one fuel level deeper.
The fuel bounds the nesting depth of the recursion; executeWorkflow
passes fuel exceeding the number of edges, which is sufficient because
each nested expansion first inserts a fresh id. -/
def markListF (downstreamOf : JMap (List String)) :
    Nat → List String → List String → List String
  | 0, ds, skipped =>
    ds.foldl (fun s d => if d ∈ s then s else d :: s) skipped
  | fuel + 1, ds, skipped =>
    ds.foldl
      (fun s d =>
        if d ∈ s then s
        else markListF downstreamOf fuel ((aget downstreamOf d).getD []) (d :: s))
      skipped

/-- markDownstreamSkipped: depth-first insertion of all downstream ids
not already in the skipped set. -/
def markDownstreamSkipped (downstreamOf : JMap (List String)) :
    Nat → String → List String → List String
  | 0, _, skipped => skipped
  | fuel + 1, nodeId, skipped =>
    markListF downstreamOf fuel ((aget downstreamOf nodeId).getD []) skipped

/-- Mutable per-run state of the workflow executor. -/
structure WFState where
  statuses : JMap NodeStatus
  results : JMap NodeResult
  skipped : List String
  vars : Vars
  invoked : List String

/-- The per-node task body of executeWorkflow.  `runNode` abstracts the
executeNode call (input interpolation, per-type config merging and the
node executor); `Except.error` models a thrown exception. -/
def runWaveNode (nodeMap : JMap WorkflowNode) (downstreamOf : JMap (List String))
    (edgesFrom : JMap (List WorkflowEdge)) (runNode : String → Except String NodeResult)
    (stopOnError : Option Bool) (aborted : Bool) (markFuel : Nat)
    (st : WFState) (nodeId : String) : WFState :=
  if nodeId ∈ st.skipped then
    { st with statuses := aset st.statuses nodeId NodeStatus.skipped }
  else if aborted then
    { st with statuses := aset st.statuses nodeId NodeStatus.skipped }
  else
    match aget nodeMap nodeId with
    | none =>
      { st with
          statuses := aset st.statuses nodeId NodeStatus.error,
          results := aset st.results nodeId
            ⟨false, none, some ("Node \"" ++ nodeId ++ "\" not found in workflow"), none⟩ }
    | some _ =>
      let st1 := { st with
          statuses := aset st.statuses nodeId NodeStatus.running,
          invoked := st.invoked ++ [nodeId] }
      match runNode nodeId with
      | Except.ok result =>
        let st2 := { st1 with results := aset st1.results nodeId result }
        if result.success then
          let st3 := { st2 with statuses := aset st2.statuses nodeId NodeStatus.success }
          let st4 :=
            match result.output with
            | some out => { st3 with vars := storeNodeOutput st3.vars nodeId out }
            | none => st3
          if strTruthy result.nextNodeId then
            ((aget edgesFrom nodeId).getD []).foldl
              (fun st' e =>
                if strTruthy e.condition && (e.condition != result.nextNodeId) then
                  let base := if e.toId ∈ st'.skipped then st'.skipped else e.toId :: st'.skipped
                  { st' with
                      skipped := markDownstreamSkipped downstreamOf markFuel e.toId base }
                else st')
              st4
          else st4
        else
          let st3 := { st2 with statuses := aset st2.statuses nodeId NodeStatus.error }
          if stopOnError ≠ some false then
            { st3 with skipped := markDownstreamSkipped downstreamOf markFuel nodeId st3.skipped }
          else st3
      | Except.error e =>
        let st2 := { st1 with
            statuses := aset st1.statuses nodeId NodeStatus.error,
            results := aset st1.results nodeId ⟨false, none, some e, none⟩ }
        if stopOnError ≠ some false then
          { st2 with skipped := markDownstreamSkipped downstreamOf markFuel nodeId st2.skipped }
        else st2

/-- Initial statuses: idle for every declared node id. -/
def initStatuses (ids : List String) : JMap NodeStatus :=
  ids.foldl (fun m id => aset m id NodeStatus.idle) []

/-- executeWorkflow: plan the waves (propagating the planner's thrown
error), then run every wave in order; each wave's nodes are settled in
list order (the sequential shallow embedding of the per-wave
Promise.allSettled).  Returns statuses, results, the runNode invocation
order, and the aggregate success flag. -/
def executeWorkflow (wf : Workflow) (runNode : String → Except String NodeResult)
    (initialVars : Vars) (stopOnError : Option Bool) (aborted : Bool) :
    Except String (JMap NodeStatus × JMap NodeResult × List String × Bool) :=
  match topologicalSort wf with
  | Except.error e => Except.error e
  | Except.ok waves =>
    let nodeMap := buildNodeMap wf.nodes
    let downstreamOf := buildDownstream wf.edges
    let edgesFrom := buildEdgesFrom wf.edges
    let markFuel := wf.edges.length + 1
    let st0 : WFState := ⟨initStatuses (nodeIdsOf wf), [], [], initialVars, []⟩
    let final := waves.foldl
      (fun st wave =>
        wave.foldl
          (runWaveNode nodeMap downstreamOf edgesFrom runNode stopOnError aborted markFuel)
          st)
      st0
    let success := final.statuses.all
      (fun p => decide (p.2 = NodeStatus.success ∨ p.2 = NodeStatus.skipped))
    Except.ok (final.statuses, final.results, final.invoked, success)

/-- An edge of the workflow from `u` to `v`. -/
def hasEdge (wf : Workflow) (u v : String) : Prop :=
  ∃ e ∈ wf.edges, e.fromId = u ∧ e.toId = v

/-- Reachability along one or more edges. -/
abbrev Reach (wf : Workflow) : String → String → Prop :=
  Relation.TransGen (hasEdge wf)

/-- A directed cycle: a nonempty edge-chain from some node back to
itself. -/
def HasCycle (wf : Workflow) : Prop :=
  ∃ v, Reach wf v v

/-- Acyclicity: no directed cycle. -/
def IsAcyclic (wf : Workflow) : Prop :=
  ¬ HasCycle wf

/-- Every edge endpoint is a declared node id. -/
def EdgesDeclared (wf : Workflow) : Prop :=
  ∀ e ∈ wf.edges, e.fromId ∈ nodeIdsOf wf ∧ e.toId ∈ nodeIdsOf wf

/-- The wave index of an id: position of the first wave containing it. -/
def waveIdx (waves : List (List String)) (v : String) : Nat :=
  waves.findIdx (fun w => v ∈ w)

/- ### Auxiliary notions for the planner and executor proofs -/

/-- The keys of an association map, in order. -/
def keysOf {α : Type} (m : JMap α) : List String :=
  m.map Prod.fst

/-- The adjacency successors of a node (empty for missing keys). -/
def adjList (adj : JMap (List String)) (u : String) : List String :=
  (aget adj u).getD []

/-- Total number of occurrences of `v` across all adjacency lists: the
in-degree of `v` as counted by the builder. -/
def inCount (adj : JMap (List String)) (v : String) : Nat :=
  (adj.map (fun p => p.2.count v)).sum

/-- Occurrences of `v` in the adjacency lists of already-emitted sources:
the number of decrements `v` has received. -/
def remSum (adj : JMap (List String)) (done : List String) (v : String) : Nat :=
  ((adj.filter (fun p => decide (p.1 ∈ done))).map (fun p => p.2.count v)).sum

/-- Occurrences of `v` in the adjacency lists of the listed sources. -/
def sumCounts (adj : JMap (List String)) (us : List String) (v : String) : Nat :=
  (us.map (fun u => (adjList adj u).count v)).sum

/-- Sum of the nonnegative parts of the in-degree map: the termination
potential of the wave loop. -/
def degSum (deg : JMap Int) : Nat :=
  (deg.map (fun p => p.2.toNat)).sum

/-- Each wave depends only on already-emitted sources: every adjacency
edge into a wave member comes from the accumulated emitted prefix. -/
def WavesOrdered (adj : JMap (List String)) : List String → List (List String) → Prop
  | _, [] => True
  | emitted, w :: ws =>
    (∀ v ∈ w, ∀ u, u ∈ keysOf adj → v ∈ adjList adj u → u ∈ emitted) ∧
    WavesOrdered adj (emitted ++ w) ws

/-- The invariant carried through the wave loop of Kahn's algorithm. -/
structure KahnInv (adj : JMap (List String)) (deg : JMap Int)
    (emitted queue : List String) : Prop where
  ndAdj : (keysOf adj).Nodup
  ndDeg : (keysOf deg).Nodup
  ndEm : emitted.Nodup
  ndQ : queue.Nodup
  disj : ∀ x ∈ queue, x ∉ emitted
  emSub : ∀ x ∈ emitted, x ∈ keysOf adj
  qSub : ∀ x ∈ queue, x ∈ keysOf deg
  adjKeysSub : ∀ x ∈ keysOf adj, x ∈ keysOf deg
  adjValsSub : ∀ p ∈ adj, ∀ v ∈ p.2, v ∈ keysOf deg
  acc : ∀ v ∈ keysOf deg,
    (aget deg v).getD 0 = (inCount adj v : Int) - (remSum adj emitted v : Int)
  emLe : ∀ v ∈ emitted, (aget deg v).getD 0 ≤ 0
  qLe : ∀ v ∈ queue, (aget deg v).getD 0 ≤ 0
  others : ∀ v ∈ keysOf deg, v ∉ emitted → v ∉ queue → 0 < (aget deg v).getD 0

/-- The invariant carried through the edge fold of buildGraph:
`done` is the prefix of edges already folded in. -/
structure BuildInv (ids : List String) (done : List WorkflowEdge)
    (adjP : JMap (List String)) (degP : JMap Int) : Prop where
  adjKeys : keysOf adjP = ids
  degKeysNd : (keysOf degP).Nodup
  degKeysSup : ∀ x ∈ ids, x ∈ keysOf degP
  degKeysChar : ∀ v ∈ keysOf degP, v ∈ ids ∨ ∃ e ∈ done, e.toId = v
  adjVals : ∀ p ∈ adjP, ∀ v ∈ p.2, v ∈ keysOf degP
  acc : ∀ v ∈ keysOf degP, (aget degP v).getD 0 = (inCount adjP v : Int)
  memEdge : ∀ u v, v ∈ adjList adjP u ↔ ∃ e ∈ done, e.fromId = u ∧ e.toId = v

/-- One step along the downstream map used for skip propagation. -/
def dstep (dmap : JMap (List String)) (a b : String) : Prop :=
  b ∈ (aget dmap a).getD []

/-- Reachability along the downstream map (one or more steps). -/
abbrev DReach (dmap : JMap (List String)) : String → String → Prop :=
  Relation.TransGen (dstep dmap)

/-- A set of ids closed under the downstream map. -/
def DClosed (dmap : JMap (List String)) (S : List String) : Prop :=
  ∀ a ∈ S, ∀ b, dstep dmap a b → b ∈ S

/-- All downstream targets of the map (with multiplicity). -/
def dTargets (dmap : JMap (List String)) : List String :=
  (dmap.map Prod.snd).flatten

/-- Number of distinct downstream targets not yet in `S`: the potential
bounding the recursion depth of markDownstreamSkipped. -/
def markMeasure (dmap : JMap (List String)) (S : List String) : Nat :=
  ((dTargets dmap).toFinset.filter (fun t => t ∉ S)).card

/-- A concrete three-node chain workflow (a -> b -> c) used to
instantiate the planner theorems. -/
def wfC2 : Workflow :=
  ⟨[⟨"a", "task"⟩, ⟨"b", "task"⟩, ⟨"c", "task"⟩],
   [⟨"a", "b", none⟩, ⟨"b", "c", none⟩], "a"⟩

/-- A concrete workflow with an edge from an undeclared source. -/
def wfC6 : Workflow :=
  ⟨[⟨"a", "task"⟩], [⟨"x", "a", none⟩], "a"⟩

/-- A concrete workflow whose declared nodes form a two-cycle. -/
def wfC7 : Workflow :=
  ⟨[⟨"a", "task"⟩, ⟨"b", "task"⟩],
   [⟨"a", "b", none⟩, ⟨"b", "a", none⟩], "a"⟩

/-- A concrete workflow with a declared two-cycle plus an edge from an
undeclared source. -/
def wfC7x : Workflow :=
  ⟨[⟨"a", "task"⟩, ⟨"b", "task"⟩],
   [⟨"a", "b", none⟩, ⟨"b", "a", none⟩, ⟨"x", "a", none⟩], "a"⟩

/-- The processing order is closed under reachability: every node
reachable from a list member appears strictly later in the list.  The
concatenated waves of a successful topologicalSort have this shape. -/
def ForwardClosed (wf : Workflow) : List String → Prop
  | [] => True
  | n :: R => (∀ b, Reach wf n b → b ∈ R) ∧ ForwardClosed wf R

/-- The simulation invariant of the executeWorkflow wave fold used for
the skip-propagation theorem: `R` is the list of nodes still to be
processed. -/
structure C3Inv (wf : Workflow) (st : WFState) (R : List String) : Prop where
  closed : DClosed (buildDownstream wf.edges) st.skipped
  errMark : ∀ u, aget st.statuses u = some NodeStatus.error →
    ∀ v, dstep (buildDownstream wf.edges) u v → v ∈ st.skipped
  skipRes : ∀ v ∈ st.skipped, v ∈ R ∨
    (aget st.statuses v = some NodeStatus.skipped ∧ aget st.results v = none)
  freshRes : ∀ v ∈ R, aget st.results v = none

/-- A concrete three-node chain workflow for the executor theorems. -/
def wfC3 : Workflow :=
  ⟨[⟨"a", "task"⟩, ⟨"b", "task"⟩, ⟨"c", "task"⟩],
   [⟨"a", "b", none⟩, ⟨"b", "c", none⟩], "a"⟩

/-- A node runner that fails on node a and succeeds elsewhere. -/
def runC3 : String → Except String NodeResult := fun id =>
  if id = "a" then Except.ok ⟨false, none, some "boom", none⟩
  else Except.ok ⟨true, none, none, none⟩

/- ## Theorems -/

theorem aget_aset_self {α : Type} (m : JMap α) (k : String) (v : α) :
    aget (aset m k v) k = some v := by
  induction m with
  | nil => simp [aset, aget, List.find?]
  | cons p rest ih =>
    by_cases hp : p.1 = k
    · simp [aset, aget, hp, List.find?]
    · simpa [aset, aget, hp, List.find?] using ih

theorem aget_aset_ne {α : Type} (m : JMap α) (k k' : String) (v : α) (h : k' ≠ k) :
    aget (aset m k v) k' = aget m k' := by
  have hk : ¬(k = k') := fun hh => h hh.symm
  induction m with
  | nil => simp [aset, aget, List.find?, hk]
  | cons p rest ih =>
    by_cases hp : p.1 = k
    · have hpk' : ¬(p.1 = k') := by rw [hp]; exact hk
      simp [aset, aget, hp, List.find?, hk, hpk']
    · by_cases hp' : p.1 = k'
      · show aget (if p.1 = k then (k, v) :: rest else p :: aset rest k v) k' = _
        rw [if_neg hp]
        simp [aget, List.find?, hp']
      · simpa [aset, aget, hp, hp', List.find?] using ih

theorem aget_foldl_set_not_mem (kvs : List (String × JSValue)) (m : Vars) (k : String)
    (h : k ∉ kvs.map Prod.fst) :
    aget (kvs.foldl (fun vs kv => setVariable vs kv.1 kv.2) m) k = aget m k := by
  induction kvs generalizing m with
  | nil => rfl
  | cons kv rest ih =>
    simp only [List.map_cons, List.mem_cons] at h
    push_neg at h
    simp only [List.foldl_cons]
    rw [ih _ h.2]
    exact aget_aset_ne _ _ _ _ h.1

theorem aget_foldl_set_mem (kvs : List (String × JSValue)) (m : Vars) (k : String)
    (v : JSValue) (hnd : (kvs.map Prod.fst).Nodup) (hmem : (k, v) ∈ kvs) :
    aget (kvs.foldl (fun vs kv => setVariable vs kv.1 kv.2) m) k = some v := by
  induction kvs generalizing m with
  | nil => cases hmem
  | cons kv rest ih =>
    simp only [List.map_cons, List.nodup_cons] at hnd
    rcases List.mem_cons.mp hmem with heq | hrest
    · subst heq
      simp only [List.foldl_cons]
      rw [aget_foldl_set_not_mem _ _ _ hnd.1]
      exact aget_aset_self _ _ _
    · exact List.foldl_cons _ _ ▸ ih _ hnd.2 hrest

theorem getVariable_store_self (vars : Vars) (id : String) (v : JSValue)
    (h : objKeysAvoid v id) :
    getVariable (storeNodeOutput vars id v) id = some v := by
  cases v with
  | obj kvs =>
    show aget (kvs.foldl _ (setVariable vars id (JSValue.obj kvs))) id = _
    rw [aget_foldl_set_not_mem _ _ _ (h kvs rfl)]
    exact aget_aset_self _ _ _
  | null => exact aget_aset_self _ _ _
  | bool b => exact aget_aset_self _ _ _
  | num n => exact aget_aset_self _ _ _
  | str s => exact aget_aset_self _ _ _
  | arr l => exact aget_aset_self _ _ _

theorem getVariable_store_other (vars : Vars) (id : String) (v : JSValue) (k : String)
    (hne : k ≠ id) (h : objKeysAvoid v k) :
    getVariable (storeNodeOutput vars id v) k = getVariable vars k := by
  cases v with
  | obj kvs =>
    show aget (kvs.foldl _ (setVariable vars id (JSValue.obj kvs))) k = _
    rw [aget_foldl_set_not_mem _ _ _ (h kvs rfl)]
    exact aget_aset_ne _ _ _ _ hne
  | null => exact aget_aset_ne _ _ _ _ hne
  | bool b => exact aget_aset_ne _ _ _ _ hne
  | num n => exact aget_aset_ne _ _ _ _ hne
  | str s => exact aget_aset_ne _ _ _ _ hne
  | arr l => exact aget_aset_ne _ _ _ _ hne

/-- C4 counterexample: `storeNodeOutput "a" (obj with key "a")` leaves
`getVariable "a"` equal to the merged key's value, not to the stored
object itself, because the merged key overwrites the id-keyed entry. -/
theorem C4_counterexample :
    getVariable (storeNodeOutput [] "a" (JSValue.obj [("a", JSValue.num 1)])) "a"
      = some (JSValue.num 1) ∧
    (JSValue.num 1) ≠ (JSValue.obj [("a", JSValue.num 1)]) := by
  constructor
  · rfl
  · intro h
    exact JSValue.noConfusion h

/-- C4 (amended): after `storeNodeOutput(id, v)`, `getVariable(id) = v`
provided no key of `v` equals `id`; every key `k` of a plain-object `v`
reads back its value `v[k]`; and every variable that is neither `id` nor
a key of `v` is unchanged (so a non-object `v` writes only the id-keyed
entry). -/
theorem C4_storeNodeOutput_dual (vars : Vars) (id : String) (v : JSValue)
    (hid : objKeysAvoid v id)
    (hnd : ∀ kvs, v = JSValue.obj kvs → (kvs.map Prod.fst).Nodup) :
    getVariable (storeNodeOutput vars id v) id = some v ∧
    (∀ kvs, v = JSValue.obj kvs → ∀ k val, (k, val) ∈ kvs →
        getVariable (storeNodeOutput vars id v) k = some val) ∧
    (∀ k, k ≠ id → objKeysAvoid v k →
        getVariable (storeNodeOutput vars id v) k = getVariable vars k) := by
  refine ⟨getVariable_store_self vars id v hid, ?_, ?_⟩
  · intro kvs hv k val hmem
    subst hv
    show aget (kvs.foldl _ (setVariable vars id (JSValue.obj kvs))) k = _
    exact aget_foldl_set_mem _ _ _ _ (hnd kvs rfl) hmem
  · intro k hk h
    exact getVariable_store_other vars id v k hk h

/-- Witness for C4_storeNodeOutput_dual at a concrete input. -/
theorem C4_storeNodeOutput_dual_witness :
    getVariable (storeNodeOutput [] "a" (JSValue.obj [("x", JSValue.num 1)])) "a"
      = some (JSValue.obj [("x", JSValue.num 1)]) ∧
    getVariable (storeNodeOutput [] "a" (JSValue.obj [("x", JSValue.num 1)])) "x"
      = some (JSValue.num 1) := by
  have h := C4_storeNodeOutput_dual [] "a" (JSValue.obj [("x", JSValue.num 1)])
    (by intro kvs hv; cases hv; simp)
    (by intro kvs hv; cases hv; simp)
  exact ⟨h.1, h.2.1 _ rfl "x" (JSValue.num 1) (by simp)⟩

/-- C5 counterexample: node "b" storing a plain object with key "a"
merges that key into the top level and overwrites node "a"'s id-keyed
output. -/
theorem C5_counterexample :
    getVariable
      (storeNodeOutput
        (storeNodeOutput [] "a" (JSValue.num 1))
        "b" (JSValue.obj [("a", JSValue.num 2)])) "a"
      = some (JSValue.num 2) ∧
    (JSValue.num 2) ≠ (JSValue.num 1) := by
  constructor
  · rfl
  · intro h
    cases h

/-- C5 (amended): after `storeNodeOutput(A, vA)` then
`storeNodeOutput(B, vB)` with `A ≠ B`, `getVariable(A) = vA` still holds
provided neither output, when it is a plain object, has a key equal to
`A` (otherwise the top-level merge of that key overwrites `A`'s
id-keyed entry). -/
theorem C5_no_overwrite (vars : Vars) (A B : String) (vA vB : JSValue)
    (hAB : A ≠ B) (hA : objKeysAvoid vA A) (hB : objKeysAvoid vB A) :
    getVariable (storeNodeOutput (storeNodeOutput vars A vA) B vB) A = some vA := by
  rw [getVariable_store_other _ B vB A hAB hB]
  exact getVariable_store_self vars A vA hA

/-- Witness for C5_no_overwrite at a concrete input. -/
theorem C5_no_overwrite_witness :
    getVariable
      (storeNodeOutput (storeNodeOutput [] "a" (JSValue.num 1))
        "b" (JSValue.obj [("x", JSValue.num 2)])) "a"
      = some (JSValue.num 1) :=
  C5_no_overwrite [] "a" "b" (JSValue.num 1) (JSValue.obj [("x", JSValue.num 2)])
    (by decide)
    (by intro kvs hv; cases hv)
    (by intro kvs hv; cases hv; simp)

/- ## Retry loop: C1 -/

theorem retryLoop_invoked_head (exec : Nat → Except String NodeResult) (maxA : Nat)
    (retryOn : Option (String → Bool)) (attempt fuel : Nat) (lastE : Option String)
    (hf : 0 < fuel) :
    attempt ∈ (retryLoop exec maxA retryOn false attempt fuel lastE).invoked := by
  cases fuel with
  | zero => omega
  | succ fuel =>
    simp only [retryLoop, Bool.false_eq_true, if_false]
    cases hx : exec attempt with
    | ok r =>
      by_cases hc : (!r.success && strTruthy r.error && decide (attempt < maxA)
          && retryOnPass retryOn (r.error.getD "")) = true
      · simp [hc]
      · simp only [Bool.not_eq_true] at hc
        simp [hc]
    | error e =>
      by_cases hc : (decide (attempt < maxA) && retryOnPass retryOn e) = true
      · simp [hc]
      · simp only [Bool.not_eq_true] at hc
        simp [hc]

theorem retryLoop_retry_spec (exec : Nat → Except String NodeResult) (N : Nat)
    (r : NodeResult) (i : Nat)
    (hr : exec i = Except.ok r) (hs : r.success = false) (he : strTruthy r.error = true) :
    ∀ fuel attempt lastE, attempt + fuel = N + 1 →
      i ∈ (retryLoop exec N none false attempt fuel lastE).invoked →
      (i < N →
        (i, r.error.getD "") ∈ (retryLoop exec N none false attempt fuel lastE).retries ∧
        (i + 1) ∈ (retryLoop exec N none false attempt fuel lastE).invoked) ∧
      (i = N → (retryLoop exec N none false attempt fuel lastE).result = r) := by
  intro fuel
  induction fuel with
  | zero =>
    intro attempt lastE hsum hinv
    simp [retryLoop] at hinv
  | succ fuel ih =>
    intro attempt lastE hsum hinv
    by_cases hi : i = attempt
    · subst hi
      simp only [retryLoop, Bool.false_eq_true, if_false, hr, hs, he, Bool.not_false,
        Bool.true_and, retryOnPass, Bool.and_true] at hinv ⊢
      by_cases hlt : i < N
      · have hdec : decide (i < N) = true := by simpa using hlt
        simp only [hdec, if_true] at hinv ⊢
        refine ⟨fun _ => ⟨List.mem_cons_self _ _, ?_⟩, fun hiN => ?_⟩
        · refine List.mem_cons_of_mem _ ?_
          exact retryLoop_invoked_head exec N none (i + 1) fuel r.error (by omega)
        · omega
      · have hdec : decide (i < N) = false := by simpa using hlt
        simp only [hdec, if_false] at hinv ⊢
        exact ⟨fun h => absurd h hlt, fun _ => rfl⟩
    · -- the interesting attempt is deeper in the loop
      simp only [retryLoop, Bool.false_eq_true, if_false] at hinv ⊢
      cases hx : exec attempt with
      | ok r' =>
        simp only [hx] at hinv ⊢
        by_cases hc : (!r'.success && strTruthy r'.error && decide (attempt < N)
            && retryOnPass none (r'.error.getD "")) = true
        · simp only [hc, if_true] at hinv ⊢
          simp only [List.mem_cons] at hinv
          rcases hinv with hcontra | hinv
          · exact absurd hcontra hi
          · have := ih (attempt + 1) r'.error (by omega) hinv
            exact ⟨fun hlt => ⟨List.mem_cons_of_mem _ (this.1 hlt).1,
              List.mem_cons_of_mem _ (this.1 hlt).2⟩, this.2⟩
        · simp only [Bool.not_eq_true] at hc
          simp only [hc, Bool.false_eq_true, if_false] at hinv
          simp only [List.mem_singleton] at hinv
          exact absurd hinv hi
      | error e =>
        simp only [hx] at hinv ⊢
        by_cases hc : (decide (attempt < N) && retryOnPass none e) = true
        · simp only [hc, if_true] at hinv ⊢
          simp only [List.mem_cons] at hinv
          rcases hinv with hcontra | hinv
          · exact absurd hcontra hi
          · have := ih (attempt + 1) (some e) (by omega) hinv
            exact ⟨fun hlt => ⟨List.mem_cons_of_mem _ (this.1 hlt).1,
              List.mem_cons_of_mem _ (this.1 hlt).2⟩, this.2⟩
        · simp only [Bool.not_eq_true] at hc
          simp only [hc, Bool.false_eq_true, if_false] at hinv
          simp only [List.mem_singleton] at hinv
          exact absurd hinv hi

/-- C1 counterexample: with maxAttempts = 2, no retryOn and no abort, an
executor that produces `success = false` with no error message on attempt
1 < 2 is returned immediately: the executor is invoked only on attempt 1
and onRetry never fires, contradicting the claim that any produced
failure below maxAttempts triggers a retry. -/
theorem C1_counterexample :
    (executeWithRetry (fun _ => Except.ok ⟨false, none, none, none⟩)
        ⟨some ⟨2, none⟩, none, false⟩).invoked = [1] ∧
    (executeWithRetry (fun _ => Except.ok ⟨false, none, none, none⟩)
        ⟨some ⟨2, none⟩, none, false⟩).retries = [] ∧
    (executeWithRetry (fun _ => Except.ok ⟨false, none, none, none⟩)
        ⟨some ⟨2, none⟩, none, false⟩).result.success = false := by
  exact ⟨rfl, rfl, rfl⟩

/-- C1 (amended): with no retryOn predicate, no abort, and
maxAttempts = N, whenever the executor on an invoked attempt i produces a
result with `success = false` AND a non-empty error message, then for
i < N onRetry(i, message) fires and attempt i + 1 is invoked, while for
i = N that produced failure is returned with no further attempt.  (The
code only retries produced failures whose `error` field is truthy; a
failure with an absent or empty message is returned immediately.) -/
theorem C1_retry_on_produced_failure (exec : Nat → Except String NodeResult)
    (N i : Nat) (r : NodeResult)
    (hr : exec i = Except.ok r) (hs : r.success = false) (he : strTruthy r.error = true)
    (hinv : i ∈ (executeWithRetry exec ⟨some ⟨N, none⟩, none, false⟩).invoked) :
    (i < N →
      (i, r.error.getD "") ∈ (executeWithRetry exec ⟨some ⟨N, none⟩, none, false⟩).retries ∧
      (i + 1) ∈ (executeWithRetry exec ⟨some ⟨N, none⟩, none, false⟩).invoked) ∧
    (i = N → (executeWithRetry exec ⟨some ⟨N, none⟩, none, false⟩).result = r) := by
  have h := retryLoop_retry_spec exec N r i hr hs he N 1 none (by omega)
  exact h hinv

/-- Witness for C1_retry_on_produced_failure at a concrete input. -/
theorem C1_retry_on_produced_failure_witness :
    (1, "boom") ∈ (executeWithRetry
      (fun a => if a = 1 then Except.ok ⟨false, none, some "boom", none⟩
                else Except.ok ⟨true, none, none, none⟩)
      ⟨some ⟨2, none⟩, none, false⟩).retries ∧
    2 ∈ (executeWithRetry
      (fun a => if a = 1 then Except.ok ⟨false, none, some "boom", none⟩
                else Except.ok ⟨true, none, none, none⟩)
      ⟨some ⟨2, none⟩, none, false⟩).invoked :=
  (C1_retry_on_produced_failure
    (fun a => if a = 1 then Except.ok ⟨false, none, some "boom", none⟩
              else Except.ok ⟨true, none, none, none⟩)
    2 1 ⟨false, none, some "boom", none⟩ rfl rfl (by decide) (by decide)).1 (by decide)

/- ## Cache behavior of executeNode: C9 and C10 -/

/-- C9: when executeNode returns a produced result, a failed result never
changes the cache store; the store changes only by persisting a
successful result under the key derived from the validated input with the
configured ttl. -/
theorem C9_failure_not_persisted (parse : JSValue → Except String JSValue)
    (exec : Nat → Except String NodeResult) (input : JSValue) (cfg : ExecutionCfg)
    (store : CacheMap) (r : NodeResult) (store' : CacheMap) (inv : List Nat)
    (h : executeNode parse exec input cfg store = Except.ok (r, store', inv)) :
    (r.success = false → store' = store) ∧
    (store' ≠ store →
      r.success = true ∧
      ∃ v cache, parse input = Except.ok v ∧ cfg.cache = some cache ∧
        cache.enabled = true ∧
        store' = storeSet store ((cache.keyFn.getD jsonStringify) v) r cache.ttlMs) := by
  unfold executeNode at h
  cases hp : parse input with
  | error e => rw [hp] at h; cases h
  | ok v =>
    rw [hp] at h
    cases hcache : cfg.cache with
    | none =>
      rw [hcache] at h
      simp only [Except.ok.injEq, Prod.mk.injEq] at h
      obtain ⟨hr, hst, _⟩ := h
      exact ⟨fun _ => hst.symm, fun hne => absurd hst.symm hne⟩
    | some cache =>
      rw [hcache] at h
      by_cases hen : cache.enabled
      · simp only [hen, if_true] at h
        cases hget : storeGet store ((cache.keyFn.getD jsonStringify) v) with
        | some cached =>
          rw [hget] at h
          simp only [Except.ok.injEq, Prod.mk.injEq] at h
          obtain ⟨_, hst, _⟩ := h
          exact ⟨fun _ => hst.symm, fun hne => absurd hst.symm hne⟩
        | none =>
          rw [hget] at h
          by_cases hsucc : (executeWithRetry exec cfg).result.success
          · simp only [hsucc, if_true] at h
            simp only [Except.ok.injEq, Prod.mk.injEq] at h
            obtain ⟨hr, hst, _⟩ := h
            refine ⟨fun hfail => ?_, fun _ => ?_⟩
            · rw [← hr] at hfail; rw [hsucc] at hfail; cases hfail
            · refine ⟨hr ▸ hsucc, v, cache, rfl, rfl, hen, ?_⟩
              rw [← hr]
              exact hst.symm
          · rw [Bool.not_eq_true] at hsucc
            simp only [hsucc, Bool.false_eq_true, if_false] at h
            simp only [Except.ok.injEq, Prod.mk.injEq] at h
            obtain ⟨hr, hst, _⟩ := h
            exact ⟨fun _ => hst.symm, fun hne => absurd hst.symm hne⟩
      · rw [Bool.not_eq_true] at hen
        simp only [hen, Bool.false_eq_true, if_false] at h
        simp only [Except.ok.injEq, Prod.mk.injEq] at h
        obtain ⟨hr, hst, _⟩ := h
        exact ⟨fun _ => hst.symm, fun hne => absurd hst.symm hne⟩

/-- Witness for C9_failure_not_persisted at a concrete input: a failing
execution with caching enabled leaves the store unchanged. -/
theorem C9_failure_not_persisted_witness :
    ([] : CacheMap) = ([] : CacheMap) ∧
    (executeNode Except.ok (fun _ => Except.ok ⟨false, none, some "x", none⟩)
        JSValue.null ⟨none, some ⟨true, 1000, none⟩, false⟩ []
      = Except.ok (⟨false, none, some "x", none⟩, ([] : CacheMap), [1])) :=
  ⟨(C9_failure_not_persisted Except.ok (fun _ => Except.ok ⟨false, none, some "x", none⟩)
      JSValue.null ⟨none, some ⟨true, 1000, none⟩, false⟩ []
      ⟨false, none, some "x", none⟩ [] [1] rfl).1 rfl,
   rfl⟩

/-- C10: with caching enabled and a store hit under the key derived from
the validated input, executeNode returns the cached result with the store
untouched and the executor never invoked — for any abort-signal state,
since the abort check lives inside the retry loop, which a cache hit
never reaches. -/
theorem C10_cache_hit_bypasses_abort (parse : JSValue → Except String JSValue)
    (exec : Nat → Except String NodeResult) (input : JSValue) (cfg : ExecutionCfg)
    (store : CacheMap) (cache : CacheCfg) (v : JSValue) (cached : NodeResult)
    (hp : parse input = Except.ok v)
    (hc : cfg.cache = some cache) (hen : cache.enabled = true)
    (hhit : storeGet store ((cache.keyFn.getD jsonStringify) v) = some cached) :
    executeNode parse exec input cfg store = Except.ok (cached, store, []) := by
  unfold executeNode
  rw [hp, hc]
  simp only [hen, if_true, hhit]

/-- Witness for C10_cache_hit_bypasses_abort at a concrete input with the
abort signal already fired (`aborted = true`). -/
theorem C10_cache_hit_bypasses_abort_witness :
    executeNode Except.ok (fun _ => Except.ok ⟨false, none, some "should not run", none⟩)
      JSValue.null ⟨some ⟨3, none⟩, some ⟨true, 1000, none⟩, true⟩
      [("null", (⟨true, some (JSValue.num 7), none, none⟩, 1000))]
      = Except.ok (⟨true, some (JSValue.num 7), none, none⟩,
          [("null", (⟨true, some (JSValue.num 7), none, none⟩, 1000))], []) :=
  C10_cache_hit_bypasses_abort Except.ok
    (fun _ => Except.ok ⟨false, none, some "should not run", none⟩)
    JSValue.null ⟨some ⟨3, none⟩, some ⟨true, 1000, none⟩, true⟩
    [("null", (⟨true, some (JSValue.num 7), none, none⟩, 1000))]
    ⟨true, 1000, none⟩ JSValue.null ⟨true, some (JSValue.num 7), none, none⟩
    rfl rfl rfl rfl

/- ## Interpolation: C8 -/

theorem takeWhile_ne_append (inner l : List Char) (h : rcub ∉ inner) :
    (inner ++ rcub :: l).takeWhile (fun x => x ≠ rcub) = inner ∧
    (inner ++ rcub :: l).dropWhile (fun x => x ≠ rcub) = rcub :: l := by
  induction inner with
  | nil => simp [List.takeWhile, List.dropWhile]
  | cons c cs ih =>
    simp only [List.mem_cons] at h
    push_neg at h
    obtain ⟨hc, hcs⟩ := h
    have hdec : decide (c ≠ rcub) = true :=
      decide_eq_true (fun hh => hc hh.symm)
    have ihres := ih hcs
    refine ⟨?_, ?_⟩
    · rw [List.cons_append, List.takeWhile_cons, if_pos hdec]
      rw [ihres.1]
    · rw [List.cons_append, List.dropWhile_cons, if_pos hdec]
      exact ihres.2

theorem formatValueList_eq_map (vs : List JSValue) :
    formatValueList vs = vs.map formatValue := by
  induction vs with
  | nil => rfl
  | cons v vs ih => simp [formatValueList, ih]

theorem singleVarMatch_shape (t : String) (inner : List Char)
    (hdata : t.data = lcub :: lcub :: (inner ++ [rcub, rcub]))
    (hne : inner ≠ []) (hnb : rcub ∉ inner) :
    singleVarMatch t = some (String.mk inner) := by
  have htake := takeWhile_ne_append inner [rcub] hnb
  have h0 : 0 < inner.length := List.length_pos.mpr hne
  simp only [singleVarMatch, hdata]
  simp only [htake.1, htake.2]
  simp [h0]

theorem singleVarMatch_some_shape (t s : String) (h : singleVarMatch t = some s) :
    ∃ inner, s = String.mk inner ∧ inner ≠ [] ∧ rcub ∉ inner ∧
      t.data = lcub :: lcub :: (inner ++ [rcub, rcub]) := by
  cases ht : t.data with
  | nil =>
    simp only [singleVarMatch, ht] at h
    cases h
  | cons c1 rest1 =>
    cases rest1 with
    | nil =>
      simp only [singleVarMatch, ht] at h
      cases h
    | cons c2 rest =>
      simp only [singleVarMatch, ht] at h
      by_cases hb : c1 = lcub ∧ c2 = lcub
      · rw [if_pos hb] at h
        by_cases hcond : 0 < (rest.takeWhile (fun c => c ≠ rcub)).length ∧
            rest.dropWhile (fun c => c ≠ rcub) = [rcub, rcub]
        · rw [if_pos hcond] at h
          refine ⟨rest.takeWhile (fun c => c ≠ rcub), ?_, ?_, ?_, ?_⟩
          · simp only [Option.some.injEq] at h
            exact h.symm
          · intro hnil
            rw [hnil] at hcond
            simp at hcond
          · intro hmem
            have := List.mem_takeWhile_imp hmem
            simp at this
          · rw [hb.1, hb.2, ← hcond.2, List.takeWhile_append_dropWhile]
        · rw [if_neg hcond] at h
          cases h
      · rw [if_neg hb] at h
        cases h

theorem matchTemplate_none_of_ne (c : Char) (cs : List Char) (h : c ≠ lcub) :
    matchTemplate (c :: cs) = none := by
  cases cs with
  | nil => rfl
  | cons c2 rest =>
    simp only [matchTemplate]
    rw [if_neg]
    intro hc
    exact h hc.1

theorem matchTemplate_shape (inner post : List Char) (hne : inner ≠ []) (hnb : rcub ∉ inner) :
    (matchTemplate (lcub :: lcub :: (inner ++ rcub :: rcub :: post))).map
        (fun p => (p.1, p.2.1)) = some (inner, post) := by
  have htake := takeWhile_ne_append inner (rcub :: post) hnb
  cases inner with
  | nil => exact absurd rfl hne
  | cons i0 is' =>
    simp only [matchTemplate]
    simp only [htake.1, htake.2]
    rw [if_pos ⟨trivial, trivial⟩]
    rw [if_pos ⟨by simp, rfl⟩]
    rfl

theorem replaceCore_step (jp : String → Option JSValue) (vars : Vars)
    (pre inner post : List Char)
    (hpre : lcub ∉ pre) (hne : inner ≠ []) (hnb : rcub ∉ inner) :
    replaceCore jp vars (pre ++ lcub :: lcub :: (inner ++ rcub :: rcub :: post)) =
      pre ++ (formatValueOpt (resolveExpr jp vars (jsTrim (String.mk inner)))).data
        ++ replaceCore jp vars post := by
  induction pre with
  | nil =>
    have hm := matchTemplate_shape inner post hne hnb
    cases hmt : matchTemplate (lcub :: lcub :: (inner ++ rcub :: rcub :: post)) with
    | none => rw [hmt] at hm; cases hm
    | some p =>
      obtain ⟨i, rv, rpf⟩ := p
      rw [hmt] at hm
      simp only [Option.map, Option.some.injEq, Prod.mk.injEq] at hm
      obtain ⟨hm1, hm2⟩ := hm
      subst hm1
      subst hm2
      simp only [List.nil_append]
      simp only [replaceCore]
      rw [hmt]
  | cons c pre' ih =>
    simp only [List.mem_cons] at hpre
    push_neg at hpre
    obtain ⟨hc, hpre'⟩ := hpre
    simp only [List.cons_append]
    simp only [replaceCore]
    rw [matchTemplate_none_of_ne c _ (fun hh => hc hh.symm)]
    rw [ih hpre']

/-- C8: (1) a template that is exactly one doubled-bracket expression
(nonempty, no right bracket inside) resolves to the raw value of that
expression, preserving its runtime type; (2) any other template
interpolates to a string, the result of the global replacement scan;
(3) the scan replaces each doubled-bracket occurrence with the resolved
value coerced to string and continues after it; (4) the coercion maps
absent and null to "", strings to themselves, numbers and booleans to
their textual form, arrays to the comma-space join of their coerced
elements, and other objects to their JSON encoding. -/
theorem C8_interpolate_unwrap (jp : String → Option JSValue) (vars : Vars) :
    (∀ t inner, t.data = lcub :: lcub :: (inner ++ [rcub, rcub]) → inner ≠ [] →
      rcub ∉ inner →
      interpolate jp vars t = resolveExpr jp vars (jsTrim (String.mk inner))) ∧
    (∀ t, (∀ inner, ¬(t.data = lcub :: lcub :: (inner ++ [rcub, rcub]) ∧ inner ≠ [] ∧
        rcub ∉ inner)) →
      interpolate jp vars t = some (JSValue.str (replaceTemplates jp vars t))) ∧
    (∀ pre inner post, lcub ∉ pre → inner ≠ [] → rcub ∉ inner →
      replaceCore jp vars (pre ++ lcub :: lcub :: (inner ++ rcub :: rcub :: post)) =
        pre ++ (formatValueOpt (resolveExpr jp vars (jsTrim (String.mk inner)))).data
          ++ replaceCore jp vars post) ∧
    (formatValueOpt none = "" ∧ formatValue JSValue.null = "" ∧
      (∀ s, formatValue (JSValue.str s) = s) ∧
      (∀ n, formatValue (JSValue.num n) = toString n) ∧
      (∀ b, formatValue (JSValue.bool b) = toString b) ∧
      (∀ vs, formatValue (JSValue.arr vs) = String.intercalate ", " (vs.map formatValue)) ∧
      (∀ kvs, formatValue (JSValue.obj kvs) = jsonStringify (JSValue.obj kvs))) := by
  refine ⟨?_, ?_, ?_, rfl, rfl, fun s => rfl, fun n => rfl, fun b => rfl, ?_, fun kvs => rfl⟩
  · intro t inner hdata hne hnb
    unfold interpolate
    rw [singleVarMatch_shape t inner hdata hne hnb]
  · intro t hno
    have hnone : singleVarMatch t = none := by
      cases hs : singleVarMatch t with
      | none => rfl
      | some s =>
        obtain ⟨inner, _, hne, hnb, hdata⟩ := singleVarMatch_some_shape t s hs
        exact absurd ⟨hdata, hne, hnb⟩ (hno inner)
    unfold interpolate
    rw [hnone]
  · exact replaceCore_step jp vars
  · intro vs
    rw [show formatValue (JSValue.arr vs) = String.intercalate ", " (formatValueList vs)
      from rfl]
    rw [formatValueList_eq_map]

/-- Witness for C8_interpolate_unwrap at concrete inputs: a pure
single-variable template returns the raw numeric value; a mixed template
returns the interpolated string. -/
theorem C8_interpolate_unwrap_witness :
    interpolate (fun _ => none) [("x", JSValue.num 5)] "\x7b\x7bx\x7d\x7d"
      = some (JSValue.num 5) ∧
    interpolate (fun _ => none) [("x", JSValue.num 5)] "a\x7b\x7bx\x7d\x7db"
      = some (JSValue.str "a5b") := by
  constructor
  · have h := (C8_interpolate_unwrap (fun _ => none) [("x", JSValue.num 5)]).1
      "\x7b\x7bx\x7d\x7d" ['x'] (by decide) (by decide) (by decide)
    rw [h]
    rfl
  · have h2 := (C8_interpolate_unwrap (fun _ => none) [("x", JSValue.num 5)]).2.1
      "a\x7b\x7bx\x7d\x7db" ?_
    · rw [h2]
      have hstep := (C8_interpolate_unwrap (fun _ => none) [("x", JSValue.num 5)]).2.2.1
        ['a'] ['x'] ['b'] (by decide) (by decide) (by decide)
      have hb : replaceCore (fun _ => none) [("x", JSValue.num 5)] ['b'] = ['b'] := by
        rw [replaceCore]
        rw [matchTemplate_none_of_ne 'b' [] (by decide)]
        rw [replaceCore]
      have : replaceTemplates (fun _ => none) [("x", JSValue.num 5)] "a\x7b\x7bx\x7d\x7db"
          = "a5b" := by
        unfold replaceTemplates
        have hdata : ("a\x7b\x7bx\x7d\x7db" : String).data
            = ['a'] ++ lcub :: lcub :: (['x'] ++ rcub :: rcub :: ['b']) := by decide
        rw [hdata, hstep, hb]
        rfl
      rw [this]
    · intro inner hcontra
      obtain ⟨hdata, hne, hnb⟩ := hcontra
      have : ("a\x7b\x7bx\x7d\x7db" : String).data
          = ['a', lcub, lcub, 'x', rcub, rcub, 'b'] := by decide
      rw [this] at hdata
      cases hdata

/- ### Association map lemmas -/

theorem aget_mem {α : Type} {m : JMap α} {k : String} {v : α}
    (h : aget m k = some v) : (k, v) ∈ m := by
  unfold aget at h
  cases hf : m.find? (fun p => p.1 = k) with
  | none => rw [hf] at h; cases h
  | some p =>
    rw [hf] at h
    have hp := List.find?_some hf
    have hmem := List.mem_of_find?_eq_some hf
    simp only [decide_eq_true_eq] at hp
    simp only [Option.map, Option.some.injEq] at h
    have : p = (k, v) := by
      cases p
      simp only [Prod.mk.injEq]
      exact ⟨hp, h⟩
    rw [this] at hmem
    exact hmem

theorem aget_eq_none {α : Type} {m : JMap α} {k : String} :
    aget m k = none ↔ k ∉ keysOf m := by
  unfold aget keysOf
  constructor
  · intro h hk
    obtain ⟨p, hp, hpk⟩ := List.mem_map.mp hk
    cases hf : m.find? (fun p => p.1 = k) with
    | none =>
      have := List.find?_eq_none.mp hf p hp
      simp [hpk] at this
    | some q => rw [hf] at h; cases h
  · intro h
    cases hf : m.find? (fun p => p.1 = k) with
    | none => rfl
    | some q =>
      have hq := List.find?_some hf
      have hqm := List.mem_of_find?_eq_some hf
      simp only [decide_eq_true_eq] at hq
      exact absurd (List.mem_map.mpr ⟨q, hqm, hq⟩) h

theorem aget_isSome_of_mem_keys {α : Type} {m : JMap α} {k : String}
    (h : k ∈ keysOf m) : ∃ v, aget m k = some v := by
  cases hf : aget m k with
  | none => exact absurd (aget_eq_none.mp hf) (fun hh => hh h)
  | some v => exact ⟨v, rfl⟩

theorem mem_keysOf_of_aget {α : Type} {m : JMap α} {k : String} {v : α}
    (h : aget m k = some v) : k ∈ keysOf m := by
  by_contra hk
  rw [← aget_eq_none] at hk
  rw [h] at hk
  cases hk

theorem keysOf_aset_mem {α : Type} (m : JMap α) (k : String) (v : α)
    (h : k ∈ keysOf m) : keysOf (aset m k v) = keysOf m := by
  induction m with
  | nil => cases h
  | cons p rest ih =>
    by_cases hp : p.1 = k
    · simp [aset, keysOf, hp]
    · have hk : k ∈ keysOf rest := by
        rcases List.mem_cons.mp h with h1 | h1
        · exact absurd h1.symm hp
        · exact h1
      simp only [aset, if_neg hp, keysOf, List.map_cons]
      rw [show List.map Prod.fst (aset rest k v) = keysOf (aset rest k v) from rfl, ih hk]
      rfl

theorem keysOf_aset_not_mem {α : Type} (m : JMap α) (k : String) (v : α)
    (h : k ∉ keysOf m) : keysOf (aset m k v) = keysOf m ++ [k] := by
  induction m with
  | nil => rfl
  | cons p rest ih =>
    have hp : ¬(p.1 = k) := by
      intro hh
      exact h (List.mem_map.mpr ⟨p, List.mem_cons_self _ _, hh⟩)
    have hk : k ∉ keysOf rest := by
      intro hh
      obtain ⟨q, hq, hqk⟩ := List.mem_map.mp hh
      exact h (List.mem_map.mpr ⟨q, List.mem_cons_of_mem _ hq, hqk⟩)
    simp only [aset, if_neg hp, keysOf, List.map_cons, List.cons_append, List.cons.injEq]
    exact ⟨trivial, ih hk⟩

theorem aget_of_mem_nodup {α : Type} {m : JMap α} {k : String} {v : α}
    (hnd : (keysOf m).Nodup) (h : (k, v) ∈ m) : aget m k = some v := by
  induction m with
  | nil => cases h
  | cons p rest ih =>
    simp only [keysOf, List.map_cons, List.nodup_cons] at hnd
    rcases List.mem_cons.mp h with h1 | h1
    · subst h1
      simp [aget, List.find?]
    · by_cases hp : p.1 = k
      · exfalso
        apply hnd.1
        rw [hp]
        exact List.mem_map.mpr ⟨(k, v), h1, rfl⟩
      · have hstep : aget (p :: rest) k = aget rest k := by
          simp [aget, List.find?, hp]
        rw [hstep]
        exact ih hnd.2 h1

/- ### Degree-sum and decrement lemmas -/

theorem degSum_aset (m : JMap Int) (k : String) (v : Int) :
    degSum (aset m k v) + ((aget m k).getD 0).toNat = degSum m + v.toNat := by
  induction m with
  | nil => simp [aset, aget, degSum, List.find?]
  | cons p rest ih =>
    by_cases hp : p.1 = k
    · have hag : aget (p :: rest) k = some p.2 := by
        simp [aget, List.find?, hp]
      simp only [aset, if_pos hp, hag, degSum, List.map_cons, List.sum_cons, Option.getD]
      omega
    · have hag : aget (p :: rest) k = aget rest k := by
        simp [aget, List.find?, hp]
      simp only [aset, if_neg hp, hag, degSum, List.map_cons, List.sum_cons]
      have := ih
      unfold degSum at this
      omega

theorem foldDec_deg (nbrs : List String) (d : JMap Int) (q : List String) (v : String) :
    (aget (nbrs.foldl decStep (d, q)).1 v).getD 0
      = (aget d v).getD 0 - (nbrs.count v : Int) := by
  induction nbrs generalizing d q with
  | nil => simp
  | cons nb nbrs' ih =>
    simp only [List.foldl_cons]
    have hstep : decStep (d, q) nb
        = (aset d nb ((aget d nb).getD 0 - 1),
           if (aget d nb).getD 0 - 1 = 0 then q ++ [nb] else q) := rfl
    rw [hstep]
    rw [ih]
    by_cases hv : nb = v
    · subst hv
      rw [aget_aset_self]
      simp only [Option.getD, List.count_cons_self]
      push_cast
      ring
    · rw [aget_aset_ne _ _ _ _ (fun hh => hv hh.symm)]
      rw [List.count_cons_of_ne (fun hh => hv (by simpa using hh.symm))]

theorem foldDec_keys (nbrs : List String) (d : JMap Int) (q : List String)
    (h : ∀ x ∈ nbrs, x ∈ keysOf d) :
    keysOf (nbrs.foldl decStep (d, q)).1 = keysOf d := by
  induction nbrs generalizing d q with
  | nil => rfl
  | cons nb nbrs' ih =>
    simp only [List.foldl_cons]
    have hstep : decStep (d, q) nb
        = (aset d nb ((aget d nb).getD 0 - 1),
           if (aget d nb).getD 0 - 1 = 0 then q ++ [nb] else q) := rfl
    rw [hstep]
    have hkeys := keysOf_aset_mem d nb ((aget d nb).getD 0 - 1) (h nb (List.mem_cons_self _ _))
    rw [ih _ _ (fun x hx => hkeys ▸ h x (List.mem_cons_of_mem _ hx))]
    exact hkeys

theorem foldDec_queue (nbrs : List String) (d : JMap Int) (q : List String)
    (hnd : q.Nodup) (hle : ∀ v ∈ q, (aget d v).getD 0 ≤ 0) :
    (nbrs.foldl decStep (d, q)).2.Nodup ∧
    (∀ v ∈ (nbrs.foldl decStep (d, q)).2,
      (aget (nbrs.foldl decStep (d, q)).1 v).getD 0 ≤ 0 ∧ (v ∈ q ∨ v ∈ nbrs)) := by
  induction nbrs generalizing d q with
  | nil => exact ⟨hnd, fun v hv => ⟨hle v hv, Or.inl hv⟩⟩
  | cons nb nbrs' ih =>
    simp only [List.foldl_cons]
    have hstep : decStep (d, q) nb
        = (aset d nb ((aget d nb).getD 0 - 1),
           if (aget d nb).getD 0 - 1 = 0 then q ++ [nb] else q) := rfl
    rw [hstep]
    by_cases hz : (aget d nb).getD 0 - 1 = 0
    · rw [if_pos hz]
      have hnbq : nb ∉ q := by
        intro hq
        have := hle nb hq
        omega
      have hnd' : (q ++ [nb]).Nodup := by
        simp [List.nodup_append, hnd, hnbq]
      have hle' : ∀ v ∈ q ++ [nb],
          (aget (aset d nb ((aget d nb).getD 0 - 1)) v).getD 0 ≤ 0 := by
        intro v hv
        rcases List.mem_append.mp hv with h1 | h1
        · have hvnb : v ≠ nb := fun hh => hnbq (hh ▸ h1)
          rw [aget_aset_ne _ _ _ _ hvnb]
          exact hle v h1
        · simp only [List.mem_singleton] at h1
          subst h1
          rw [aget_aset_self]
          simp [hz]
      obtain ⟨h1, h2⟩ := ih _ _ hnd' hle'
      refine ⟨h1, fun v hv => ⟨(h2 v hv).1, ?_⟩⟩
      rcases (h2 v hv).2 with hq | hn
      · rcases List.mem_append.mp hq with hq1 | hq1
        · exact Or.inl hq1
        · simp only [List.mem_singleton] at hq1
          exact Or.inr (hq1 ▸ List.mem_cons_self _ _)
      · exact Or.inr (List.mem_cons_of_mem _ hn)
    · rw [if_neg hz]
      have hle' : ∀ v ∈ q, (aget (aset d nb ((aget d nb).getD 0 - 1)) v).getD 0 ≤ 0 := by
        intro v hv
        by_cases hvnb : v = nb
        · subst hvnb
          rw [aget_aset_self]
          have := hle v hv
          simp only [Option.getD_some]
          omega
        · rw [aget_aset_ne _ _ _ _ hvnb]
          exact hle v hv
      obtain ⟨h1, h2⟩ := ih _ _ hnd hle'
      refine ⟨h1, fun v hv => ⟨(h2 v hv).1, ?_⟩⟩
      rcases (h2 v hv).2 with hq | hn
      · exact Or.inl hq
      · exact Or.inr (List.mem_cons_of_mem _ hn)

theorem foldDec_phi (nbrs : List String) (d : JMap Int) (q : List String) :
    degSum (nbrs.foldl decStep (d, q)).1 + (nbrs.foldl decStep (d, q)).2.length
      ≤ degSum d + q.length := by
  induction nbrs generalizing d q with
  | nil => simp
  | cons nb nbrs' ih =>
    simp only [List.foldl_cons]
    have hstep : decStep (d, q) nb
        = (aset d nb ((aget d nb).getD 0 - 1),
           if (aget d nb).getD 0 - 1 = 0 then q ++ [nb] else q) := rfl
    rw [hstep]
    have hsum := degSum_aset d nb ((aget d nb).getD 0 - 1)
    refine le_trans (ih _ _) ?_
    by_cases hz : (aget d nb).getD 0 - 1 = 0
    · rw [if_pos hz]
      simp only [List.length_append, List.length_singleton]
      omega
    · rw [if_neg hz]
      omega

/- ### Counting lemmas for the degree accounting -/

theorem remSum_nil (adj : JMap (List String)) (v : String) :
    remSum adj [] v = 0 := by
  simp [remSum]

theorem remSum_cons_mem (p : String × List String) (rest : JMap (List String))
    (done : List String) (v : String) (h : p.1 ∈ done) :
    remSum (p :: rest) done v = p.2.count v + remSum rest done v := by
  simp [remSum, List.filter_cons, h]

theorem remSum_cons_not_mem (p : String × List String) (rest : JMap (List String))
    (done : List String) (v : String) (h : p.1 ∉ done) :
    remSum (p :: rest) done v = remSum rest done v := by
  simp [remSum, List.filter_cons, h]

theorem inCount_cons (p : String × List String) (rest : JMap (List String)) (v : String) :
    inCount (p :: rest) v = p.2.count v + inCount rest v := by
  simp [inCount]

theorem exists_source_of_remSum_lt (adj : JMap (List String)) (done : List String)
    (v : String) (h : remSum adj done v < inCount adj v) :
    ∃ p ∈ adj, p.1 ∉ done ∧ v ∈ p.2 := by
  induction adj with
  | nil => simp [remSum, inCount] at h
  | cons p rest ih =>
    by_cases hp : p.1 ∈ done
    · rw [remSum_cons_mem p rest done v hp, inCount_cons] at h
      obtain ⟨q, hq, hq1, hq2⟩ := ih (by omega)
      exact ⟨q, List.mem_cons_of_mem _ hq, hq1, hq2⟩
    · by_cases hv : v ∈ p.2
      · exact ⟨p, List.mem_cons_self _ _, hp, hv⟩
      · have hc : p.2.count v = 0 := List.count_eq_zero.mpr hv
        rw [remSum_cons_not_mem p rest done v hp, inCount_cons, hc] at h
        obtain ⟨q, hq, hq1, hq2⟩ := ih (by omega)
        exact ⟨q, List.mem_cons_of_mem _ hq, hq1, hq2⟩

theorem remSum_append_irrelevant (m : JMap (List String)) (done : List String)
    (u : String) (v : String) (hu : u ∉ keysOf m) :
    remSum m (done ++ [u]) v = remSum m done v := by
  induction m with
  | nil => simp [remSum]
  | cons p rest ih =>
    have hpu : p.1 ≠ u := by
      intro hh
      exact hu (List.mem_map.mpr ⟨p, List.mem_cons_self _ _, hh⟩)
    have hrest : u ∉ keysOf rest := by
      intro hh
      obtain ⟨q, hq, hqk⟩ := List.mem_map.mp hh
      exact hu (List.mem_map.mpr ⟨q, List.mem_cons_of_mem _ hq, hqk⟩)
    by_cases hp : p.1 ∈ done
    · rw [remSum_cons_mem p rest _ v (List.mem_append.mpr (Or.inl hp)),
        remSum_cons_mem p rest done v hp, ih hrest]
    · have hp2 : p.1 ∉ done ++ [u] := by
        simp [List.mem_append, hp, hpu]
      rw [remSum_cons_not_mem p rest _ v hp2, remSum_cons_not_mem p rest done v hp]
      exact ih hrest

theorem remSum_append_one (adj : JMap (List String)) (done : List String)
    (u : String) (v : String) (hnd : (keysOf adj).Nodup) (hu : u ∉ done) :
    remSum adj (done ++ [u]) v = remSum adj done v + (adjList adj u).count v := by
  induction adj with
  | nil => simp [remSum, adjList, aget, List.find?]
  | cons p rest ih =>
    simp only [keysOf, List.map_cons, List.nodup_cons] at hnd
    by_cases hpu : p.1 = u
    · have hpd : p.1 ∉ done := hpu ▸ hu
      have hurest : u ∉ keysOf rest := hpu ▸ hnd.1
      have hadj : adjList (p :: rest) u = p.2 := by
        simp [adjList, aget, List.find?, hpu]
      rw [hadj]
      rw [remSum_cons_mem p rest _ v (List.mem_append.mpr (Or.inr (by simp [hpu])))]
      rw [remSum_cons_not_mem p rest done v hpd]
      rw [remSum_append_irrelevant rest done u v hurest]
      omega
    · have hadj : adjList (p :: rest) u = adjList rest u := by
        simp [adjList, aget, List.find?, hpu]
      rw [hadj]
      by_cases hp : p.1 ∈ done
      · rw [remSum_cons_mem p rest _ v (List.mem_append.mpr (Or.inl hp)),
          remSum_cons_mem p rest done v hp, ih hnd.2]
        omega
      · have hp2 : p.1 ∉ done ++ [u] := by
          simp [List.mem_append, hp, hpu]
        rw [remSum_cons_not_mem p rest _ v hp2, remSum_cons_not_mem p rest done v hp]
        exact ih hnd.2

theorem remSum_append_list (adj : JMap (List String)) (done us : List String)
    (v : String) (hnd : (keysOf adj).Nodup) (hus : us.Nodup)
    (hdisj : ∀ x ∈ us, x ∉ done) :
    remSum adj (done ++ us) v = remSum adj done v + sumCounts adj us v := by
  induction us generalizing done with
  | nil => simp [sumCounts]
  | cons u us' ih =>
    simp only [List.nodup_cons] at hus
    have hstep : done ++ u :: us' = (done ++ [u]) ++ us' := by simp
    rw [hstep]
    rw [ih (done ++ [u]) hus.2 ?_]
    · rw [remSum_append_one adj done u v hnd (hdisj u (List.mem_cons_self _ _))]
      simp only [sumCounts, List.map_cons, List.sum_cons]
      omega
    · intro x hx
      simp only [List.mem_append, List.mem_singleton]
      push_neg
      exact ⟨hdisj x (List.mem_cons_of_mem _ hx), fun hh => hus.1 (hh ▸ hx)⟩

/- ### Builder lemmas -/

theorem exc_bind_ok {ε α β : Type} (a : α) (f : α → Except ε β) :
    (Except.ok a >>= f) = f a := rfl

theorem exc_bind_err {ε α β : Type} (e : ε) (f : α → Except ε β) :
    ((Except.error e : Except ε α) >>= f) = Except.error e := rfl

theorem mem_aset {α : Type} {m : JMap α} {k : String} {v : α} {p : String × α}
    (h : p ∈ aset m k v) : p = (k, v) ∨ p ∈ m := by
  induction m with
  | nil =>
    simp only [aset, List.mem_singleton] at h
    exact Or.inl h
  | cons q rest ih =>
    by_cases hq : q.1 = k
    · simp only [aset, if_pos hq, List.mem_cons] at h
      rcases h with h1 | h1
      · exact Or.inl h1
      · exact Or.inr (List.mem_cons_of_mem _ h1)
    · simp only [aset, if_neg hq, List.mem_cons] at h
      rcases h with h1 | h1
      · exact Or.inr (h1 ▸ List.mem_cons_self _ _)
      · rcases ih h1 with h2 | h2
        · exact Or.inl h2
        · exact Or.inr (List.mem_cons_of_mem _ h2)

theorem inCount_eq_zero {m : JMap (List String)} {v : String}
    (h : ∀ p ∈ m, v ∉ p.2) : inCount m v = 0 := by
  induction m with
  | nil => rfl
  | cons p rest ih =>
    rw [inCount_cons]
    rw [List.count_eq_zero.mpr (h p (List.mem_cons_self _ _))]
    rw [ih (fun q hq => h q (List.mem_cons_of_mem _ hq))]

theorem inCount_aset_append {m : JMap (List String)} {k : String} {lst : List String}
    (t w : String) (h : aget m k = some lst) :
    inCount (aset m k (lst ++ [t])) w = inCount m w + (if t = w then 1 else 0) := by
  induction m with
  | nil => cases h
  | cons p rest ih =>
    by_cases hp : p.1 = k
    · have hval : p.2 = lst := by
        have : aget (p :: rest) k = some p.2 := by simp [aget, List.find?, hp]
        rw [h] at this
        exact (Option.some.injEq _ _ ▸ this).symm
      simp only [aset, if_pos hp]
      rw [inCount_cons, inCount_cons, hval]
      simp only [List.count_append]
      have : List.count w [t] = if t = w then 1 else 0 := by
        simp [List.count_singleton]
      omega
    · have hrest : aget rest k = some lst := by
        have : aget (p :: rest) k = aget rest k := by simp [aget, List.find?, hp]
        rw [← this, h]
      simp only [aset, if_neg hp]
      rw [inCount_cons, inCount_cons, ih hrest]
      omega

theorem initFold_keys {α : Type} (c : α) (ids : List String) :
    ∀ (m0 : JMap α), (∀ i ∈ ids, i ∉ keysOf m0) → ids.Nodup →
    keysOf (ids.foldl (fun m id => aset m id c) m0) = keysOf m0 ++ ids := by
  induction ids with
  | nil => intro m0 _ _; simp
  | cons i ids' ih =>
    intro m0 hfresh hnd
    simp only [List.nodup_cons] at hnd
    simp only [List.foldl_cons]
    have hkeys := keysOf_aset_not_mem m0 i c (hfresh i (List.mem_cons_self _ _))
    have hfresh' : ∀ j ∈ ids', j ∉ keysOf (aset m0 i c) := by
      intro j hj
      rw [hkeys]
      simp only [List.mem_append, List.mem_singleton]
      push_neg
      exact ⟨hfresh j (List.mem_cons_of_mem _ hj), fun hh => hnd.1 (hh ▸ hj)⟩
    rw [ih _ hfresh' hnd.2, hkeys]
    simp

theorem initFold_entries {α : Type} (c : α) (ids : List String) :
    ∀ (m0 : JMap α), (∀ p ∈ m0, p.2 = c) →
    ∀ p ∈ ids.foldl (fun m id => aset m id c) m0, p.2 = c := by
  induction ids with
  | nil => intro m0 h p hp; exact h p hp
  | cons i ids' ih =>
    intro m0 h p hp
    refine ih _ ?_ p hp
    intro q hq
    rcases mem_aset hq with h1 | h1
    · rw [h1]
    · exact h q h1

theorem nodeIds_foldl_nodup (ns : List WorkflowNode) :
    ∀ acc : List String, acc.Nodup →
    (ns.foldl (fun acc n => if n.id ∈ acc then acc else acc ++ [n.id]) acc).Nodup := by
  induction ns with
  | nil => intro acc h; exact h
  | cons n ns' ih =>
    intro acc h
    simp only [List.foldl_cons]
    by_cases hn : n.id ∈ acc
    · rw [if_pos hn]; exact ih acc h
    · rw [if_neg hn]
      exact ih _ (by simp [List.nodup_append, h, hn])

theorem nodeIdsOf_nodup (wf : Workflow) : (nodeIdsOf wf).Nodup :=
  nodeIds_foldl_nodup wf.nodes [] List.nodup_nil

theorem nodeIds_foldl_mem (ns : List WorkflowNode) :
    ∀ (acc : List String) (x : String),
    x ∈ ns.foldl (fun acc n => if n.id ∈ acc then acc else acc ++ [n.id]) acc ↔
      x ∈ acc ∨ ∃ n ∈ ns, n.id = x := by
  induction ns with
  | nil => intro acc x; simp
  | cons n ns' ih =>
    intro acc x
    simp only [List.foldl_cons]
    by_cases hn : n.id ∈ acc
    · rw [if_pos hn, ih]
      constructor
      · rintro (h1 | h1)
        · exact Or.inl h1
        · exact Or.inr (by obtain ⟨m, hm, hmx⟩ := h1; exact ⟨m, List.mem_cons_of_mem _ hm, hmx⟩)
      · rintro (h1 | ⟨m, hm, hmx⟩)
        · exact Or.inl h1
        · rcases List.mem_cons.mp hm with h2 | h2
          · exact Or.inl (by rw [← hmx, h2]; exact hn)
          · exact Or.inr ⟨m, h2, hmx⟩
    · rw [if_neg hn, ih]
      constructor
      · rintro (h1 | h1)
        · rcases List.mem_append.mp h1 with h2 | h2
          · exact Or.inl h2
          · simp only [List.mem_singleton] at h2
            exact Or.inr ⟨n, List.mem_cons_self _ _, h2.symm⟩
        · exact Or.inr (by obtain ⟨m, hm, hmx⟩ := h1; exact ⟨m, List.mem_cons_of_mem _ hm, hmx⟩)
      · rintro (h1 | ⟨m, hm, hmx⟩)
        · exact Or.inl (List.mem_append.mpr (Or.inl h1))
        · rcases List.mem_cons.mp hm with h2 | h2
          · exact Or.inl (List.mem_append.mpr (Or.inr (by simp [← hmx, h2])))
          · exact Or.inr ⟨m, h2, hmx⟩

theorem mem_nodeIdsOf (wf : Workflow) (x : String) :
    x ∈ nodeIdsOf wf ↔ ∃ n ∈ wf.nodes, n.id = x := by
  have := nodeIds_foldl_mem wf.nodes [] x
  simpa [nodeIdsOf] using this

theorem adjList_aset_self (m : JMap (List String)) (k : String) (l : List String) :
    adjList (aset m k l) k = l := by
  simp [adjList, aget_aset_self]

theorem adjList_aset_ne (m : JMap (List String)) (k k' : String) (l : List String)
    (h : k' ≠ k) : adjList (aset m k l) k' = adjList m k' := by
  simp [adjList, aget_aset_ne _ _ _ _ h]

theorem addEdge_inv {ids : List String} {done : List WorkflowEdge}
    {adjP : JMap (List String)} {degP : JMap Int} {e : WorkflowEdge}
    {adj' : JMap (List String)} {deg' : JMap Int}
    (inv : BuildInv ids done adjP degP)
    (h : addEdge (adjP, degP) e = Except.ok (adj', deg')) :
    BuildInv ids (done ++ [e]) adj' deg' ∧ e.fromId ∈ ids := by
  unfold addEdge at h
  cases hfrom : aget adjP e.fromId with
  | none => rw [hfrom] at h; cases h
  | some lst =>
    rw [hfrom] at h
    simp only [Except.ok.injEq, Prod.mk.injEq] at h
    obtain ⟨ha, hd⟩ := h
    subst ha
    subst hd
    have hfromK : e.fromId ∈ ids := inv.adjKeys ▸ mem_keysOf_of_aget hfrom
    have hadjKeys : keysOf (aset adjP e.fromId (lst ++ [e.toId])) = ids := by
      rw [keysOf_aset_mem _ _ _ (inv.adjKeys ▸ hfromK)]
      exact inv.adjKeys
    have hadjListFrom : adjList adjP e.fromId = lst := by
      simp [adjList, hfrom]
    have hIn : ∀ w, inCount (aset adjP e.fromId (lst ++ [e.toId])) w
        = inCount adjP w + (if e.toId = w then 1 else 0) :=
      fun w => inCount_aset_append _ _ hfrom
    have hinToZero : e.toId ∉ keysOf degP → inCount adjP e.toId = 0 := by
      intro hto
      refine inCount_eq_zero ?_
      intro p hp hmem
      exact hto (inv.adjVals p hp e.toId hmem)
    have hDegSup : ∀ x, x ∈ keysOf degP →
        x ∈ keysOf (aset degP e.toId ((aget degP e.toId).getD 0 + 1)) := by
      intro x hx
      by_cases hto : e.toId ∈ keysOf degP
      · rw [keysOf_aset_mem _ _ _ hto]; exact hx
      · rw [keysOf_aset_not_mem _ _ _ hto]; exact List.mem_append.mpr (Or.inl hx)
    have hToIn : e.toId ∈ keysOf (aset degP e.toId ((aget degP e.toId).getD 0 + 1)) := by
      by_cases hto : e.toId ∈ keysOf degP
      · rw [keysOf_aset_mem _ _ _ hto]; exact hto
      · rw [keysOf_aset_not_mem _ _ _ hto]
        exact List.mem_append.mpr (Or.inr (List.mem_singleton.mpr rfl))
    have hDegDown : ∀ x, x ∈ keysOf (aset degP e.toId ((aget degP e.toId).getD 0 + 1)) →
        x = e.toId ∨ x ∈ keysOf degP := by
      intro x hx
      by_cases hto : e.toId ∈ keysOf degP
      · rw [keysOf_aset_mem _ _ _ hto] at hx; exact Or.inr hx
      · rw [keysOf_aset_not_mem _ _ _ hto] at hx
        rcases List.mem_append.mp hx with h1 | h1
        · exact Or.inr h1
        · exact Or.inl (List.mem_singleton.mp h1)
    refine ⟨⟨hadjKeys, ?_, ?_, ?_, ?_, ?_, ?_⟩, hfromK⟩
    · by_cases hto : e.toId ∈ keysOf degP
      · rw [keysOf_aset_mem _ _ _ hto]; exact inv.degKeysNd
      · rw [keysOf_aset_not_mem _ _ _ hto]
        simp [List.nodup_append, inv.degKeysNd, hto]
    · exact fun x hx => hDegSup x (inv.degKeysSup x hx)
    · intro v hv
      rcases hDegDown v hv with h1 | h1
      · subst h1
        exact Or.inr ⟨e, List.mem_append.mpr (Or.inr (List.mem_singleton.mpr rfl)), rfl⟩
      · rcases inv.degKeysChar v h1 with h2 | ⟨e', he', he2⟩
        · exact Or.inl h2
        · exact Or.inr ⟨e', List.mem_append.mpr (Or.inl he'), he2⟩
    · intro p hp v hv
      rcases mem_aset hp with h1 | h1
      · subst h1
        simp only at hv
        rcases List.mem_append.mp hv with h2 | h2
        · exact hDegSup v (inv.adjVals (e.fromId, lst) (aget_mem hfrom) v h2)
        · simp only [List.mem_singleton] at h2
          exact h2 ▸ hToIn
      · exact hDegSup v (inv.adjVals p h1 v hv)
    · intro v hv
      by_cases hveq : v = e.toId
      · subst hveq
        rw [aget_aset_self]
        rw [hIn e.toId]
        simp only [if_pos rfl, Option.getD_some]
        by_cases hto : e.toId ∈ keysOf degP
        · have := inv.acc e.toId hto
          push_cast
          omega
        · have h0 : aget degP e.toId = none := aget_eq_none.mpr hto
          rw [h0, hinToZero hto]
          simp
      · rw [aget_aset_ne _ _ _ _ hveq]
        have hvP : v ∈ keysOf degP := by
          rcases hDegDown v hv with h1 | h1
          · exact absurd h1 hveq
          · exact h1
        rw [hIn v]
        rw [if_neg (fun hh => hveq hh.symm)]
        rw [inv.acc v hvP]
        simp
    · intro u v
      by_cases hu : u = e.fromId
      · subst hu
        rw [adjList_aset_self]
        constructor
        · intro hv
          rcases List.mem_append.mp hv with h1 | h1
          · obtain ⟨e', he', hee⟩ := (inv.memEdge e.fromId v).mp (hadjListFrom ▸ h1)
            exact ⟨e', List.mem_append.mpr (Or.inl he'), hee⟩
          · simp only [List.mem_singleton] at h1
            exact ⟨e, List.mem_append.mpr (Or.inr (List.mem_singleton.mpr rfl)), rfl, h1.symm⟩
        · rintro ⟨e', he', hee1, hee2⟩
          rcases List.mem_append.mp he' with h1 | h1
          · exact List.mem_append.mpr (Or.inl
              (hadjListFrom ▸ (inv.memEdge e.fromId v).mpr ⟨e', h1, hee1, hee2⟩))
          · simp only [List.mem_singleton] at h1
            subst h1
            exact List.mem_append.mpr (Or.inr (List.mem_singleton.mpr hee2.symm))
      · rw [adjList_aset_ne _ _ _ _ hu]
        rw [inv.memEdge u v]
        constructor
        · rintro ⟨e', he', hee⟩
          exact ⟨e', List.mem_append.mpr (Or.inl he'), hee⟩
        · rintro ⟨e', he', hee1, hee2⟩
          rcases List.mem_append.mp he' with h1 | h1
          · exact ⟨e', h1, hee1, hee2⟩
          · simp only [List.mem_singleton] at h1
            subst h1
            exact absurd hee1 (fun hh => hu hh.symm)

theorem buildFold_inv {ids : List String} :
    ∀ (es done : List WorkflowEdge) (adjP : JMap (List String)) (degP : JMap Int)
      (adj : JMap (List String)) (deg : JMap Int),
    BuildInv ids done adjP degP →
    es.foldlM addEdge (adjP, degP) = Except.ok (adj, deg) →
    BuildInv ids (done ++ es) adj deg ∧ ∀ e ∈ es, e.fromId ∈ ids := by
  intro es
  induction es with
  | nil =>
    intro done adjP degP adj deg inv h
    simp only [List.foldlM_nil] at h
    simp only [pure, Except.pure, Except.ok.injEq, Prod.mk.injEq] at h
    obtain ⟨h1, h2⟩ := h
    subst h1
    subst h2
    rw [List.append_nil]
    exact ⟨inv, fun e he => absurd he (List.not_mem_nil e)⟩
  | cons e es' ih =>
    intro done adjP degP adj deg inv h
    rw [List.foldlM_cons] at h
    cases hstep : addEdge (adjP, degP) e with
    | error msg => rw [hstep] at h; rw [exc_bind_err] at h; cases h
    | ok st' =>
      rw [hstep] at h
      rw [exc_bind_ok] at h
      obtain ⟨adj1, deg1⟩ := st'
      obtain ⟨inv', hfrom⟩ := addEdge_inv inv hstep
      obtain ⟨invF, hfroms⟩ := ih (done ++ [e]) adj1 deg1 adj deg inv' h
      constructor
      · rw [show done ++ e :: es' = (done ++ [e]) ++ es' by simp]
        exact invF
      · intro e' he'
        rcases List.mem_cons.mp he' with h1 | h1
        · exact h1 ▸ hfrom
        · exact hfroms e' h1

theorem buildFold_error {ids : List String} :
    ∀ (es done : List WorkflowEdge) (adjP : JMap (List String)) (degP : JMap Int),
    BuildInv ids done adjP degP →
    (∃ e ∈ es, e.fromId ∉ ids) →
    es.foldlM addEdge (adjP, degP) = Except.error pushTypeErrorMsg := by
  intro es
  induction es with
  | nil =>
    intro done adjP degP inv h
    obtain ⟨e, he, _⟩ := h
    cases he
  | cons e es' ih =>
    intro done adjP degP inv h
    rw [List.foldlM_cons]
    cases hstep : addEdge (adjP, degP) e with
    | error msg =>
      rw [exc_bind_err]
      unfold addEdge at hstep
      cases hfrom : aget adjP e.fromId with
      | none => rw [hfrom] at hstep; exact hstep ▸ rfl
      | some lst => rw [hfrom] at hstep; cases hstep
    | ok st' =>
      rw [exc_bind_ok]
      obtain ⟨adj1, deg1⟩ := st'
      obtain ⟨inv', hfrom⟩ := addEdge_inv inv hstep
      obtain ⟨e', he', hne⟩ := h
      rcases List.mem_cons.mp he' with h1 | h1
      · exact absurd (h1 ▸ hfrom) hne
      · exact ih (done ++ [e]) adj1 deg1 inv' ⟨e', h1, hne⟩

theorem buildInv_init (wf : Workflow) :
    BuildInv (nodeIdsOf wf) []
      ((nodeIdsOf wf).foldl (fun m id => aset m id []) [])
      ((nodeIdsOf wf).foldl (fun m id => aset m id 0) []) := by
  have hka : keysOf ((nodeIdsOf wf).foldl (fun m id => aset m id ([] : List String)) [])
      = nodeIdsOf wf := by
    have := initFold_keys ([] : List String) (nodeIdsOf wf) [] (by simp [keysOf])
      (nodeIdsOf_nodup wf)
    simpa [keysOf] using this
  have hkd : keysOf ((nodeIdsOf wf).foldl (fun m id => aset m id (0 : Int)) [])
      = nodeIdsOf wf := by
    have := initFold_keys (0 : Int) (nodeIdsOf wf) [] (by simp [keysOf])
      (nodeIdsOf_nodup wf)
    simpa [keysOf] using this
  have hea : ∀ p ∈ (nodeIdsOf wf).foldl (fun m id => aset m id ([] : List String)) [],
      p.2 = [] := initFold_entries _ _ [] (by simp)
  have hed : ∀ p ∈ (nodeIdsOf wf).foldl (fun m id => aset m id (0 : Int)) [],
      p.2 = 0 := initFold_entries _ _ [] (by simp)
  have hadjNil : ∀ u, adjList ((nodeIdsOf wf).foldl
      (fun m id => aset m id ([] : List String)) []) u = [] := by
    intro u
    unfold adjList
    cases hg : aget ((nodeIdsOf wf).foldl (fun m id => aset m id ([] : List String)) []) u with
    | none => rfl
    | some l =>
      have := hea _ (aget_mem hg)
      simp only at this
      simp [this]
  refine ⟨hka, ?_, ?_, ?_, ?_, ?_, ?_⟩
  · rw [hkd]; exact nodeIdsOf_nodup wf
  · intro x hx
    rw [hkd]
    exact hx
  · intro v hv
    rw [hkd] at hv
    exact Or.inl hv
  · intro p hp v hv
    rw [hea p hp] at hv
    cases hv
  · intro v hv
    obtain ⟨c, hc⟩ := aget_isSome_of_mem_keys hv
    have hc0 : c = 0 := hed _ (aget_mem hc)
    rw [hc, hc0]
    rw [inCount_eq_zero (fun p hp hm => by rw [hea p hp] at hm; cases hm)]
    rfl
  · intro u v
    rw [hadjNil u]
    simp

theorem buildGraph_inv (wf : Workflow) (adj : JMap (List String)) (deg : JMap Int)
    (h : buildGraph wf = Except.ok (adj, deg)) :
    BuildInv (nodeIdsOf wf) wf.edges adj deg ∧
    ∀ e ∈ wf.edges, e.fromId ∈ nodeIdsOf wf := by
  unfold buildGraph at h
  have := buildFold_inv wf.edges [] _ _ adj deg (buildInv_init wf) h
  simpa using this

theorem buildGraph_error_of_unknown_from (wf : Workflow)
    (h : ∃ e ∈ wf.edges, e.fromId ∉ nodeIdsOf wf) :
    buildGraph wf = Except.error pushTypeErrorMsg := by
  unfold buildGraph
  exact buildFold_error wf.edges [] _ _ (buildInv_init wf) h

theorem foldDec_mono (nbrs : List String) (d : JMap Int) (q : List String) (v : String) :
    (aget (nbrs.foldl decStep (d, q)).1 v).getD 0 ≤ (aget d v).getD 0 := by
  rw [foldDec_deg]
  omega

theorem foldDec_q_mono (nbrs : List String) (d : JMap Int) (q : List String) :
    ∀ v ∈ q, v ∈ (nbrs.foldl decStep (d, q)).2 := by
  induction nbrs generalizing d q with
  | nil => intro v hv; exact hv
  | cons nb nbrs' ih =>
    intro v hv
    simp only [List.foldl_cons]
    have hstep : decStep (d, q) nb
        = (aset d nb ((aget d nb).getD 0 - 1),
           if (aget d nb).getD 0 - 1 = 0 then q ++ [nb] else q) := rfl
    rw [hstep]
    by_cases hz : (aget d nb).getD 0 - 1 = 0
    · rw [if_pos hz]
      exact ih _ _ v (List.mem_append.mpr (Or.inl hv))
    · rw [if_neg hz]
      exact ih _ _ v hv

theorem foldDec_cross (nbrs : List String) (d : JMap Int) (q : List String) (v : String)
    (hpos : 0 < (aget d v).getD 0)
    (hneg : (aget (nbrs.foldl decStep (d, q)).1 v).getD 0 ≤ 0) :
    v ∈ (nbrs.foldl decStep (d, q)).2 := by
  induction nbrs generalizing d q with
  | nil => simp at hneg; omega
  | cons nb nbrs' ih =>
    simp only [List.foldl_cons] at hneg ⊢
    have hstep : decStep (d, q) nb
        = (aset d nb ((aget d nb).getD 0 - 1),
           if (aget d nb).getD 0 - 1 = 0 then q ++ [nb] else q) := rfl
    rw [hstep] at hneg ⊢
    by_cases hvnb : v = nb
    · subst hvnb
      by_cases hz : (aget d v).getD 0 - 1 = 0
      · rw [if_pos hz]
        exact foldDec_q_mono _ _ _ v (List.mem_append.mpr (Or.inr (List.mem_singleton.mpr rfl)))
      · rw [if_neg hz]
        have hd1 : (aget (aset d v ((aget d v).getD 0 - 1)) v).getD 0
            = (aget d v).getD 0 - 1 := by
          rw [aget_aset_self]; rfl
        refine ih _ _ ?_ (by rwa [if_neg hz] at hneg)
        rw [hd1]
        omega
    · have hd1 : (aget (aset d nb ((aget d nb).getD 0 - 1)) v).getD 0
          = (aget d v).getD 0 := by
        rw [aget_aset_ne _ _ _ _ hvnb]
      by_cases hz : (aget d nb).getD 0 - 1 = 0
      · rw [if_pos hz]
        refine ih _ _ (hd1 ▸ hpos) (by rwa [if_pos hz] at hneg)
      · rw [if_neg hz]
        refine ih _ _ (hd1 ▸ hpos) (by rwa [if_neg hz] at hneg)

theorem foldDec_prepos (nbrs : List String) (d : JMap Int) (q : List String) :
    ∀ v ∈ (nbrs.foldl decStep (d, q)).2, v ∈ q ∨ 0 < (aget d v).getD 0 := by
  induction nbrs generalizing d q with
  | nil => intro v hv; exact Or.inl hv
  | cons nb nbrs' ih =>
    intro v hv
    simp only [List.foldl_cons] at hv
    have hstep : decStep (d, q) nb
        = (aset d nb ((aget d nb).getD 0 - 1),
           if (aget d nb).getD 0 - 1 = 0 then q ++ [nb] else q) := rfl
    rw [hstep] at hv
    have hmono : ∀ w, (aget (aset d nb ((aget d nb).getD 0 - 1)) w).getD 0
        ≤ (aget d w).getD 0 := by
      intro w
      by_cases hw : w = nb
      · subst hw
        rw [aget_aset_self]
        simp only [Option.getD_some]
        omega
      · rw [aget_aset_ne _ _ _ _ hw]
    by_cases hz : (aget d nb).getD 0 - 1 = 0
    · rw [if_pos hz] at hv
      rcases ih _ _ v hv with h1 | h1
      · rcases List.mem_append.mp h1 with h2 | h2
        · exact Or.inl h2
        · simp only [List.mem_singleton] at h2
          subst h2
          exact Or.inr (by omega)
      · exact Or.inr (lt_of_lt_of_le h1 (hmono v))
    · rw [if_neg hz] at hv
      rcases ih _ _ v hv with h1 | h1
      · exact Or.inl h1
      · exact Or.inr (lt_of_lt_of_le h1 (hmono v))

theorem remSum_le_inCount (adj : JMap (List String)) (done : List String) (v : String) :
    remSum adj done v ≤ inCount adj v := by
  induction adj with
  | nil => simp [remSum, inCount]
  | cons p rest ih =>
    rw [inCount_cons]
    by_cases hp : p.1 ∈ done
    · rw [remSum_cons_mem p rest done v hp]; omega
    · rw [remSum_cons_not_mem p rest done v hp]; omega

theorem remSum_lt_of_source (adj : JMap (List String)) (done : List String)
    (u v : String) (l : List String) (hmem : (u, l) ∈ adj) (hv : v ∈ l)
    (hu : u ∉ done) : remSum adj done v < inCount adj v := by
  induction adj with
  | nil => cases hmem
  | cons p rest ih =>
    rw [inCount_cons]
    rcases List.mem_cons.mp hmem with h1 | h1
    · have hp1 : p.1 = u := by rw [← h1]
      have hp2 : p.2 = l := by rw [← h1]
      have hpd : p.1 ∉ done := hp1 ▸ hu
      rw [remSum_cons_not_mem p rest done v hpd]
      have hc : 0 < p.2.count v := List.count_pos_iff.mpr (hp2 ▸ hv)
      have := remSum_le_inCount rest done v
      omega
    · by_cases hp : p.1 ∈ done
      · rw [remSum_cons_mem p rest done v hp]
        have := ih h1
        omega
      · rw [remSum_cons_not_mem p rest done v hp]
        have := ih h1
        omega

theorem foldlM_exc_cons {α σ : Type} (f : σ → α → Except String σ) (a : α)
    (as : List α) (s : σ) :
    (a :: as).foldlM f s = f s a >>= fun s1 => as.foldlM f s1 := by
  rfl

theorem processWave_facts (adj : JMap (List String)) :
    ∀ (queue : List String) (d : JMap Int) (nq0 : List String)
      (out : JMap Int × List String),
    queue.foldlM (processId adj) (d, nq0) = Except.ok out →
    nq0.Nodup → (∀ v ∈ nq0, (aget d v).getD 0 ≤ 0) →
    (∀ p ∈ adj, ∀ w ∈ p.2, w ∈ keysOf d) →
    (∀ u ∈ queue, u ∈ keysOf adj) ∧
    (∀ v, (aget out.1 v).getD 0
        = (aget d v).getD 0 - (sumCounts adj queue v : Int)) ∧
    keysOf out.1 = keysOf d ∧
    out.2.Nodup ∧
    (∀ v ∈ out.2, (aget out.1 v).getD 0 ≤ 0) ∧
    (∀ v ∈ out.2, v ∈ nq0 ∨ ∃ u ∈ queue, v ∈ adjList adj u) ∧
    (∀ v ∈ out.2, v ∈ nq0 ∨ 0 < (aget d v).getD 0) ∧
    (∀ v, 0 < (aget d v).getD 0 → (aget out.1 v).getD 0 ≤ 0 → v ∈ out.2) ∧
    (∀ v ∈ nq0, v ∈ out.2) ∧
    degSum out.1 + out.2.length ≤ degSum d + nq0.length := by
  intro queue
  induction queue with
  | nil =>
    intro d nq0 out h hnd0 hle0 hvals
    simp only [List.foldlM_nil] at h
    have hout : out = (d, nq0) := by
      cases h; rfl
    subst hout
    refine ⟨fun u hu => absurd hu (List.not_mem_nil u), ?_, rfl, hnd0, hle0,
      fun v hv => Or.inl hv, fun v hv => Or.inl hv, ?_, fun v hv => hv, le_refl _⟩
    · intro v
      simp [sumCounts]
    · intro v hpos hneg
      have h0 : (aget d v).getD 0 ≤ 0 := hneg
      omega
  | cons u queue' ih =>
    intro d nq0 out h hnd0 hle0 hvals
    rw [foldlM_exc_cons] at h
    cases hadj : aget adj u with
    | none =>
      rw [show processId adj (d, nq0) u = Except.error iterTypeErrorMsg by
        simp [processId, hadj], exc_bind_err] at h
      cases h
    | some nbrs =>
      rw [show processId adj (d, nq0) u = Except.ok (nbrs.foldl decStep (d, nq0)) by
        simp [processId, hadj], exc_bind_ok] at h
      have hentry : (u, nbrs) ∈ adj := aget_mem hadj
      have hnbrs : ∀ x ∈ nbrs, x ∈ keysOf d := fun x hx => hvals (u, nbrs) hentry x hx
      have hdeg1 : ∀ v, (aget (nbrs.foldl decStep (d, nq0)).1 v).getD 0
          = (aget d v).getD 0 - (nbrs.count v : Int) :=
        fun v => foldDec_deg nbrs d nq0 v
      have hkeys1 : keysOf (nbrs.foldl decStep (d, nq0)).1 = keysOf d :=
        foldDec_keys nbrs d nq0 hnbrs
      obtain ⟨hnd1, hq1⟩ := foldDec_queue nbrs d nq0 hnd0 hle0
      have hvals1 : ∀ p ∈ adj, ∀ w ∈ p.2, w ∈ keysOf (nbrs.foldl decStep (d, nq0)).1 := by
        intro p hp w hw
        rw [hkeys1]
        exact hvals p hp w hw
      obtain ⟨ihq, ihacc, ihkeys, ihnd, ihle, ihmem, ihpre, ihcross, ihmono, ihphi⟩ :=
        ih _ _ out h hnd1 (fun v hv => (hq1 v hv).1) hvals1
      have hadjL : adjList adj u = nbrs := by
        simp [adjList, hadj]
      refine ⟨?_, ?_, ihkeys.trans hkeys1, ihnd, ihle, ?_, ?_, ?_, ?_, ?_⟩
      · intro x hx
        rcases List.mem_cons.mp hx with h1 | h1
        · exact h1 ▸ mem_keysOf_of_aget hadj
        · exact ihq x h1
      · intro v
        have hsc : sumCounts adj (u :: queue') v
            = nbrs.count v + sumCounts adj queue' v := by
          simp [sumCounts, hadjL]
        rw [hsc, ihacc v, hdeg1 v]
        push_cast
        ring
      · intro v hv
        rcases ihmem v hv with h1 | h1
        · rcases (hq1 v h1).2 with h2 | h2
          · exact Or.inl h2
          · exact Or.inr ⟨u, List.mem_cons_self _ _, hadjL ▸ h2⟩
        · obtain ⟨w, hw, hw2⟩ := h1
          exact Or.inr ⟨w, List.mem_cons_of_mem _ hw, hw2⟩
      · intro v hv
        rcases ihpre v hv with h1 | h1
        · rcases foldDec_prepos nbrs d nq0 v h1 with h2 | h2
          · exact Or.inl h2
          · exact Or.inr h2
        · have := hdeg1 v
          have hc : (0 : Int) ≤ (nbrs.count v : Int) := Int.natCast_nonneg _
          exact Or.inr (by omega)
      · intro v hpos hneg
        by_cases h1 : 0 < (aget (nbrs.foldl decStep (d, nq0)).1 v).getD 0
        · exact ihcross v h1 hneg
        · push_neg at h1
          exact ihmono v (foldDec_cross nbrs d nq0 v hpos h1)
      · intro v hv
        exact ihmono v (foldDec_q_mono nbrs d nq0 v hv)
      · refine le_trans ihphi (foldDec_phi nbrs d nq0)

theorem source_emitted_of_nonpos (adj : JMap (List String)) (deg : JMap Int)
    (emitted queue : List String) (inv : KahnInv adj deg emitted queue)
    (v : String) (hv : v ∈ keysOf deg) (hle : (aget deg v).getD 0 ≤ 0)
    (u : String) (hu : u ∈ keysOf adj) (hadj : v ∈ adjList adj u) :
    u ∈ emitted := by
  by_contra hne
  obtain ⟨l, hl⟩ := aget_isSome_of_mem_keys hu
  have hentry : (u, l) ∈ adj := aget_mem hl
  have hvl : v ∈ l := by
    rw [adjList, hl] at hadj
    exact hadj
  have hlt := remSum_lt_of_source adj emitted u v l hentry hvl hne
  have hacc := inv.acc v hv
  omega

theorem kahnStep_inv (adj : JMap (List String)) (deg : JMap Int)
    (emitted queue : List String) (deg1 : JMap Int) (nq : List String)
    (inv : KahnInv adj deg emitted queue)
    (h : processWave adj deg queue = Except.ok (deg1, nq)) :
    KahnInv adj deg1 (emitted ++ queue) nq ∧
    (∀ u ∈ queue, u ∈ keysOf adj) ∧
    keysOf deg1 = keysOf deg ∧
    degSum deg1 + nq.length ≤ degSum deg ∧
    (∀ v ∈ queue, ∀ u, u ∈ keysOf adj → v ∈ adjList adj u → u ∈ emitted) := by
  obtain ⟨hq, hacc0, hkeys0, hnd0, hle0, hmem0, hpre0, hcross0, hmono0, hphi0⟩ :=
    processWave_facts adj queue deg [] (deg1, nq) h List.nodup_nil
      (fun v hv => absurd hv (List.not_mem_nil v)) inv.adjValsSub
  have hacc : ∀ v, (aget deg1 v).getD 0
      = (aget deg v).getD 0 - (sumCounts adj queue v : Int) := hacc0
  have hkeys : keysOf deg1 = keysOf deg := hkeys0
  have hnd : nq.Nodup := hnd0
  have hle : ∀ v ∈ nq, (aget deg1 v).getD 0 ≤ 0 := hle0
  have hpre : ∀ v ∈ nq, v ∈ ([] : List String) ∨ 0 < (aget deg v).getD 0 := hpre0
  have hcross : ∀ v, 0 < (aget deg v).getD 0 → (aget deg1 v).getD 0 ≤ 0 → v ∈ nq :=
    hcross0
  have hphi : degSum deg1 + nq.length ≤ degSum deg + 0 := hphi0
  have hpos : ∀ v ∈ nq, 0 < (aget deg v).getD 0 := by
    intro v hv
    rcases hpre v hv with h1 | h1
    · exact absurd h1 (List.not_mem_nil v)
    · exact h1
  have hsc : ∀ v, (0 : Int) ≤ (sumCounts adj queue v : Int) :=
    fun v => Int.natCast_nonneg _
  refine ⟨?_, hq, hkeys, by simpa using hphi, ?_⟩
  · refine ⟨inv.ndAdj, hkeys ▸ inv.ndDeg, ?_, hnd, ?_, ?_, ?_, ?_, ?_, ?_, ?_, hle, ?_⟩
    · exact inv.ndEm.append inv.ndQ (fun a ha hb => inv.disj a hb ha)
    · intro x hx hmem2
      have hp := hpos x hx
      rcases List.mem_append.mp hmem2 with h1 | h1
      · have := inv.emLe x h1
        omega
      · have := inv.qLe x h1
        omega
    · intro x hx
      rcases List.mem_append.mp hx with h1 | h1
      · exact inv.emSub x h1
      · exact hq x h1
    · intro x hx
      rw [hkeys]
      have hp := hpos x hx
      by_contra hcon
      rw [← aget_eq_none] at hcon
      rw [hcon] at hp
      simp at hp
    · intro x hx
      rw [hkeys]
      exact inv.adjKeysSub x hx
    · intro p hp w hw
      rw [hkeys]
      exact inv.adjValsSub p hp w hw
    · intro v hv
      rw [hkeys] at hv
      have h1 := hacc v
      have h2 := inv.acc v hv
      have h3 := remSum_append_list adj emitted queue v inv.ndAdj inv.ndQ inv.disj
      omega
    · intro v hv
      have h1 := hacc v
      have h2 := hsc v
      rcases List.mem_append.mp hv with h3 | h3
      · have := inv.emLe v h3
        omega
      · have := inv.qLe v h3
        omega
    · intro v hv hnotem hnotq
      rw [hkeys] at hv
      have hv1 : v ∉ emitted := fun hh => hnotem (List.mem_append.mpr (Or.inl hh))
      have hv2 : v ∉ queue := fun hh => hnotem (List.mem_append.mpr (Or.inr hh))
      have hp := inv.others v hv hv1 hv2
      by_contra hcon
      push_neg at hcon
      exact hnotq (hcross v hp hcon)
  · intro v hv u hu hadj
    exact source_emitted_of_nonpos adj deg emitted queue inv v (inv.qSub v hv)
      (inv.qLe v hv) u hu hadj

theorem kahnLoop_ok_facts (adj : JMap (List String)) :
    ∀ (fuel : Nat) (deg : JMap Int) (queue emitted : List String)
      (waves : List (List String)),
    kahnLoop adj fuel deg queue = Except.ok waves →
    KahnInv adj deg emitted queue →
    (emitted ++ waves.flatten).Nodup ∧
    (∀ w ∈ waves, ∀ v ∈ w, v ∈ keysOf adj) ∧
    WavesOrdered adj emitted waves ∧
    (∀ v ∈ keysOf deg, v ∉ emitted ++ waves.flatten →
      ∃ u, u ∈ keysOf adj ∧ u ∉ emitted ++ waves.flatten ∧ v ∈ adjList adj u) ∧
    (∀ v ∈ queue, v ∈ waves.flatten) := by
  intro fuel
  induction fuel with
  | zero =>
    intro deg queue emitted waves h inv
    simp [kahnLoop] at h
  | succ fuel ih =>
    intro deg queue emitted waves h inv
    cases hqe : queue with
    | nil =>
      subst hqe
      simp only [kahnLoop, List.isEmpty_nil, if_true] at h
      have hw : waves = [] := by cases h; rfl
      subst hw
      simp only [List.flatten_nil, List.append_nil]
      refine ⟨inv.ndEm, fun w hw => absurd hw (List.not_mem_nil w), trivial, ?_,
        fun v hv => absurd hv (List.not_mem_nil v)⟩
      intro v hv hnot
      have hpos := inv.others v hv hnot (List.not_mem_nil v)
      have hacc := inv.acc v hv
      have hlt : remSum adj emitted v < inCount adj v := by omega
      obtain ⟨p, hp, hpem, hpv⟩ := exists_source_of_remSum_lt adj emitted v hlt
      refine ⟨p.1, List.mem_map.mpr ⟨p, hp, rfl⟩, hpem, ?_⟩
      have hpget : aget adj p.1 = some p.2 := aget_of_mem_nodup inv.ndAdj hp
      rw [adjList, hpget]
      exact hpv
    | cons u0 rest0 =>
      have hne : queue.isEmpty = false := by rw [hqe]; rfl
      simp only [kahnLoop, hne, Bool.false_eq_true, if_false] at h
      cases hpw : processWave adj deg queue with
      | error e =>
        rw [hpw] at h
        cases h
      | ok st =>
        obtain ⟨deg1, nq⟩ := st
        rw [hpw] at h
        have h2 : (match kahnLoop adj fuel deg1 nq with
            | Except.error e => Except.error e
            | Except.ok ws => Except.ok (queue :: ws)) = Except.ok waves := h
        cases hkl : kahnLoop adj fuel deg1 nq with
        | error e =>
          rw [hkl] at h2
          cases h2
        | ok wavesR =>
          rw [hkl] at h2
          have hw : waves = queue :: wavesR := by cases h2; rfl
          subst hw
          obtain ⟨inv1, hqsub, hkeys1, hphi, hord⟩ :=
            kahnStep_inv adj deg emitted queue deg1 nq inv hpw
          obtain ⟨ihnd, ihw, ihord, ihF4, ihq⟩ :=
            ih deg1 nq (emitted ++ queue) wavesR hkl inv1
          have hflat : (queue :: wavesR).flatten = queue ++ wavesR.flatten := rfl
          refine ⟨?_, ?_, ⟨hord, ihord⟩, ?_, ?_⟩
          · rw [hflat, ← List.append_assoc]
            exact ihnd
          · intro w hw v hv
            rcases List.mem_cons.mp hw with h1 | h1
            · exact hqsub v (h1 ▸ hv)
            · exact ihw w h1 v hv
          · intro v hv hnot
            rw [← hkeys1] at hv
            rw [hflat] at hnot
            have hnot1 : v ∉ (emitted ++ queue) ++ wavesR.flatten := by
              rw [List.append_assoc]
              exact hnot
            obtain ⟨u, hu1, hu2, hu3⟩ := ihF4 v hv hnot1
            refine ⟨u, hu1, ?_, hu3⟩
            rw [hflat, ← List.append_assoc]
            exact hu2
          · intro v hv
            rw [← hqe] at hv
            rw [hflat]
            exact List.mem_append.mpr (Or.inl hv)

theorem processWave_total (adj : JMap (List String)) :
    ∀ (queue : List String) (d : JMap Int) (nq0 : List String),
    (∀ u ∈ queue, u ∈ keysOf adj) →
    ∃ out, queue.foldlM (processId adj) (d, nq0) = Except.ok out := by
  intro queue
  induction queue with
  | nil =>
    intro d nq0 _
    exact ⟨(d, nq0), rfl⟩
  | cons u queue' ih =>
    intro d nq0 hq
    obtain ⟨nbrs, hadj⟩ := aget_isSome_of_mem_keys (hq u (List.mem_cons_self _ _))
    obtain ⟨out, hout⟩ := ih (nbrs.foldl decStep (d, nq0)).1
      (nbrs.foldl decStep (d, nq0)).2 (fun x hx => hq x (List.mem_cons_of_mem _ hx))
    refine ⟨out, ?_⟩
    rw [foldlM_exc_cons]
    rw [show processId adj (d, nq0) u = Except.ok (nbrs.foldl decStep (d, nq0)) by
      simp [processId, hadj], exc_bind_ok]
    simpa using hout

theorem kahnLoop_total (adj : JMap (List String)) :
    ∀ (fuel : Nat) (deg : JMap Int) (queue emitted : List String),
    KahnInv adj deg emitted queue →
    (∀ x ∈ keysOf deg, x ∈ keysOf adj) →
    degSum deg + queue.length < fuel →
    ∃ waves, kahnLoop adj fuel deg queue = Except.ok waves := by
  intro fuel
  induction fuel with
  | zero =>
    intro deg queue emitted inv hkd hfuel
    omega
  | succ fuel ih =>
    intro deg queue emitted inv hkd hfuel
    cases hqe : queue with
    | nil =>
      subst hqe
      exact ⟨[], by simp [kahnLoop]⟩
    | cons u0 rest0 =>
      have hne : queue.isEmpty = false := by rw [hqe]; rfl
      have hlen : 1 ≤ queue.length := by rw [hqe]; simp
      obtain ⟨⟨deg1, nq⟩, hpw⟩ := processWave_total adj queue deg []
        (fun u hu => hkd u (inv.qSub u hu))
      obtain ⟨inv1, hqsub, hkeys1, hphi, hord⟩ :=
        kahnStep_inv adj deg emitted queue deg1 nq inv hpw
      obtain ⟨waves, hkl⟩ := ih deg1 nq (emitted ++ queue) inv1
        (fun x hx => hkd x (hkeys1 ▸ hx)) (by omega)
      refine ⟨queue :: waves, ?_⟩
      rw [← hqe]
      simp only [kahnLoop, hne, Bool.false_eq_true, if_false]
      rw [show (processWave adj deg queue : Except String (JMap Int × List String))
        = Except.ok (deg1, nq) from hpw]
      show (match kahnLoop adj fuel deg1 nq with
          | Except.error e => Except.error e
          | Except.ok ws => Except.ok (queue :: ws)) = Except.ok (queue :: waves)
      rw [hkl]

theorem kahnInv_init (ids : List String) (edges : List WorkflowEdge)
    (adj : JMap (List String)) (deg : JMap Int)
    (hB : BuildInv ids edges adj deg) (hndIds : ids.Nodup) :
    KahnInv adj deg [] ((deg.filter (fun p => p.2 = 0)).map Prod.fst) := by
  have hndAdj : (keysOf adj).Nodup := by rw [hB.adjKeys]; exact hndIds
  refine ⟨hndAdj, hB.degKeysNd, List.nodup_nil, ?_, ?_, ?_, ?_, ?_, hB.adjVals,
    ?_, ?_, ?_, ?_⟩
  · exact hB.degKeysNd.sublist ((List.filter_sublist deg).map Prod.fst)
  · intro x _ hx
    exact absurd hx (List.not_mem_nil x)
  · intro x hx
    exact absurd hx (List.not_mem_nil x)
  · intro x hx
    obtain ⟨p, hpf, hpx⟩ := List.mem_map.mp hx
    exact hpx ▸ List.mem_map.mpr ⟨p, (List.mem_filter.mp hpf).1, rfl⟩
  · intro x hx
    rw [hB.adjKeys] at hx
    exact hB.degKeysSup x hx
  · intro v hv
    rw [remSum_nil]
    have := hB.acc v hv
    omega
  · intro v hv
    exact absurd hv (List.not_mem_nil v)
  · intro v hv
    obtain ⟨p, hpf, hpv⟩ := List.mem_map.mp hv
    obtain ⟨hpd, hp0⟩ := List.mem_filter.mp hpf
    simp only [decide_eq_true_eq] at hp0
    have hget : aget deg p.1 = some p.2 := aget_of_mem_nodup hB.degKeysNd hpd
    rw [← hpv, hget, hp0]
    rfl
  · intro v hv hvem hvq
    obtain ⟨c, hc⟩ := aget_isSome_of_mem_keys hv
    have hacc := hB.acc v hv
    rw [hc] at hacc ⊢
    simp only [Option.getD_some] at hacc ⊢
    by_cases hc0 : c = 0
    · exfalso
      apply hvq
      refine List.mem_map.mpr ⟨(v, c), List.mem_filter.mpr ⟨aget_mem hc, ?_⟩, rfl⟩
      simp [hc0]
    · omega

theorem degSum_eq_zero_of (m : JMap Int) (h : ∀ p ∈ m, p.2 = 0) : degSum m = 0 := by
  unfold degSum
  apply List.sum_eq_zero
  intro x hx
  obtain ⟨p, hp, hpx⟩ := List.mem_map.mp hx
  rw [← hpx, h p hp]
  rfl

theorem aset_length_le {α : Type} (m : JMap α) (k : String) (v : α) :
    (aset m k v).length ≤ m.length + 1 := by
  induction m with
  | nil => simp [aset]
  | cons p rest ih =>
    by_cases hp : p.1 = k
    · simp [aset, hp]
    · simp only [aset, if_neg hp, List.length_cons]
      omega

theorem buildFold_size (edges : List WorkflowEdge) :
    ∀ (adj : JMap (List String)) (deg : JMap Int)
      (out : JMap (List String) × JMap Int),
    edges.foldlM addEdge (adj, deg) = Except.ok out →
    degSum out.2 ≤ degSum deg + edges.length ∧
    out.2.length ≤ deg.length + edges.length := by
  induction edges with
  | nil =>
    intro adj deg out h
    have hout : out = (adj, deg) := by cases h; rfl
    subst hout
    simp
  | cons e es ih =>
    intro adj deg out h
    rw [foldlM_exc_cons] at h
    cases hfrom : aget adj e.fromId with
    | none =>
      rw [show addEdge (adj, deg) e = Except.error pushTypeErrorMsg by
        simp [addEdge, hfrom], exc_bind_err] at h
      cases h
    | some lst =>
      rw [show addEdge (adj, deg) e
          = Except.ok (aset adj e.fromId (lst ++ [e.toId]),
              aset deg e.toId ((aget deg e.toId).getD 0 + 1)) by
        simp [addEdge, hfrom], exc_bind_ok] at h
      obtain ⟨ih1, ih2⟩ := ih _ _ out h
      have hds := degSum_aset deg e.toId ((aget deg e.toId).getD 0 + 1)
      have hlen := aset_length_le deg e.toId ((aget deg e.toId).getD 0 + 1)
      constructor
      · simp only [List.length_cons]
        omega
      · simp only [List.length_cons]
        omega

theorem nodeIds_foldl_length (ns : List WorkflowNode) :
    ∀ acc : List String,
    (ns.foldl (fun acc n => if n.id ∈ acc then acc else acc ++ [n.id]) acc).length
      ≤ acc.length + ns.length := by
  induction ns with
  | nil => intro acc; simp
  | cons n ns' ih =>
    intro acc
    simp only [List.foldl_cons, List.length_cons]
    by_cases hn : n.id ∈ acc
    · rw [if_pos hn]
      have := ih acc
      omega
    · rw [if_neg hn]
      have := ih (acc ++ [n.id])
      simp only [List.length_append, List.length_singleton] at this
      omega

theorem nodeIdsOf_length (wf : Workflow) :
    (nodeIdsOf wf).length ≤ wf.nodes.length := by
  have := nodeIds_foldl_length wf.nodes []
  simpa [nodeIdsOf] using this

theorem buildFold_total {ids : List String} (edges : List WorkflowEdge) :
    ∀ (done : List WorkflowEdge) (adj : JMap (List String)) (deg : JMap Int),
    BuildInv ids done adj deg →
    (∀ e ∈ edges, e.fromId ∈ ids) →
    ∃ out, edges.foldlM addEdge (adj, deg) = Except.ok out := by
  induction edges with
  | nil =>
    intro done adj deg inv hdecl
    exact ⟨(adj, deg), rfl⟩
  | cons e es ih =>
    intro done adj deg inv hdecl
    have hfromK : e.fromId ∈ keysOf adj := by
      rw [inv.adjKeys]
      exact hdecl e (List.mem_cons_self _ _)
    obtain ⟨lst, hfrom⟩ := aget_isSome_of_mem_keys hfromK
    have hstep : addEdge (adj, deg) e
        = Except.ok (aset adj e.fromId (lst ++ [e.toId]),
            aset deg e.toId ((aget deg e.toId).getD 0 + 1)) := by
      simp [addEdge, hfrom]
    obtain ⟨inv1, _⟩ := addEdge_inv inv hstep
    obtain ⟨out, hout⟩ := ih (done ++ [e]) _ _ inv1
      (fun x hx => hdecl x (List.mem_cons_of_mem _ hx))
    refine ⟨out, ?_⟩
    rw [foldlM_exc_cons, hstep, exc_bind_ok]
    exact hout

theorem buildGraph_total (wf : Workflow)
    (h : ∀ e ∈ wf.edges, e.fromId ∈ nodeIdsOf wf) :
    ∃ adj deg, buildGraph wf = Except.ok (adj, deg) := by
  unfold buildGraph
  obtain ⟨⟨adj, deg⟩, hout⟩ := buildFold_total wf.edges [] _ _ (buildInv_init wf) h
  exact ⟨adj, deg, hout⟩

theorem buildGraph_size (wf : Workflow) (adj : JMap (List String)) (deg : JMap Int)
    (h : buildGraph wf = Except.ok (adj, deg)) :
    degSum deg ≤ wf.edges.length ∧
    deg.length ≤ (nodeIdsOf wf).length + wf.edges.length := by
  unfold buildGraph at h
  obtain ⟨h1, h2⟩ := buildFold_size wf.edges _ _ (adj, deg) h
  have h1b : degSum deg
      ≤ degSum ((nodeIdsOf wf).foldl (fun m id => aset m id (0 : Int)) [])
        + wf.edges.length := h1
  have h2b : deg.length
      ≤ ((nodeIdsOf wf).foldl (fun m id => aset m id (0 : Int)) []).length
        + wf.edges.length := h2
  have hz : degSum ((nodeIdsOf wf).foldl (fun m id => aset m id (0 : Int)) []) = 0 :=
    degSum_eq_zero_of _ (initFold_entries 0 (nodeIdsOf wf) []
      (fun p hp => absurd hp (List.not_mem_nil p)))
  have hk : keysOf ((nodeIdsOf wf).foldl (fun m id => aset m id (0 : Int)) [])
      = keysOf ([] : JMap Int) ++ nodeIdsOf wf :=
    initFold_keys 0 (nodeIdsOf wf) [] (fun i _ hi => absurd hi (List.not_mem_nil i))
      (nodeIdsOf_nodup wf)
  have hlen : ((nodeIdsOf wf).foldl (fun m id => aset m id (0 : Int)) []).length
      = (nodeIdsOf wf).length := by
    have := congrArg List.length hk
    simpa [keysOf] using this
  constructor
  · omega
  · omega

theorem cycle_of_unemitted (adj : JMap (List String)) (deg : JMap Int) (em : List String)
    (hsub : ∀ x ∈ keysOf adj, x ∈ keysOf deg)
    (F4 : ∀ v ∈ keysOf deg, v ∉ em →
      ∃ u, u ∈ keysOf adj ∧ u ∉ em ∧ v ∈ adjList adj u)
    (v0 : String) (hv0 : v0 ∈ keysOf deg) (hv0e : v0 ∉ em) :
    ∃ w, Relation.TransGen (fun a b => b ∈ adjList adj a) w w := by
  classical
  have hstep : ∀ x, x ∈ keysOf deg ∧ x ∉ em →
      ∃ u, (u ∈ keysOf deg ∧ u ∉ em) ∧ x ∈ adjList adj u := by
    intro x hx
    obtain ⟨u, hu1, hu2, hu3⟩ := F4 x hx.1 hx.2
    exact ⟨u, ⟨hsub u hu1, hu2⟩, hu3⟩
  let next : {x // x ∈ keysOf deg ∧ x ∉ em} → {x // x ∈ keysOf deg ∧ x ∉ em} :=
    fun p => ⟨Classical.choose (hstep p.1 p.2), (Classical.choose_spec (hstep p.1 p.2)).1⟩
  have hnext : ∀ p : {x // x ∈ keysOf deg ∧ x ∉ em}, p.1 ∈ adjList adj (next p).1 :=
    fun p => (Classical.choose_spec (hstep p.1 p.2)).2
  let seq : Nat → {x // x ∈ keysOf deg ∧ x ∉ em} :=
    fun n => Nat.rec ⟨v0, hv0, hv0e⟩ (fun _ p => next p) n
  have hseq : ∀ n, (seq n).1 ∈ adjList adj (seq (n + 1)).1 := fun n => hnext (seq n)
  have hreach : ∀ j i, i < j →
      Relation.TransGen (fun a b => b ∈ adjList adj a) (seq j).1 (seq i).1 := by
    intro j
    induction j with
    | zero => intro i hi; omega
    | succ j ihj =>
      intro i hi
      rcases Nat.lt_succ_iff_lt_or_eq.mp hi with h1 | h1
      · exact Relation.TransGen.head (hseq j) (ihj i h1)
      · subst h1
        exact Relation.TransGen.single (hseq i)
  have hcard : Fintype.card {x // x ∈ (keysOf deg).toFinset}
      < Fintype.card (Fin ((keysOf deg).length + 1)) := by
    rw [Fintype.card_coe, Fintype.card_fin]
    exact Nat.lt_succ_of_le (List.toFinset_card_le _)
  obtain ⟨a, b, hab, heq⟩ := Fintype.exists_ne_map_eq_of_card_lt
    (fun k : Fin ((keysOf deg).length + 1) =>
      (⟨(seq k.1).1, List.mem_toFinset.mpr (seq k.1).2.1⟩ :
        {x // x ∈ (keysOf deg).toFinset})) hcard
  have hvals0 := Subtype.ext_iff.mp heq
  have hvals : (seq a.1).1 = (seq b.1).1 := hvals0
  have hne : a.1 ≠ b.1 := fun hh => hab (Fin.ext hh)
  rcases Nat.lt_or_ge a.1 b.1 with hlt | hge
  · have h := hreach b.1 a.1 hlt
    rw [hvals] at h
    exact ⟨_, h⟩
  · have hlt2 : b.1 < a.1 := Nat.lt_of_le_of_ne hge hne.symm
    have h := hreach a.1 b.1 hlt2
    rw [← hvals] at h
    exact ⟨_, h⟩

theorem wavesOrdered_findIdx (adj : JMap (List String)) :
    ∀ (waves : List (List String)) (emitted : List String),
    WavesOrdered adj emitted waves →
    ∀ u v : String, u ∈ keysOf adj → v ∈ adjList adj u →
    u ∉ emitted → u ∈ waves.flatten → v ∈ waves.flatten →
    waveIdx waves u < waveIdx waves v := by
  intro waves
  induction waves with
  | nil =>
    intro emitted _ u v _ _ _ huf _
    simp at huf
  | cons w ws ih =>
    intro emitted hord u v hu hv hunem huf hvf
    obtain ⟨hhead, hrest⟩ := hord
    have hvw : v ∉ w := fun hvw => hunem (hhead v hvw u hu hv)
    have hvfx : v ∈ ws.flatten := by
      rw [List.flatten_cons] at hvf
      rcases List.mem_append.mp hvf with h1 | h1
      · exact absurd h1 hvw
      · exact h1
    unfold waveIdx
    rw [List.findIdx_cons, List.findIdx_cons]
    by_cases huw : u ∈ w
    · simp [huw, hvw]
    · have hufx : u ∈ ws.flatten := by
        rw [List.flatten_cons] at huf
        rcases List.mem_append.mp huf with h1 | h1
        · exact absurd h1 huw
        · exact h1
      have hunem2 : u ∉ emitted ++ w := by
        intro hh
        rcases List.mem_append.mp hh with h1 | h1
        · exact hunem h1
        · exact huw h1
      have hih := ih (emitted ++ w) hrest u v hu hv hunem2 hufx hvfx
      unfold waveIdx at hih
      simp only [huw, hvw, decide_False, cond_false]
      omega

theorem topo_ok_facts (wf : Workflow) (waves : List (List String))
    (h : topologicalSort wf = Except.ok waves) :
    waves.flatten.Nodup ∧
    (∀ v ∈ waves.flatten, v ∈ nodeIdsOf wf) ∧
    (∀ v ∈ nodeIdsOf wf, v ∈ waves.flatten) ∧
    EdgesDeclared wf ∧
    (∀ u v, hasEdge wf u v → waveIdx waves u < waveIdx waves v) := by
  unfold topologicalSort at h
  cases hbg : buildGraph wf with
  | error e => rw [hbg] at h; cases h
  | ok pr =>
    obtain ⟨adj, deg⟩ := pr
    rw [hbg] at h
    have h2 : (match kahnLoop adj (kahnFuel wf) deg
        ((deg.filter (fun p => p.2 = 0)).map Prod.fst) with
      | Except.error e => Except.error e
      | Except.ok waves0 =>
        if (waves0.map List.length).sum = (nodeIdsOf wf).length then Except.ok waves0
        else Except.error cycleErrorMsg) = Except.ok waves := h
    cases hkl : kahnLoop adj (kahnFuel wf) deg
        ((deg.filter (fun p => p.2 = 0)).map Prod.fst) with
    | error e => rw [hkl] at h2; cases h2
    | ok waves0 =>
      rw [hkl] at h2
      have h3 : (if (waves0.map List.length).sum = (nodeIdsOf wf).length
          then Except.ok waves0
          else (Except.error cycleErrorMsg : Except String (List (List String))))
          = Except.ok waves := h2
      by_cases hsum : (waves0.map List.length).sum = (nodeIdsOf wf).length
      · rw [if_pos hsum] at h3
        have hw : waves0 = waves := by cases h3; rfl
        subst hw
        obtain ⟨hB, hfr⟩ := buildGraph_inv wf adj deg hbg
        have hinv := kahnInv_init (nodeIdsOf wf) wf.edges adj deg hB (nodeIdsOf_nodup wf)
        obtain ⟨hnd, hwk, hord, hF4, hq0⟩ :=
          kahnLoop_ok_facts adj (kahnFuel wf) deg
            ((deg.filter (fun p => p.2 = 0)).map Prod.fst) [] waves0 hkl hinv
        have hfl : waves0.flatten.Nodup := by simpa using hnd
        have hflsub : ∀ v ∈ waves0.flatten, v ∈ nodeIdsOf wf := by
          intro v hv
          obtain ⟨w, hw2, hvw⟩ := List.mem_flatten.mp hv
          have := hwk w hw2 v hvw
          rwa [hB.adjKeys] at this
        have hlen : waves0.flatten.length = (nodeIdsOf wf).length := by
          rw [List.length_flatten]
          exact hsum
        obtain ⟨l2, hperm, hsubl⟩ := hfl.subperm hflsub
        have hl2len : l2.length = (nodeIdsOf wf).length := by
          rw [hperm.length_eq, hlen]
        have hl2 : l2 = nodeIdsOf wf := hsubl.eq_of_length hl2len
        rw [hl2] at hperm
        have hids : ∀ v ∈ nodeIdsOf wf, v ∈ waves0.flatten := by
          intro v hv
          exact hperm.mem_iff.mp hv
        have hdecl : EdgesDeclared wf := by
          intro e he
          refine ⟨hfr e he, ?_⟩
          have hvadj : e.toId ∈ adjList adj e.fromId :=
            (hB.memEdge e.fromId e.toId).mpr ⟨e, he, rfl, rfl⟩
          have hfromK : e.fromId ∈ keysOf adj := by
            rw [hB.adjKeys]
            exact hfr e he
          obtain ⟨lst, hlst⟩ := aget_isSome_of_mem_keys hfromK
          have hvl : e.toId ∈ lst := by
            rw [adjList, hlst] at hvadj
            exact hvadj
          have hkdeg : e.toId ∈ keysOf deg :=
            hB.adjVals (e.fromId, lst) (aget_mem hlst) e.toId hvl
          by_cases hfl2 : e.toId ∈ waves0.flatten
          · exact hflsub _ hfl2
          · exfalso
            obtain ⟨u, hu1, hu2, _⟩ := hF4 e.toId hkdeg (by simpa using hfl2)
            apply hu2
            simp only [List.nil_append]
            exact hids u (by rw [← hB.adjKeys]; exact hu1)
        refine ⟨hfl, hflsub, hids, hdecl, ?_⟩
        rintro u v ⟨e, he, hefrom, heto⟩
        have hd := hdecl e he
        have hu : u ∈ keysOf adj := by
          rw [hB.adjKeys, ← hefrom]
          exact hd.1
        have hvadj : v ∈ adjList adj u := (hB.memEdge u v).mpr ⟨e, he, hefrom, heto⟩
        exact wavesOrdered_findIdx adj waves0 [] hord u v hu hvadj
          (List.not_mem_nil u) (hids u (hefrom ▸ hd.1)) (hids v (heto ▸ hd.2))
      · rw [if_neg hsum] at h3
        cases h3

theorem topo_run (wf : Workflow) (hdecl : EdgesDeclared wf) :
    (∃ waves, topologicalSort wf = Except.ok waves) ∨
    topologicalSort wf = Except.error cycleErrorMsg := by
  obtain ⟨adj, deg, hbg⟩ := buildGraph_total wf (fun e he => (hdecl e he).1)
  obtain ⟨hB, hfr⟩ := buildGraph_inv wf adj deg hbg
  have hinv := kahnInv_init (nodeIdsOf wf) wf.edges adj deg hB (nodeIdsOf_nodup wf)
  have hkd : ∀ x ∈ keysOf deg, x ∈ keysOf adj := by
    intro x hx
    rcases hB.degKeysChar x hx with h1 | ⟨e, he, hex⟩
    · rw [hB.adjKeys]
      exact h1
    · rw [hB.adjKeys]
      exact hex ▸ (hdecl e he).2
  obtain ⟨hds, hdl⟩ := buildGraph_size wf adj deg hbg
  have hql : ((deg.filter (fun p => p.2 = 0)).map Prod.fst).length ≤ deg.length := by
    rw [List.length_map]
    exact List.length_filter_le _ _
  have hfuel : degSum deg
      + ((deg.filter (fun p => p.2 = 0)).map Prod.fst).length < kahnFuel wf := by
    unfold kahnFuel
    have := nodeIdsOf_length wf
    omega
  obtain ⟨waves0, hkl⟩ := kahnLoop_total adj (kahnFuel wf) deg _ [] hinv hkd hfuel
  have hrun : topologicalSort wf
      = (if (waves0.map List.length).sum = (nodeIdsOf wf).length
          then Except.ok waves0
          else (Except.error cycleErrorMsg : Except String (List (List String)))) := by
    unfold topologicalSort
    rw [hbg]
    show (match kahnLoop adj (kahnFuel wf) deg
        ((deg.filter (fun p => p.2 = 0)).map Prod.fst) with
      | Except.error e => Except.error e
      | Except.ok ws =>
        if (ws.map List.length).sum = (nodeIdsOf wf).length then Except.ok ws
        else Except.error cycleErrorMsg) = _
    rw [hkl]
  by_cases hsum : (waves0.map List.length).sum = (nodeIdsOf wf).length
  · rw [if_pos hsum] at hrun
    exact Or.inl ⟨waves0, hrun⟩
  · rw [if_neg hsum] at hrun
    exact Or.inr hrun

theorem topo_cycle_error (wf : Workflow) (hdecl : EdgesDeclared wf)
    (hcyc : HasCycle wf) :
    topologicalSort wf = Except.error cycleErrorMsg := by
  rcases topo_run wf hdecl with ⟨waves, hok⟩ | herr
  · exfalso
    obtain ⟨hfl, hflsub, hids, _, hord⟩ := topo_ok_facts wf waves hok
    obtain ⟨v, hv⟩ := hcyc
    have hmono : ∀ a b, Reach wf a b → waveIdx waves a < waveIdx waves b := by
      intro a b hr
      induction hr with
      | single h1 => exact hord _ _ h1
      | tail _ h2 ih => exact lt_trans ih (hord _ _ h2)
    exact lt_irrefl _ (hmono v v hv)
  · exact herr

theorem topo_ok_of_acyclic (wf : Workflow) (hdecl : EdgesDeclared wf)
    (hacyc : IsAcyclic wf) :
    ∃ waves, topologicalSort wf = Except.ok waves := by
  obtain ⟨adj, deg, hbg⟩ := buildGraph_total wf (fun e he => (hdecl e he).1)
  obtain ⟨hB, hfr⟩ := buildGraph_inv wf adj deg hbg
  have hinv := kahnInv_init (nodeIdsOf wf) wf.edges adj deg hB (nodeIdsOf_nodup wf)
  have hkd : ∀ x ∈ keysOf deg, x ∈ keysOf adj := by
    intro x hx
    rcases hB.degKeysChar x hx with h1 | ⟨e, he, hex⟩
    · rw [hB.adjKeys]
      exact h1
    · rw [hB.adjKeys]
      exact hex ▸ (hdecl e he).2
  obtain ⟨hds, hdl⟩ := buildGraph_size wf adj deg hbg
  have hql : ((deg.filter (fun p => p.2 = 0)).map Prod.fst).length ≤ deg.length := by
    rw [List.length_map]
    exact List.length_filter_le _ _
  have hfuel : degSum deg
      + ((deg.filter (fun p => p.2 = 0)).map Prod.fst).length < kahnFuel wf := by
    unfold kahnFuel
    have := nodeIdsOf_length wf
    omega
  obtain ⟨waves0, hkl⟩ := kahnLoop_total adj (kahnFuel wf) deg _ [] hinv hkd hfuel
  obtain ⟨hnd, hwk, hord, hF4, hq0⟩ :=
    kahnLoop_ok_facts adj (kahnFuel wf) deg
      ((deg.filter (fun p => p.2 = 0)).map Prod.fst) [] waves0 hkl hinv
  have hcomplete : ∀ v ∈ keysOf deg, v ∈ waves0.flatten := by
    intro v hv
    by_contra hvn
    have hF4b : ∀ w ∈ keysOf deg, w ∉ waves0.flatten →
        ∃ u, u ∈ keysOf adj ∧ u ∉ waves0.flatten ∧ w ∈ adjList adj u := by
      intro w hw hwn
      obtain ⟨u, h1, h2, h3⟩ := hF4 w hw (by simpa using hwn)
      exact ⟨u, h1, by simpa using h2, h3⟩
    obtain ⟨c, hc⟩ := cycle_of_unemitted adj deg waves0.flatten hinv.adjKeysSub
      hF4b v hv hvn
    apply hacyc
    refine ⟨c, Relation.TransGen.mono ?_ hc⟩
    intro a b hab
    exact (hB.memEdge a b).mp hab
  have hflsub : ∀ v ∈ waves0.flatten, v ∈ nodeIdsOf wf := by
    intro v hv
    obtain ⟨w, hw2, hvw⟩ := List.mem_flatten.mp hv
    have := hwk w hw2 v hvw
    rwa [hB.adjKeys] at this
  have hidssub : ∀ v ∈ nodeIdsOf wf, v ∈ waves0.flatten := fun v hv =>
    hcomplete v (hB.degKeysSup v hv)
  have hfl : waves0.flatten.Nodup := by simpa using hnd
  have hlen1 : waves0.flatten.length ≤ (nodeIdsOf wf).length :=
    (hfl.subperm hflsub).length_le
  have hlen2 : (nodeIdsOf wf).length ≤ waves0.flatten.length :=
    ((nodeIdsOf_nodup wf).subperm hidssub).length_le
  have hsum : (waves0.map List.length).sum = (nodeIdsOf wf).length := by
    rw [← List.length_flatten]
    omega
  refine ⟨waves0, ?_⟩
  unfold topologicalSort
  rw [hbg]
  show (match kahnLoop adj (kahnFuel wf) deg
      ((deg.filter (fun p => p.2 = 0)).map Prod.fst) with
    | Except.error e => Except.error e
    | Except.ok ws =>
      if (ws.map List.length).sum = (nodeIdsOf wf).length then Except.ok ws
      else Except.error cycleErrorMsg) = Except.ok waves0
  rw [hkl]
  show (if (waves0.map List.length).sum = (nodeIdsOf wf).length
      then Except.ok waves0
      else (Except.error cycleErrorMsg : Except String (List (List String))))
      = Except.ok waves0
  rw [if_pos hsum]

theorem acyclic_of_rank (wf : Workflow) (f : String → Nat)
    (h : ∀ u v, hasEdge wf u v → f u < f v) : IsAcyclic wf := by
  rintro ⟨v, hv⟩
  have hmono : ∀ a b, Reach wf a b → f a < f b := by
    intro a b hr
    induction hr with
    | single h1 => exact h _ _ h1
    | tail _ h2 ih => exact lt_trans ih (h _ _ h2)
  exact lt_irrefl _ (hmono v v hv)

/-- C2: for a workflow whose edges reference only declared node ids and
whose edge graph is acyclic, topologicalSort succeeds, its waves contain
exactly the declared node ids (each exactly once), and for every edge
(u, v) the wave of u strictly precedes the wave of v. -/
theorem C2_topologicalSort_waves (wf : Workflow) (hdecl : EdgesDeclared wf)
    (hacyc : IsAcyclic wf) :
    ∃ waves, topologicalSort wf = Except.ok waves ∧
      (∀ v, v ∈ waves.flatten ↔ v ∈ nodeIdsOf wf) ∧
      waves.flatten.Nodup ∧
      (∀ u v, hasEdge wf u v → waveIdx waves u < waveIdx waves v) := by
  obtain ⟨waves, hok⟩ := topo_ok_of_acyclic wf hdecl hacyc
  obtain ⟨hfl, hflsub, hids, _, hord⟩ := topo_ok_facts wf waves hok
  exact ⟨waves, hok, fun v => ⟨hflsub v, hids v⟩, hfl, hord⟩

theorem C2_topologicalSort_waves_witness :
    ∃ waves, topologicalSort wfC2 = Except.ok waves ∧
      (∀ v, v ∈ waves.flatten ↔ v ∈ nodeIdsOf wfC2) ∧
      waves.flatten.Nodup ∧
      (∀ u v, hasEdge wfC2 u v → waveIdx waves u < waveIdx waves v) :=
  C2_topologicalSort_waves wfC2 (by unfold EdgesDeclared; decide)
    (acyclic_of_rank wfC2 (fun s => if s = "a" then 0 else if s = "b" then 1 else 2)
      (by
        rintro u v ⟨e, he, h1, h2⟩
        subst h1
        subst h2
        simp only [wfC2, List.mem_cons, List.not_mem_nil, or_false] at he
        rcases he with he | he <;> subst he <;> decide))

/-- C6 counterexample: wfC6 declares only node a and has the single edge
x -> a from the undeclared source x; the edges among declared nodes are
empty (trivially acyclic), yet topologicalSort does not return normally:
it throws the TypeError from adjacency.get(edge.from).push. -/
theorem C6_counterexample :
    (∃ e ∈ wfC6.edges, e.fromId ∉ nodeIdsOf wfC6) ∧
    topologicalSort wfC6 = Except.error pushTypeErrorMsg := by
  constructor
  · exact ⟨⟨"x", "a", none⟩, List.mem_singleton.mpr rfl, by decide⟩
  · rfl

/-- C6 (amended): unknown endpoints are not tolerated.  An edge whose
source is undeclared makes topologicalSort throw the push TypeError, and
whenever topologicalSort returns normally every edge endpoint is a
declared node id. -/
theorem C6_unknown_endpoints (wf : Workflow) :
    ((∃ e ∈ wf.edges, e.fromId ∉ nodeIdsOf wf) →
      topologicalSort wf = Except.error pushTypeErrorMsg) ∧
    (∀ waves, topologicalSort wf = Except.ok waves → EdgesDeclared wf) := by
  constructor
  · intro h
    unfold topologicalSort
    rw [buildGraph_error_of_unknown_from wf h]
  · intro waves h
    exact (topo_ok_facts wf waves h).2.2.2.1

theorem C6_unknown_endpoints_witness :
    topologicalSort wfC6 = Except.error pushTypeErrorMsg :=
  (C6_unknown_endpoints wfC6).1 ⟨⟨"x", "a", none⟩, List.mem_singleton.mpr rfl, by decide⟩

/-- C7 counterexample: wfC7x has a cycle among its declared nodes
(a -> b -> a) but also an edge from the undeclared source x, so
executeWorkflow fails with the push TypeError, not the cycle error. -/
theorem C7_counterexample :
    HasCycle wfC7x ∧
    pushTypeErrorMsg ≠ cycleErrorMsg ∧
    (∀ (runNode : String → Except String NodeResult) (initialVars : Vars)
      (stopOnError : Option Bool) (aborted : Bool),
      executeWorkflow wfC7x runNode initialVars stopOnError aborted
        = Except.error pushTypeErrorMsg) := by
  refine ⟨?_, by decide, ?_⟩
  · have h1 : hasEdge wfC7x "a" "b" :=
      ⟨⟨"a", "b", none⟩, List.mem_cons_self _ _, rfl, rfl⟩
    have h2 : hasEdge wfC7x "b" "a" :=
      ⟨⟨"b", "a", none⟩, List.mem_cons_of_mem _ (List.mem_cons_self _ _), rfl, rfl⟩
    exact ⟨"a", Relation.TransGen.tail (Relation.TransGen.single h1) h2⟩
  · intro runNode initialVars stopOnError aborted
    unfold executeWorkflow
    rw [show topologicalSort wfC7x = Except.error pushTypeErrorMsg from rfl]

/-- C7 (amended): when every edge endpoint is declared and the edge set
has a cycle, the planner throws the cycle error and executeWorkflow
propagates it before any per-node work: no executor is invoked and no
status/result maps are produced (the run yields Except.error). -/
theorem C7_cycle_rejection (wf : Workflow) (hdecl : EdgesDeclared wf)
    (hcyc : HasCycle wf) (runNode : String → Except String NodeResult)
    (initialVars : Vars) (stopOnError : Option Bool) (aborted : Bool) :
    executeWorkflow wf runNode initialVars stopOnError aborted
      = Except.error cycleErrorMsg ∧
    topologicalSort wf = Except.error cycleErrorMsg := by
  have htopo := topo_cycle_error wf hdecl hcyc
  refine ⟨?_, htopo⟩
  unfold executeWorkflow
  rw [htopo]

theorem C7_cycle_rejection_witness :
    executeWorkflow wfC7 (fun _ => Except.ok ⟨true, none, none, none⟩) [] none false
      = Except.error cycleErrorMsg ∧
    topologicalSort wfC7 = Except.error cycleErrorMsg :=
  C7_cycle_rejection wfC7 (by unfold EdgesDeclared; decide)
    (by
      have h1 : hasEdge wfC7 "a" "b" :=
        ⟨⟨"a", "b", none⟩, List.mem_cons_self _ _, rfl, rfl⟩
      have h2 : hasEdge wfC7 "b" "a" :=
        ⟨⟨"b", "a", none⟩, List.mem_cons_of_mem _ (List.mem_cons_self _ _), rfl, rfl⟩
      exact ⟨"a", Relation.TransGen.tail (Relation.TransGen.single h1) h2⟩)
    (fun _ => Except.ok ⟨true, none, none, none⟩) [] none false

theorem buildDownstream_mem (edges : List WorkflowEdge) :
    ∀ (m : JMap (List String)) (a b : String),
    (b ∈ (aget (edges.foldl
        (fun m e => aset m e.fromId ((aget m e.fromId).getD [] ++ [e.toId])) m) a).getD [])
    ↔ b ∈ (aget m a).getD [] ∨ ∃ e ∈ edges, e.fromId = a ∧ e.toId = b := by
  induction edges with
  | nil => intro m a b; simp
  | cons e es ih =>
    intro m a b
    simp only [List.foldl_cons]
    rw [ih]
    by_cases hae : a = e.fromId
    · subst hae
      rw [aget_aset_self]
      simp only [Option.getD_some, List.mem_append, List.mem_singleton]
      constructor
      · rintro ((h1 | h1) | h1)
        · exact Or.inl h1
        · exact Or.inr ⟨e, List.mem_cons_self _ _, rfl, h1.symm⟩
        · obtain ⟨e2, he2, h2, h3⟩ := h1
          exact Or.inr ⟨e2, List.mem_cons_of_mem _ he2, h2, h3⟩
      · rintro (h1 | ⟨e2, he2, h2, h3⟩)
        · exact Or.inl (Or.inl h1)
        · rcases List.mem_cons.mp he2 with h4 | h4
          · subst h4
            exact Or.inl (Or.inr h3.symm)
          · exact Or.inr ⟨e2, h4, h2, h3⟩
    · rw [aget_aset_ne _ _ _ _ hae]
      constructor
      · rintro (h1 | ⟨e2, he2, h2, h3⟩)
        · exact Or.inl h1
        · exact Or.inr ⟨e2, List.mem_cons_of_mem _ he2, h2, h3⟩
      · rintro (h1 | ⟨e2, he2, h2, h3⟩)
        · exact Or.inl h1
        · rcases List.mem_cons.mp he2 with h4 | h4
          · subst h4
            exact absurd h2.symm hae
          · exact Or.inr ⟨e2, h4, h2, h3⟩

theorem dstep_iff_hasEdge (wf : Workflow) (a b : String) :
    dstep (buildDownstream wf.edges) a b ↔ hasEdge wf a b := by
  unfold dstep buildDownstream hasEdge
  rw [buildDownstream_mem]
  simp [aget]

theorem buildEdgesFrom_mem (edges : List WorkflowEdge) :
    ∀ (m : JMap (List WorkflowEdge)) (a : String) (e : WorkflowEdge),
    (e ∈ (aget (edges.foldl
        (fun m ed => aset m ed.fromId ((aget m ed.fromId).getD [] ++ [ed])) m) a).getD [])
    ↔ e ∈ (aget m a).getD [] ∨ (e ∈ edges ∧ e.fromId = a) := by
  induction edges with
  | nil => intro m a e; simp
  | cons e0 es ih =>
    intro m a e
    simp only [List.foldl_cons]
    rw [ih]
    by_cases hae : a = e0.fromId
    · subst hae
      rw [aget_aset_self]
      simp only [Option.getD_some, List.mem_append, List.mem_singleton]
      constructor
      · rintro ((h1 | h1) | h1)
        · exact Or.inl h1
        · subst h1
          exact Or.inr ⟨List.mem_cons_self _ _, rfl⟩
        · exact Or.inr ⟨List.mem_cons_of_mem _ h1.1, h1.2⟩
      · rintro (h1 | ⟨h2, h3⟩)
        · exact Or.inl (Or.inl h1)
        · rcases List.mem_cons.mp h2 with h4 | h4
          · subst h4
            exact Or.inl (Or.inr rfl)
          · exact Or.inr ⟨h4, h3⟩
    · rw [aget_aset_ne _ _ _ _ hae]
      constructor
      · rintro (h1 | ⟨h2, h3⟩)
        · exact Or.inl h1
        · exact Or.inr ⟨List.mem_cons_of_mem _ h2, h3⟩
      · rintro (h1 | ⟨h2, h3⟩)
        · exact Or.inl h1
        · rcases List.mem_cons.mp h2 with h4 | h4
          · subst h4
            exact absurd h3.symm hae
          · exact Or.inr ⟨h4, h3⟩

theorem buildNodeMap_isSome (nodes : List WorkflowNode) :
    ∀ (m : JMap WorkflowNode) (v : String),
    ((∃ n ∈ nodes, n.id = v) ∨ (aget m v).isSome) →
    (aget (nodes.foldl (fun m n => aset m n.id n) m) v).isSome := by
  induction nodes with
  | nil =>
    intro m v h
    rcases h with ⟨n, hn, _⟩ | h
    · exact absurd hn (List.not_mem_nil n)
    · exact h
  | cons n ns ih =>
    intro m v h
    simp only [List.foldl_cons]
    refine ih _ v ?_
    rcases h with ⟨n2, hn2, hid⟩ | h
    · rcases List.mem_cons.mp hn2 with h4 | h4
      · subst h4
        refine Or.inr ?_
        rw [← hid, aget_aset_self]
        rfl
      · exact Or.inl ⟨n2, h4, hid⟩
    · by_cases hv : v = n.id
      · refine Or.inr ?_
        rw [hv, aget_aset_self]
        rfl
      · refine Or.inr ?_
        rw [aget_aset_ne _ _ _ _ hv]
        exact h

theorem nodeMap_some_of_declared (wf : Workflow) (v : String)
    (h : v ∈ nodeIdsOf wf) : (aget (buildNodeMap wf.nodes) v).isSome := by
  obtain ⟨n, hn, hid⟩ := (mem_nodeIdsOf wf v).mp h
  exact buildNodeMap_isSome wf.nodes [] v (Or.inl ⟨n, hn, hid⟩)

theorem dTargets_aset_append (m : JMap (List String)) (k : String) (l : List String) :
    (dTargets (aset m k ((aget m k).getD [] ++ l))).length
      = (dTargets m).length + l.length := by
  induction m with
  | nil => simp [dTargets, aset, aget, List.find?]
  | cons p rest ih =>
    by_cases hp : p.1 = k
    · have hag : aget (p :: rest) k = some p.2 := by
        simp [aget, List.find?, hp]
      simp only [hag, Option.getD_some, aset, if_pos hp, dTargets, List.map_cons,
        List.flatten_cons, List.length_append]
      omega
    · have hag : aget (p :: rest) k = aget rest k := by
        simp [aget, List.find?, hp]
      simp only [hag, aset, if_neg hp, dTargets, List.map_cons, List.flatten_cons,
        List.length_append]
      have := ih
      simp only [dTargets] at this
      omega

theorem buildDownstream_targets_length (edges : List WorkflowEdge) :
    ∀ m, (dTargets (edges.foldl
        (fun m e => aset m e.fromId ((aget m e.fromId).getD [] ++ [e.toId])) m)).length
      = (dTargets m).length + edges.length := by
  induction edges with
  | nil => intro m; simp
  | cons e es ih =>
    intro m
    simp only [List.foldl_cons, List.length_cons]
    rw [ih, dTargets_aset_append]
    simp
    omega

theorem markMeasure_lt_fuel (wf : Workflow) (S : List String) :
    markMeasure (buildDownstream wf.edges) S < wf.edges.length + 1 := by
  have h1 : markMeasure (buildDownstream wf.edges) S
      ≤ (dTargets (buildDownstream wf.edges)).toFinset.card :=
    Finset.card_filter_le _ _
  have h2 : (dTargets (buildDownstream wf.edges)).toFinset.card
      ≤ (dTargets (buildDownstream wf.edges)).length :=
    List.toFinset_card_le _
  have h3 : (dTargets (buildDownstream wf.edges)).length = wf.edges.length := by
    have h4 := buildDownstream_targets_length wf.edges []
    unfold buildDownstream
    rw [h4]
    simp [dTargets]
  omega

theorem markMeasure_anti (dmap : JMap (List String)) (S S2 : List String)
    (h : ∀ x ∈ S, x ∈ S2) : markMeasure dmap S2 ≤ markMeasure dmap S := by
  apply Finset.card_le_card
  intro t ht
  simp only [Finset.mem_filter, decide_eq_true_eq] at ht ⊢
  exact ⟨ht.1, fun hS => ht.2 (h t hS)⟩

theorem markMeasure_insert_lt (dmap : JMap (List String)) (d : String) (S : List String)
    (hd : d ∈ dTargets dmap) (hdS : d ∉ S) :
    markMeasure dmap (d :: S) < markMeasure dmap S := by
  apply Finset.card_lt_card
  rw [Finset.ssubset_iff_of_subset]
  · refine ⟨d, ?_, ?_⟩
    · simp only [Finset.mem_filter, decide_eq_true_eq]
      exact ⟨List.mem_toFinset.mpr hd, hdS⟩
    · simp only [Finset.mem_filter, decide_eq_true_eq]
      push_neg
      intro _
      exact List.mem_cons_self _ _
  · intro t ht
    simp only [Finset.mem_filter, decide_eq_true_eq] at ht ⊢
    exact ⟨ht.1, fun hS => ht.2 (List.mem_cons_of_mem _ hS)⟩

theorem targets_sub_dTargets (dmap : JMap (List String)) (u : String) :
    ∀ v ∈ (aget dmap u).getD [], v ∈ dTargets dmap := by
  cases h : aget dmap u with
  | none => simp
  | some l =>
    intro v hv
    simp only [Option.getD_some] at hv
    unfold dTargets
    exact List.mem_flatten.mpr ⟨l, List.mem_map.mpr ⟨(u, l), aget_mem h, rfl⟩, hv⟩

theorem foldl_grow {g : List String → String → List String}
    (hg : ∀ s d, ∀ x ∈ s, x ∈ g s d) :
    ∀ (ds : List String) (s : List String), ∀ x ∈ s, x ∈ ds.foldl g s := by
  intro ds
  induction ds with
  | nil => intro s x hx; exact hx
  | cons d ds' ih =>
    intro s x hx
    simp only [List.foldl_cons]
    exact ih (g s d) x (hg s d x hx)

theorem markListF_mono (dmap : JMap (List String)) :
    ∀ (fuel : Nat) (ds S : List String), ∀ x ∈ S, x ∈ markListF dmap fuel ds S := by
  intro fuel
  induction fuel with
  | zero =>
    intro ds S x hx
    refine foldl_grow ?_ ds S x hx
    intro s d y hy
    by_cases hd : d ∈ s
    · simpa [hd] using hy
    · simp only [if_neg hd]
      exact List.mem_cons_of_mem _ hy
  | succ g ihg =>
    intro ds S x hx
    refine foldl_grow ?_ ds S x hx
    intro s d y hy
    by_cases hd : d ∈ s
    · simpa [hd] using hy
    · simp only [if_neg hd]
      exact ihg _ _ y (List.mem_cons_of_mem _ hy)

theorem markListF_reach (dmap : JMap (List String)) :
    ∀ (fuel : Nat) (ds S : List String) (x : String),
    x ∈ markListF dmap fuel ds S →
    x ∈ S ∨ ∃ d ∈ ds, x = d ∨ DReach dmap d x := by
  intro fuel
  induction fuel with
  | zero =>
    intro ds
    induction ds with
    | nil => intro S x hx; exact Or.inl hx
    | cons d ds' ih =>
      intro S x hx
      have hum : markListF dmap 0 (d :: ds') S
          = markListF dmap 0 ds' (if d ∈ S then S else d :: S) := rfl
      rw [hum] at hx
      rcases ih _ x hx with h1 | ⟨d2, hd2, h2⟩
      · by_cases hd : d ∈ S
        · rw [if_pos hd] at h1
          exact Or.inl h1
        · rw [if_neg hd] at h1
          rcases List.mem_cons.mp h1 with h3 | h3
          · exact Or.inr ⟨d, List.mem_cons_self _ _, Or.inl h3⟩
          · exact Or.inl h3
      · exact Or.inr ⟨d2, List.mem_cons_of_mem _ hd2, h2⟩
  | succ g ihg =>
    intro ds
    induction ds with
    | nil => intro S x hx; exact Or.inl hx
    | cons d ds' ih =>
      intro S x hx
      have hum : markListF dmap (g + 1) (d :: ds') S
          = markListF dmap (g + 1) ds'
              (if d ∈ S then S
               else markListF dmap g ((aget dmap d).getD []) (d :: S)) := rfl
      rw [hum] at hx
      rcases ih _ x hx with h1 | ⟨d2, hd2, h2⟩
      · by_cases hd : d ∈ S
        · rw [if_pos hd] at h1
          exact Or.inl h1
        · rw [if_neg hd] at h1
          rcases ihg _ _ x h1 with h3 | ⟨t, ht, h4⟩
          · rcases List.mem_cons.mp h3 with h5 | h5
            · exact Or.inr ⟨d, List.mem_cons_self _ _, Or.inl h5⟩
            · exact Or.inl h5
          · have hdt : dstep dmap d t := ht
            rcases h4 with h5 | h5
            · exact Or.inr ⟨d, List.mem_cons_self _ _,
                Or.inr (h5 ▸ Relation.TransGen.single hdt)⟩
            · exact Or.inr ⟨d, List.mem_cons_self _ _,
                Or.inr (Relation.TransGen.head hdt h5)⟩
      · exact Or.inr ⟨d2, List.mem_cons_of_mem _ hd2, h2⟩

theorem markListF_spec (dmap : JMap (List String)) :
    ∀ (fuel : Nat) (ds S : List String),
    (∀ d ∈ ds, d ∈ dTargets dmap) → markMeasure dmap S ≤ fuel →
    (∀ d ∈ ds, d ∈ markListF dmap fuel ds S) ∧
    (∀ x ∈ markListF dmap fuel ds S, x ∉ S →
      ∀ y ∈ (aget dmap x).getD [], y ∈ markListF dmap fuel ds S) := by
  intro fuel
  induction fuel with
  | zero =>
    intro ds
    induction ds with
    | nil =>
      intro S _ _
      exact ⟨fun d hd => absurd hd (List.not_mem_nil d),
        fun x hx hxn => absurd hx hxn⟩
    | cons d ds' ih =>
      intro S hds hm
      have hdS : d ∈ S := by
        by_contra hdS
        have hdf : d ∈ (dTargets dmap).toFinset.filter (fun t => t ∉ S) := by
          simp only [Finset.mem_filter]
          exact ⟨List.mem_toFinset.mpr (hds d (List.mem_cons_self _ _)), hdS⟩
        have : 0 < markMeasure dmap S := Finset.card_pos.mpr ⟨d, hdf⟩
        omega
      have hum : markListF dmap 0 (d :: ds') S = markListF dmap 0 ds' S := by
        show markListF dmap 0 ds' (if d ∈ S then S else d :: S) = _
        rw [if_pos hdS]
      obtain ⟨ih1, ih2⟩ := ih S (fun x hx => hds x (List.mem_cons_of_mem _ hx)) hm
      rw [hum]
      refine ⟨?_, ih2⟩
      intro d2 hd2
      rcases List.mem_cons.mp hd2 with h1 | h1
      · exact h1 ▸ markListF_mono dmap 0 ds' S d hdS
      · exact ih1 d2 h1
  | succ g ihg =>
    intro ds
    induction ds with
    | nil =>
      intro S _ _
      exact ⟨fun d hd => absurd hd (List.not_mem_nil d),
        fun x hx hxn => absurd hx hxn⟩
    | cons d ds' ih =>
      intro S hds hm
      by_cases hdS : d ∈ S
      · have hum : markListF dmap (g + 1) (d :: ds') S
            = markListF dmap (g + 1) ds' S := by
          show markListF dmap (g + 1) ds'
            (if d ∈ S then S
             else markListF dmap g ((aget dmap d).getD []) (d :: S)) = _
          rw [if_pos hdS]
        obtain ⟨ih1, ih2⟩ := ih S (fun x hx => hds x (List.mem_cons_of_mem _ hx)) hm
        rw [hum]
        refine ⟨?_, ih2⟩
        intro d2 hd2
        rcases List.mem_cons.mp hd2 with h1 | h1
        · exact h1 ▸ markListF_mono dmap (g + 1) ds' S d hdS
        · exact ih1 d2 h1
      · have hmeas : markMeasure dmap (d :: S) ≤ g := by
          have := markMeasure_insert_lt dmap d S (hds d (List.mem_cons_self _ _)) hdS
          omega
        obtain ⟨g1, g2⟩ := ihg ((aget dmap d).getD []) (d :: S)
          (fun t ht => targets_sub_dTargets dmap d t ht) hmeas
        have hS1mono : ∀ x ∈ d :: S,
            x ∈ markListF dmap g ((aget dmap d).getD []) (d :: S) :=
          markListF_mono dmap g _ _
        have hmeas1 : markMeasure dmap
            (markListF dmap g ((aget dmap d).getD []) (d :: S)) ≤ g + 1 := by
          have h1 := markMeasure_anti dmap (d :: S)
            (markListF dmap g ((aget dmap d).getD []) (d :: S)) hS1mono
          omega
        obtain ⟨i1, i2⟩ := ih (markListF dmap g ((aget dmap d).getD []) (d :: S))
          (fun x hx => hds x (List.mem_cons_of_mem _ hx)) hmeas1
        have hum : markListF dmap (g + 1) (d :: ds') S
            = markListF dmap (g + 1) ds'
                (markListF dmap g ((aget dmap d).getD []) (d :: S)) := by
          show markListF dmap (g + 1) ds'
            (if d ∈ S then S
             else markListF dmap g ((aget dmap d).getD []) (d :: S)) = _
          rw [if_neg hdS]
        rw [hum]
        have hS1res : ∀ x, x ∈ markListF dmap g ((aget dmap d).getD []) (d :: S) →
            x ∈ markListF dmap (g + 1) ds'
              (markListF dmap g ((aget dmap d).getD []) (d :: S)) :=
          fun x hx => markListF_mono dmap (g + 1) ds' _ x hx
        constructor
        · intro d2 hd2
          rcases List.mem_cons.mp hd2 with h1 | h1
          · exact h1 ▸ hS1res d (hS1mono d (List.mem_cons_self _ _))
          · exact i1 d2 h1
        · intro x hx hxS y hy
          by_cases hx1 : x ∈ markListF dmap g ((aget dmap d).getD []) (d :: S)
          · by_cases hxd : x = d
            · subst hxd
              exact hS1res y (g1 y hy)
            · have hxds : x ∉ d :: S := by
                intro hh
                rcases List.mem_cons.mp hh with h5 | h5
                · exact hxd h5
                · exact hxS h5
              exact hS1res y (g2 x hx1 hxds y hy)
          · exact i2 x hx hx1 y hy

theorem mark_mono (dmap : JMap (List String)) (fuel : Nat) (u : String)
    (S : List String) : ∀ x ∈ S, x ∈ markDownstreamSkipped dmap fuel u S := by
  cases fuel with
  | zero => intro x hx; exact hx
  | succ g => exact markListF_mono dmap g _ S

theorem mark_spec (dmap : JMap (List String)) (fuel : Nat) (u : String)
    (S : List String) (hfuel : markMeasure dmap S < fuel) :
    (∀ v ∈ (aget dmap u).getD [], v ∈ markDownstreamSkipped dmap fuel u S) ∧
    (∀ x ∈ markDownstreamSkipped dmap fuel u S, x ∉ S →
      ∀ y ∈ (aget dmap x).getD [], y ∈ markDownstreamSkipped dmap fuel u S) := by
  cases fuel with
  | zero => omega
  | succ g =>
    exact markListF_spec dmap g ((aget dmap u).getD []) S
      (fun t ht => targets_sub_dTargets dmap u t ht) (by omega)

theorem mark_reach (dmap : JMap (List String)) (fuel : Nat) (u : String)
    (S : List String) :
    ∀ x ∈ markDownstreamSkipped dmap fuel u S, x ∈ S ∨ DReach dmap u x := by
  cases fuel with
  | zero => intro x hx; exact Or.inl hx
  | succ g =>
    intro x hx
    rcases markListF_reach dmap g _ S x hx with h1 | ⟨d, hd, h2⟩
    · exact Or.inl h1
    · have hdstep : dstep dmap u d := hd
      rcases h2 with h3 | h3
      · exact Or.inr (h3 ▸ Relation.TransGen.single hdstep)
      · exact Or.inr (Relation.TransGen.head hdstep h3)

theorem mark_closed (dmap : JMap (List String)) (fuel : Nat) (u : String)
    (S : List String) (hfuel : markMeasure dmap S < fuel) (hS : DClosed dmap S) :
    DClosed dmap (markDownstreamSkipped dmap fuel u S) := by
  obtain ⟨h1, h2⟩ := mark_spec dmap fuel u S hfuel
  intro a ha b hb
  by_cases haS : a ∈ S
  · exact mark_mono dmap fuel u S b (hS a haS b hb)
  · exact h2 a ha haS b hb

theorem mark_closed_insert (dmap : JMap (List String)) (fuel : Nat) (u : String)
    (S : List String) (hfuel : markMeasure dmap S < fuel) (hS : DClosed dmap S) :
    DClosed dmap (markDownstreamSkipped dmap fuel u (u :: S)) := by
  have hfuel2 : markMeasure dmap (u :: S) < fuel := by
    have := markMeasure_anti dmap S (u :: S) (fun x hx => List.mem_cons_of_mem _ hx)
    omega
  obtain ⟨h1, h2⟩ := mark_spec dmap fuel u (u :: S) hfuel2
  intro a ha b hb
  by_cases haS : a ∈ u :: S
  · rcases List.mem_cons.mp haS with h3 | h3
    · subst h3
      exact h1 b hb
    · exact mark_mono dmap fuel u (u :: S) b
        (List.mem_cons_of_mem _ (hS a h3 b hb))
  · exact h2 a ha haS b hb

theorem dreach_closed (dmap : JMap (List String)) (T : List String) (u : String)
    (hT : DClosed dmap T) (h1 : ∀ b, dstep dmap u b → b ∈ T) :
    ∀ v, DReach dmap u v → v ∈ T := by
  intro v hv
  induction hv with
  | single h => exact h1 _ h
  | tail _ hstep ih => exact hT _ ih _ hstep

theorem foldl_flatten2 {α β : Type} (f : β → α → β) :
    ∀ (L : List (List α)) (b : β),
    L.flatten.foldl f b = L.foldl (fun b2 l => l.foldl f b2) b := by
  intro L
  induction L with
  | nil => intro b; rfl
  | cons l L' ih =>
    intro b
    rw [List.flatten_cons, List.foldl_append, List.foldl_cons, ih]

theorem waveIdx_cons (w : List String) (ws : List (List String)) (x : String) :
    waveIdx (w :: ws) x = if x ∈ w then 0 else waveIdx ws x + 1 := by
  unfold waveIdx
  rw [List.findIdx_cons]
  by_cases h : x ∈ w
  · simp [h]
  · simp [h]

theorem reach_mem_flatten (wf : Workflow) (L : List String)
    (hcl : ∀ a b, a ∈ L → hasEdge wf a b → b ∈ L) :
    ∀ a b, a ∈ L → Reach wf a b → b ∈ L := by
  intro a b ha hr
  induction hr with
  | single h => exact hcl _ _ ha h
  | tail _ h ih => exact hcl _ _ ih h

theorem forwardClosed_app (wf : Workflow) (fws : List String) :
    ∀ (w : List String), (∀ x ∈ w, ∀ b, Reach wf x b → b ∈ fws) →
    ForwardClosed wf fws → ForwardClosed wf (w ++ fws) := by
  intro w
  induction w with
  | nil =>
    intro _ h
    simpa using h
  | cons x w' ih =>
    intro hw hfc
    show (∀ b, Reach wf x b → b ∈ w' ++ fws) ∧ ForwardClosed wf (w' ++ fws)
    constructor
    · intro b hb
      exact List.mem_append.mpr (Or.inr (hw x (List.mem_cons_self _ _) b hb))
    · exact ih (fun y hy => hw y (List.mem_cons_of_mem _ hy)) hfc

theorem forwardClosed_flatten (wf : Workflow) :
    ∀ (waves : List (List String)),
    waves.flatten.Nodup →
    (∀ a b, a ∈ waves.flatten → hasEdge wf a b → b ∈ waves.flatten) →
    (∀ a b, a ∈ waves.flatten → b ∈ waves.flatten → Reach wf a b →
      waveIdx waves a < waveIdx waves b) →
    ForwardClosed wf waves.flatten := by
  intro waves
  induction waves with
  | nil =>
    intro _ _ _
    exact trivial
  | cons w ws ih =>
    intro hnd hcl hord
    rw [List.flatten_cons] at hnd ⊢
    obtain ⟨hndw, hndf, hdisj⟩ := List.nodup_append.mp hnd
    apply forwardClosed_app
    · intro x hx b hb
      have hxf : x ∈ (w :: ws).flatten := by
        rw [List.flatten_cons]
        exact List.mem_append.mpr (Or.inl hx)
      have hbf : b ∈ (w :: ws).flatten := reach_mem_flatten wf _ hcl x b hxf hb
      have hidx := hord x b hxf hbf hb
      have hx0 : waveIdx (w :: ws) x = 0 := by
        rw [waveIdx_cons, if_pos hx]
      have hbw : b ∉ w := by
        intro hbw
        have hb0 : waveIdx (w :: ws) b = 0 := by
          rw [waveIdx_cons, if_pos hbw]
        omega
      rw [List.flatten_cons] at hbf
      rcases List.mem_append.mp hbf with h1 | h1
      · exact absurd h1 hbw
      · exact h1
    · apply ih hndf
      · intro a b ha hab
        have haw : a ∉ w := fun hh => hdisj hh ha
        have haf : a ∈ (w :: ws).flatten := by
          rw [List.flatten_cons]
          exact List.mem_append.mpr (Or.inr ha)
        have hbf : b ∈ (w :: ws).flatten :=
          hcl a b haf hab
        have hidx := hord a b haf hbf (Relation.TransGen.single hab)
        have ha1 : waveIdx (w :: ws) a = waveIdx ws a + 1 := by
          rw [waveIdx_cons, if_neg haw]
        have hbw : b ∉ w := by
          intro hbw
          have hb0 : waveIdx (w :: ws) b = 0 := by
            rw [waveIdx_cons, if_pos hbw]
          omega
        rw [List.flatten_cons] at hbf
        rcases List.mem_append.mp hbf with h1 | h1
        · exact absurd h1 hbw
        · exact h1
      · intro a b ha hb hr
        have haw : a ∉ w := fun hh => hdisj hh ha
        have hbw : b ∉ w := fun hh => hdisj hh hb
        have haf : a ∈ (w :: ws).flatten := by
          rw [List.flatten_cons]
          exact List.mem_append.mpr (Or.inr ha)
        have hbf : b ∈ (w :: ws).flatten := by
          rw [List.flatten_cons]
          exact List.mem_append.mpr (Or.inr hb)
        have hidx := hord a b haf hbf hr
        have ha1 : waveIdx (w :: ws) a = waveIdx ws a + 1 := by
          rw [waveIdx_cons, if_neg haw]
        have hb1 : waveIdx (w :: ws) b = waveIdx ws b + 1 := by
          rw [waveIdx_cons, if_neg hbw]
        omega

theorem branchFold_state (dmap : JMap (List String)) (markFuel : Nat)
    (hfuel : ∀ S : List String, markMeasure dmap S < markFuel)
    (cond : WorkflowEdge → Bool) :
    ∀ (es : List WorkflowEdge) (st : WFState),
    (es.foldl (fun st' e =>
        if cond e then
          { st' with skipped := markDownstreamSkipped dmap markFuel e.toId (if e.toId ∈ st'.skipped then st'.skipped else e.toId :: st'.skipped) }
        else st') st).statuses = st.statuses ∧
    (es.foldl (fun st' e =>
        if cond e then
          { st' with skipped := markDownstreamSkipped dmap markFuel e.toId (if e.toId ∈ st'.skipped then st'.skipped else e.toId :: st'.skipped) }
        else st') st).results = st.results ∧
    (∀ x ∈ st.skipped, x ∈ (es.foldl (fun st' e =>
        if cond e then
          { st' with skipped := markDownstreamSkipped dmap markFuel e.toId (if e.toId ∈ st'.skipped then st'.skipped else e.toId :: st'.skipped) }
        else st') st).skipped) ∧
    (DClosed dmap st.skipped → DClosed dmap (es.foldl (fun st' e =>
        if cond e then
          { st' with skipped := markDownstreamSkipped dmap markFuel e.toId (if e.toId ∈ st'.skipped then st'.skipped else e.toId :: st'.skipped) }
        else st') st).skipped) ∧
    (∀ x ∈ (es.foldl (fun st' e =>
        if cond e then
          { st' with skipped := markDownstreamSkipped dmap markFuel e.toId (if e.toId ∈ st'.skipped then st'.skipped else e.toId :: st'.skipped) }
        else st') st).skipped, x ∉ st.skipped →
      ∃ e ∈ es, x = e.toId ∨ DReach dmap e.toId x) := by
  intro es
  induction es with
  | nil =>
    intro st
    exact ⟨rfl, rfl, fun x hx => hx, fun h => h,
      fun x hx hxn => absurd hx hxn⟩
  | cons e es' ih =>
    intro st
    simp only [List.foldl_cons]
    by_cases hc : cond e
    · rw [if_pos hc]
      set base := if e.toId ∈ st.skipped then st.skipped else e.toId :: st.skipped with hbase
      have hbase_sub : ∀ x ∈ st.skipped, x ∈ base := by
        intro x hx
        rw [hbase]
        by_cases hte : e.toId ∈ st.skipped
        · rw [if_pos hte]; exact hx
        · rw [if_neg hte]; exact List.mem_cons_of_mem _ hx
      have hmark_sub : ∀ x ∈ st.skipped,
          x ∈ markDownstreamSkipped dmap markFuel e.toId base := by
        intro x hx
        exact mark_mono dmap markFuel e.toId base x (hbase_sub x hx)
      have hmark_closed : DClosed dmap st.skipped →
          DClosed dmap (markDownstreamSkipped dmap markFuel e.toId base) := by
        intro hcl
        rw [hbase]
        by_cases hte : e.toId ∈ st.skipped
        · rw [if_pos hte]
          exact mark_closed dmap markFuel e.toId st.skipped (hfuel _) hcl
        · rw [if_neg hte]
          exact mark_closed_insert dmap markFuel e.toId st.skipped (hfuel _) hcl
      have hmark_new : ∀ x ∈ markDownstreamSkipped dmap markFuel e.toId base,
          x ∉ st.skipped → x = e.toId ∨ DReach dmap e.toId x := by
        intro x hx hxn
        rcases mark_reach dmap markFuel e.toId base x hx with h1 | h1
        · rw [hbase] at h1
          by_cases hte : e.toId ∈ st.skipped
          · rw [if_pos hte] at h1
            exact absurd h1 hxn
          · rw [if_neg hte] at h1
            rcases List.mem_cons.mp h1 with h2 | h2
            · exact Or.inl h2
            · exact absurd h2 hxn
        · exact Or.inr h1
      obtain ⟨i1, i2, i3, i4, i5⟩ := ih { st with
        skipped := markDownstreamSkipped dmap markFuel e.toId base }
      refine ⟨i1, i2, ?_, ?_, ?_⟩
      · intro x hx
        exact i3 x (hmark_sub x hx)
      · intro hcl
        exact i4 (hmark_closed hcl)
      · intro x hx hxn
        by_cases hx1 : x ∈ markDownstreamSkipped dmap markFuel e.toId base
        · rcases hmark_new x hx1 hxn with h1 | h1
          · exact ⟨e, List.mem_cons_self _ _, Or.inl h1⟩
          · exact ⟨e, List.mem_cons_self _ _, Or.inr h1⟩
        · obtain ⟨e2, he2, h2⟩ := i5 x hx hx1
          exact ⟨e2, List.mem_cons_of_mem _ he2, h2⟩
    · rw [if_neg hc]
      obtain ⟨i1, i2, i3, i4, i5⟩ := ih st
      refine ⟨i1, i2, i3, i4, ?_⟩
      intro x hx hxn
      obtain ⟨e2, he2, h2⟩ := i5 x hx hxn
      exact ⟨e2, List.mem_cons_of_mem _ he2, h2⟩

theorem dreach_to_reach (wf : Workflow) (a b : String)
    (h : DReach (buildDownstream wf.edges) a b) : Reach wf a b :=
  Relation.TransGen.mono (fun x y hxy => (dstep_iff_hasEdge wf x y).mp hxy) h

theorem edgesFrom_fact (wf : Workflow) (n : String) :
    ∀ e ∈ (aget (buildEdgesFrom wf.edges) n).getD [], e ∈ wf.edges ∧ e.fromId = n := by
  intro e he
  have h := (buildEdgesFrom_mem wf.edges [] n e).mp he
  rcases h with h1 | h1
  · simp [aget, List.find?] at h1
  · exact h1


theorem runWaveNode_step (wf : Workflow) (runNode : String → Except String NodeResult)
    (stopOnError : Option Bool) (aborted : Bool)
    (hstop : stopOnError ≠ some false)
    (st : WFState) (n : String) (R2 : List String)
    (inv : C3Inv wf st (n :: R2))
    (hreach : ∀ b, Reach wf n b → b ∈ R2)
    (hnR : n ∉ R2)
    (hfound : (aget (buildNodeMap wf.nodes) n).isSome) :
    C3Inv wf (runWaveNode (buildNodeMap wf.nodes) (buildDownstream wf.edges)
      (buildEdgesFrom wf.edges) runNode stopOnError aborted (wf.edges.length + 1) st n)
      R2 := by
  by_cases hskip : n ∈ st.skipped
  · unfold runWaveNode
    rw [if_pos hskip]
    refine ⟨inv.closed, ?_, ?_, ?_⟩
    · intro u hu v hv
      have hu2 : aget (aset st.statuses n NodeStatus.skipped) u = some NodeStatus.error := hu
      by_cases hun : u = n
      · subst hun
        rw [aget_aset_self] at hu2
        simp at hu2
      · rw [aget_aset_ne _ _ _ _ hun] at hu2
        exact inv.errMark u hu2 v hv
    · intro v hv
      by_cases hvn : v = n
      · subst hvn
        exact Or.inr ⟨by rw [aget_aset_self], inv.freshRes v (List.mem_cons_self _ _)⟩
      · rcases inv.skipRes v hv with h1 | h1
        · rcases List.mem_cons.mp h1 with h2 | h2
          · exact absurd h2 hvn
          · exact Or.inl h2
        · exact Or.inr ⟨by rw [aget_aset_ne _ _ _ _ hvn]; exact h1.1, h1.2⟩
    · intro v hv
      exact inv.freshRes v (List.mem_cons_of_mem _ hv)
  · by_cases hab : aborted
    · unfold runWaveNode
      rw [if_neg hskip, if_pos hab]
      refine ⟨inv.closed, ?_, ?_, ?_⟩
      · intro u hu v hv
        have hu2 : aget (aset st.statuses n NodeStatus.skipped) u = some NodeStatus.error := hu
        by_cases hun : u = n
        · subst hun
          rw [aget_aset_self] at hu2
          simp at hu2
        · rw [aget_aset_ne _ _ _ _ hun] at hu2
          exact inv.errMark u hu2 v hv
      · intro v hv
        have hvn : v ≠ n := fun hh => hskip (hh ▸ hv)
        rcases inv.skipRes v hv with h1 | h1
        · rcases List.mem_cons.mp h1 with h2 | h2
          · exact absurd h2 hvn
          · exact Or.inl h2
        · exact Or.inr ⟨by rw [aget_aset_ne _ _ _ _ hvn]; exact h1.1, h1.2⟩
      · intro v hv
        exact inv.freshRes v (List.mem_cons_of_mem _ hv)
    · obtain ⟨nd, hnd⟩ := Option.isSome_iff_exists.mp hfound
      unfold runWaveNode
      rw [if_neg hskip, if_neg hab, hnd]
      cases hrn : runNode n with
      | ok result =>
        by_cases hsucc : result.success
        · have main : ∀ (vars4 : Vars), C3Inv wf
              (if strTruthy result.nextNodeId = true then
                ((aget (buildEdgesFrom wf.edges) n).getD []).foldl
                  (fun st' e =>
                    if strTruthy e.condition && (e.condition != result.nextNodeId) then
                      { st' with skipped := markDownstreamSkipped (buildDownstream wf.edges) (wf.edges.length + 1) e.toId (if e.toId ∈ st'.skipped then st'.skipped else e.toId :: st'.skipped) }
                    else st')
                  ⟨aset (aset st.statuses n NodeStatus.running) n NodeStatus.success,
                   aset st.results n result, st.skipped, vars4, st.invoked ++ [n]⟩
              else
                ⟨aset (aset st.statuses n NodeStatus.running) n NodeStatus.success,
                 aset st.results n result, st.skipped, vars4, st.invoked ++ [n]⟩) R2 := by
            intro vars4
            have hcommon : ∀ (K : List String)
                (hKmono : ∀ x ∈ st.skipped, x ∈ K)
                (hKclosed : DClosed (buildDownstream wf.edges) K)
                (hKnew : ∀ x ∈ K, x ∉ st.skipped → x ∈ R2),
                C3Inv wf
                  ⟨aset (aset st.statuses n NodeStatus.running) n NodeStatus.success,
                   aset st.results n result, K, vars4, st.invoked ++ [n]⟩ R2 := by
              intro K hKmono hKclosed hKnew
              refine ⟨hKclosed, ?_, ?_, ?_⟩
              · intro u hu v hv
                have hu2 : aget (aset (aset st.statuses n NodeStatus.running) n
                    NodeStatus.success) u = some NodeStatus.error := hu
                by_cases hun : u = n
                · subst hun
                  rw [aget_aset_self] at hu2
                  simp at hu2
                · rw [aget_aset_ne _ _ _ _ hun, aget_aset_ne _ _ _ _ hun] at hu2
                  exact hKmono v (inv.errMark u hu2 v hv)
              · intro v hv
                by_cases hvold : v ∈ st.skipped
                · have hvn : v ≠ n := fun hh => hskip (hh ▸ hvold)
                  rcases inv.skipRes v hvold with h1 | h1
                  · rcases List.mem_cons.mp h1 with h2 | h2
                    · exact absurd h2 hvn
                    · exact Or.inl h2
                  · refine Or.inr ⟨?_, ?_⟩
                    · show aget (aset (aset st.statuses n NodeStatus.running) n
                        NodeStatus.success) v = some NodeStatus.skipped
                      rw [aget_aset_ne _ _ _ _ hvn, aget_aset_ne _ _ _ _ hvn]
                      exact h1.1
                    · show aget (aset st.results n result) v = none
                      rw [aget_aset_ne _ _ _ _ hvn]
                      exact h1.2
                · exact Or.inl (hKnew v hv hvold)
              · intro v hv
                have hvn : v ≠ n := fun hh => hnR (hh ▸ hv)
                show aget (aset st.results n result) v = none
                rw [aget_aset_ne _ _ _ _ hvn]
                exact inv.freshRes v (List.mem_cons_of_mem _ hv)
            by_cases hnext : strTruthy result.nextNodeId
            · rw [if_pos hnext]
              obtain ⟨b1, b2, b3, b4, b5⟩ := branchFold_state (buildDownstream wf.edges)
                (wf.edges.length + 1) (fun S => markMeasure_lt_fuel wf S)
                (fun (e : WorkflowEdge) => strTruthy e.condition && (e.condition != result.nextNodeId))
                ((aget (buildEdgesFrom wf.edges) n).getD [])
                (⟨aset (aset st.statuses n NodeStatus.running) n NodeStatus.success,
                 aset st.results n result, st.skipped, vars4, st.invoked ++ [n]⟩ : WFState)
              have hnewR2 : ∀ x ∈ (((aget (buildEdgesFrom wf.edges) n).getD []).foldl
                  (fun (st' : WFState) (e : WorkflowEdge) =>
                    if strTruthy e.condition && (e.condition != result.nextNodeId) then
                      { st' with skipped := markDownstreamSkipped (buildDownstream wf.edges) (wf.edges.length + 1) e.toId (if e.toId ∈ st'.skipped then st'.skipped else e.toId :: st'.skipped) }
                    else st')
                  (⟨aset (aset st.statuses n NodeStatus.running) n NodeStatus.success,
                   aset st.results n result, st.skipped, vars4, st.invoked ++ [n]⟩ : WFState)).skipped,
                  x ∉ st.skipped → x ∈ R2 := by
                intro x hx hxn
                obtain ⟨e, he, h2⟩ := b5 x hx hxn
                obtain ⟨heE, heF⟩ := edgesFrom_fact wf n e he
                have hdstep : dstep (buildDownstream wf.edges) n e.toId :=
                  (dstep_iff_hasEdge wf n e.toId).mpr ⟨e, heE, heF, rfl⟩
                have hre : Reach wf n x := by
                  rcases h2 with h3 | h3
                  · exact dreach_to_reach wf n x (h3 ▸ Relation.TransGen.single hdstep)
                  · exact dreach_to_reach wf n x (Relation.TransGen.head hdstep h3)
                exact hreach x hre
              obtain ⟨c1, c2, c3, c4⟩ := hcommon
                ((((aget (buildEdgesFrom wf.edges) n).getD []).foldl
                  (fun (st' : WFState) (e : WorkflowEdge) =>
                    if strTruthy e.condition && (e.condition != result.nextNodeId) then
                      { st' with skipped := markDownstreamSkipped (buildDownstream wf.edges) (wf.edges.length + 1) e.toId (if e.toId ∈ st'.skipped then st'.skipped else e.toId :: st'.skipped) }
                    else st')
                  (⟨aset (aset st.statuses n NodeStatus.running) n NodeStatus.success,
                   aset st.results n result, st.skipped, vars4, st.invoked ++ [n]⟩ : WFState)).skipped)
                b3 (b4 inv.closed) hnewR2
              refine ⟨c1, ?_, ?_, ?_⟩
              · intro u hu v hv
                rw [b1] at hu
                exact c2 u hu v hv
              · intro v hv
                rcases c3 v hv with h1 | ⟨h2, h3⟩
                · exact Or.inl h1
                · refine Or.inr ⟨?_, ?_⟩
                  · rw [b1]
                    exact h2
                  · rw [b2]
                    exact h3
              · intro v hv
                rw [b2]
                exact c4 v hv
            · rw [if_neg hnext]
              exact hcommon st.skipped (fun x hx => hx) inv.closed
                (fun x hx hxn => absurd hx hxn)
          show C3Inv wf
            (if result.success = true then
              (if strTruthy result.nextNodeId = true then
                ((aget (buildEdgesFrom wf.edges) n).getD []).foldl
                  (fun st' e =>
                    if strTruthy e.condition && (e.condition != result.nextNodeId) then
                      { st' with skipped := markDownstreamSkipped (buildDownstream wf.edges) (wf.edges.length + 1) e.toId (if e.toId ∈ st'.skipped then st'.skipped else e.toId :: st'.skipped) }
                    else st')
                  (match result.output with
                    | some out =>
                      ⟨aset (aset st.statuses n NodeStatus.running) n NodeStatus.success,
                       aset st.results n result, st.skipped,
                       storeNodeOutput st.vars n out, st.invoked ++ [n]⟩
                    | none =>
                      ⟨aset (aset st.statuses n NodeStatus.running) n NodeStatus.success,
                       aset st.results n result, st.skipped, st.vars, st.invoked ++ [n]⟩)
              else
                (match result.output with
                  | some out =>
                    ⟨aset (aset st.statuses n NodeStatus.running) n NodeStatus.success,
                     aset st.results n result, st.skipped,
                     storeNodeOutput st.vars n out, st.invoked ++ [n]⟩
                  | none =>
                    ⟨aset (aset st.statuses n NodeStatus.running) n NodeStatus.success,
                     aset st.results n result, st.skipped, st.vars, st.invoked ++ [n]⟩))
            else
              (if stopOnError ≠ some false then
                ⟨aset (aset st.statuses n NodeStatus.running) n NodeStatus.error,
                 aset st.results n result,
                 markDownstreamSkipped (buildDownstream wf.edges) (wf.edges.length + 1) n st.skipped,
                 st.vars, st.invoked ++ [n]⟩
              else
                ⟨aset (aset st.statuses n NodeStatus.running) n NodeStatus.error,
                 aset st.results n result, st.skipped, st.vars, st.invoked ++ [n]⟩)) R2
          rw [if_pos hsucc]
          cases hout : result.output with
          | some out => exact main (storeNodeOutput st.vars n out)
          | none => exact main st.vars
        · show C3Inv wf
            (if result.success = true then
              (if strTruthy result.nextNodeId = true then
                ((aget (buildEdgesFrom wf.edges) n).getD []).foldl
                  (fun st' e =>
                    if strTruthy e.condition && (e.condition != result.nextNodeId) then
                      { st' with skipped := markDownstreamSkipped (buildDownstream wf.edges) (wf.edges.length + 1) e.toId (if e.toId ∈ st'.skipped then st'.skipped else e.toId :: st'.skipped) }
                    else st')
                  (match result.output with
                    | some out =>
                      ⟨aset (aset st.statuses n NodeStatus.running) n NodeStatus.success,
                       aset st.results n result, st.skipped,
                       storeNodeOutput st.vars n out, st.invoked ++ [n]⟩
                    | none =>
                      ⟨aset (aset st.statuses n NodeStatus.running) n NodeStatus.success,
                       aset st.results n result, st.skipped, st.vars, st.invoked ++ [n]⟩)
              else
                (match result.output with
                  | some out =>
                    ⟨aset (aset st.statuses n NodeStatus.running) n NodeStatus.success,
                     aset st.results n result, st.skipped,
                     storeNodeOutput st.vars n out, st.invoked ++ [n]⟩
                  | none =>
                    ⟨aset (aset st.statuses n NodeStatus.running) n NodeStatus.success,
                     aset st.results n result, st.skipped, st.vars, st.invoked ++ [n]⟩))
            else
              (if stopOnError ≠ some false then
                ⟨aset (aset st.statuses n NodeStatus.running) n NodeStatus.error,
                 aset st.results n result,
                 markDownstreamSkipped (buildDownstream wf.edges) (wf.edges.length + 1) n st.skipped,
                 st.vars, st.invoked ++ [n]⟩
              else
                ⟨aset (aset st.statuses n NodeStatus.running) n NodeStatus.error,
                 aset st.results n result, st.skipped, st.vars, st.invoked ++ [n]⟩)) R2
          rw [if_neg hsucc, if_pos hstop]
          refine ⟨?_, ?_, ?_, ?_⟩
          · exact mark_closed (buildDownstream wf.edges) (wf.edges.length + 1) n
              st.skipped (markMeasure_lt_fuel wf _) inv.closed
          · intro u hu v hv
            have hu2 : aget (aset (aset st.statuses n NodeStatus.running) n
                NodeStatus.error) u = some NodeStatus.error := hu
            by_cases hun : u = n
            · subst hun
              exact (mark_spec (buildDownstream wf.edges) (wf.edges.length + 1) u
                st.skipped (markMeasure_lt_fuel wf _)).1 v hv
            · rw [aget_aset_ne _ _ _ _ hun, aget_aset_ne _ _ _ _ hun] at hu2
              exact mark_mono (buildDownstream wf.edges) (wf.edges.length + 1) n
                st.skipped v (inv.errMark u hu2 v hv)
          · intro v hv
            by_cases hvold : v ∈ st.skipped
            · have hvn : v ≠ n := fun hh => hskip (hh ▸ hvold)
              rcases inv.skipRes v hvold with h1 | h1
              · rcases List.mem_cons.mp h1 with h2 | h2
                · exact absurd h2 hvn
                · exact Or.inl h2
              · refine Or.inr ⟨?_, ?_⟩
                · show aget (aset (aset st.statuses n NodeStatus.running) n
                    NodeStatus.error) v = some NodeStatus.skipped
                  rw [aget_aset_ne _ _ _ _ hvn, aget_aset_ne _ _ _ _ hvn]
                  exact h1.1
                · show aget (aset st.results n result) v = none
                  rw [aget_aset_ne _ _ _ _ hvn]
                  exact h1.2
            · rcases mark_reach (buildDownstream wf.edges) (wf.edges.length + 1) n
                st.skipped v hv with h1 | h1
              · exact absurd h1 hvold
              · exact Or.inl (hreach v (dreach_to_reach wf n v h1))
          · intro v hv
            have hvn : v ≠ n := fun hh => hnR (hh ▸ hv)
            show aget (aset st.results n result) v = none
            rw [aget_aset_ne _ _ _ _ hvn]
            exact inv.freshRes v (List.mem_cons_of_mem _ hv)
      | error errMsg =>
        show C3Inv wf
          (if stopOnError ≠ some false then
            ⟨aset (aset st.statuses n NodeStatus.running) n NodeStatus.error,
             aset st.results n (⟨false, none, some errMsg, none⟩ : NodeResult),
             markDownstreamSkipped (buildDownstream wf.edges) (wf.edges.length + 1) n st.skipped,
             st.vars, st.invoked ++ [n]⟩
          else
            ⟨aset (aset st.statuses n NodeStatus.running) n NodeStatus.error,
             aset st.results n (⟨false, none, some errMsg, none⟩ : NodeResult),
             st.skipped, st.vars, st.invoked ++ [n]⟩) R2
        rw [if_pos hstop]
        refine ⟨?_, ?_, ?_, ?_⟩
        · exact mark_closed (buildDownstream wf.edges) (wf.edges.length + 1) n
            st.skipped (markMeasure_lt_fuel wf _) inv.closed
        · intro u hu v hv
          have hu2 : aget (aset (aset st.statuses n NodeStatus.running) n
              NodeStatus.error) u = some NodeStatus.error := hu
          by_cases hun : u = n
          · subst hun
            exact (mark_spec (buildDownstream wf.edges) (wf.edges.length + 1) u
              st.skipped (markMeasure_lt_fuel wf _)).1 v hv
          · rw [aget_aset_ne _ _ _ _ hun, aget_aset_ne _ _ _ _ hun] at hu2
            exact mark_mono (buildDownstream wf.edges) (wf.edges.length + 1) n
              st.skipped v (inv.errMark u hu2 v hv)
        · intro v hv
          by_cases hvold : v ∈ st.skipped
          · have hvn : v ≠ n := fun hh => hskip (hh ▸ hvold)
            rcases inv.skipRes v hvold with h1 | h1
            · rcases List.mem_cons.mp h1 with h2 | h2
              · exact absurd h2 hvn
              · exact Or.inl h2
            · refine Or.inr ⟨?_, ?_⟩
              · show aget (aset (aset st.statuses n NodeStatus.running) n
                  NodeStatus.error) v = some NodeStatus.skipped
                rw [aget_aset_ne _ _ _ _ hvn, aget_aset_ne _ _ _ _ hvn]
                exact h1.1
              · show aget (aset st.results n
                  (⟨false, none, some errMsg, none⟩ : NodeResult)) v = none
                rw [aget_aset_ne _ _ _ _ hvn]
                exact h1.2
          · rcases mark_reach (buildDownstream wf.edges) (wf.edges.length + 1) n
              st.skipped v hv with h1 | h1
            · exact absurd h1 hvold
            · exact Or.inl (hreach v (dreach_to_reach wf n v h1))
        · intro v hv
          have hvn : v ≠ n := fun hh => hnR (hh ▸ hv)
          show aget (aset st.results n
            (⟨false, none, some errMsg, none⟩ : NodeResult)) v = none
          rw [aget_aset_ne _ _ _ _ hvn]
          exact inv.freshRes v (List.mem_cons_of_mem _ hv)

theorem wfFold_inv (wf : Workflow) (runNode : String → Except String NodeResult)
    (stopOnError : Option Bool) (aborted : Bool) (hstop : stopOnError ≠ some false) :
    ∀ (L : List String) (st : WFState),
    C3Inv wf st L → ForwardClosed wf L → L.Nodup →
    (∀ v ∈ L, (aget (buildNodeMap wf.nodes) v).isSome) →
    C3Inv wf (L.foldl (runWaveNode (buildNodeMap wf.nodes) (buildDownstream wf.edges)
      (buildEdgesFrom wf.edges) runNode stopOnError aborted (wf.edges.length + 1)) st)
      [] := by
  intro L
  induction L with
  | nil =>
    intro st inv _ _ _
    exact inv
  | cons n R2 ih =>
    intro st inv hfc hnd hfound
    have hfc2 : (∀ b, Reach wf n b → b ∈ R2) ∧ ForwardClosed wf R2 := hfc
    have hnd2 := List.nodup_cons.mp hnd
    simp only [List.foldl_cons]
    apply ih
    · exact runWaveNode_step wf runNode stopOnError aborted hstop st n R2 inv
        hfc2.1 hnd2.1 (hfound n (List.mem_cons_self _ _))
    · exact hfc2.2
    · exact hnd2.2
    · intro v hv
      exact hfound v (List.mem_cons_of_mem _ hv)

/-- C3: in a run of executeWorkflow that returns normally, when
stopOnError is not explicitly false and a node u finishes with status
error, every node v reachable from u along edges finishes with status
skipped and has no entry in the results map. -/
theorem C3_skip_propagation (wf : Workflow)
    (runNode : String → Except String NodeResult) (initialVars : Vars)
    (stopOnError : Option Bool) (aborted : Bool)
    (hstop : stopOnError ≠ some false)
    (statuses : JMap NodeStatus) (results : JMap NodeResult)
    (invoked : List String) (success : Bool)
    (hrun : executeWorkflow wf runNode initialVars stopOnError aborted
      = Except.ok (statuses, results, invoked, success))
    (u v : String)
    (herr : aget statuses u = some NodeStatus.error)
    (hreach : Reach wf u v) :
    aget statuses v = some NodeStatus.skipped ∧ aget results v = none := by
  unfold executeWorkflow at hrun
  cases htp : topologicalSort wf with
  | error e =>
    rw [htp] at hrun
    cases hrun
  | ok waves =>
    rw [htp] at hrun
    have hrun2 : Except.ok
        ((waves.foldl
          (fun st wave => wave.foldl
            (runWaveNode (buildNodeMap wf.nodes) (buildDownstream wf.edges)
              (buildEdgesFrom wf.edges) runNode stopOnError aborted
              (wf.edges.length + 1)) st)
          (⟨initStatuses (nodeIdsOf wf), [], [], initialVars, []⟩ : WFState)).statuses,
         (waves.foldl
          (fun st wave => wave.foldl
            (runWaveNode (buildNodeMap wf.nodes) (buildDownstream wf.edges)
              (buildEdgesFrom wf.edges) runNode stopOnError aborted
              (wf.edges.length + 1)) st)
          (⟨initStatuses (nodeIdsOf wf), [], [], initialVars, []⟩ : WFState)).results,
         (waves.foldl
          (fun st wave => wave.foldl
            (runWaveNode (buildNodeMap wf.nodes) (buildDownstream wf.edges)
              (buildEdgesFrom wf.edges) runNode stopOnError aborted
              (wf.edges.length + 1)) st)
          (⟨initStatuses (nodeIdsOf wf), [], [], initialVars, []⟩ : WFState)).invoked,
         (waves.foldl
          (fun st wave => wave.foldl
            (runWaveNode (buildNodeMap wf.nodes) (buildDownstream wf.edges)
              (buildEdgesFrom wf.edges) runNode stopOnError aborted
              (wf.edges.length + 1)) st)
          (⟨initStatuses (nodeIdsOf wf), [], [], initialVars, []⟩ : WFState)).statuses.all
           (fun p => decide (p.2 = NodeStatus.success ∨ p.2 = NodeStatus.skipped)))
        = Except.ok (statuses, results, invoked, success) := hrun
    simp only [Except.ok.injEq, Prod.mk.injEq] at hrun2
    obtain ⟨hstat, hres, hinv, hsuc⟩ := hrun2
    obtain ⟨hflnd, hflsub, hids, hdecl, hord⟩ := topo_ok_facts wf waves htp
    have hfoldflat := foldl_flatten2
      (runWaveNode (buildNodeMap wf.nodes) (buildDownstream wf.edges)
        (buildEdgesFrom wf.edges) runNode stopOnError aborted (wf.edges.length + 1))
      waves (⟨initStatuses (nodeIdsOf wf), [], [], initialVars, []⟩ : WFState)
    have hinv0 : C3Inv wf
        (⟨initStatuses (nodeIdsOf wf), [], [], initialVars, []⟩ : WFState)
        waves.flatten := by
      refine ⟨?_, ?_, ?_, ?_⟩
      · intro a ha
        exact absurd ha (List.not_mem_nil a)
      · intro u2 hu2 v2 _
        have hnentry := initFold_entries NodeStatus.idle (nodeIdsOf wf) []
          (fun p hp => absurd hp (List.not_mem_nil p)) (u2, NodeStatus.error)
          (aget_mem hu2)
        cases hnentry
      · intro v2 hv2
        exact absurd hv2 (List.not_mem_nil v2)
      · intro v2 _
        rfl
    have hfc : ForwardClosed wf waves.flatten := by
      refine forwardClosed_flatten wf waves hflnd ?_ ?_
      · intro a b _ hab
        obtain ⟨e, he, _, heto⟩ := hab
        exact hids b (heto ▸ (hdecl e he).2)
      · intro a b h1 h2 hr
        clear h1 h2
        induction hr with
        | single h => exact hord _ _ h
        | tail _ h ihr => exact lt_trans ihr (hord _ _ h)
    have hfoundL : ∀ x ∈ waves.flatten, (aget (buildNodeMap wf.nodes) x).isSome :=
      fun x hx => nodeMap_some_of_declared wf x (hflsub x hx)
    have hfinal := wfFold_inv wf runNode stopOnError aborted hstop
      waves.flatten (⟨initStatuses (nodeIdsOf wf), [], [], initialVars, []⟩ : WFState)
      hinv0 hfc hflnd hfoundL
    rw [hfoldflat] at hfinal
    rw [← hstat] at herr ⊢
    rw [← hres]
    have herr2 := hfinal.errMark u herr
    have hDreach : DReach (buildDownstream wf.edges) u v :=
      Relation.TransGen.mono (fun x y hxy => (dstep_iff_hasEdge wf x y).mpr hxy) hreach
    have hvskip := dreach_closed (buildDownstream wf.edges) _ u hfinal.closed herr2
      v hDreach
    rcases hfinal.skipRes v hvskip with h1 | h1
    · exact absurd h1 (List.not_mem_nil v)
    · exact h1

theorem C3_skip_propagation_witness :
    ∃ (stt : JMap NodeStatus) (res : JMap NodeResult) (inv2 : List String) (b : Bool),
      executeWorkflow wfC3 runC3 [] none false = Except.ok (stt, res, inv2, b) ∧
      aget stt "a" = some NodeStatus.error ∧
      aget stt "c" = some NodeStatus.skipped ∧ aget res "c" = none := by
  have h1 : hasEdge wfC3 "a" "b" :=
    ⟨⟨"a", "b", none⟩, List.mem_cons_self _ _, rfl, rfl⟩
  have h2 : hasEdge wfC3 "b" "c" :=
    ⟨⟨"b", "c", none⟩, List.mem_cons_of_mem _ (List.mem_cons_self _ _), rfl, rfl⟩
  refine ⟨_, _, _, _, rfl, ?_, ?_⟩
  · rfl
  · exact C3_skip_propagation wfC3 runC3 [] none false (by decide) _ _ _ _ rfl
      "a" "c" (by rfl) (Relation.TransGen.tail (Relation.TransGen.single h1) h2)
